import Mathlib

/-!
THuffman: a shallow embedding of the codec and its bit buffer.

Source files embedded here: `bit_buffer.h` (class `TBitBuffer`),
`huffman_btree.h` (class `THuffmanBTree`) and `huffman.h` (class `THuffman`).

Modelling conventions

* A byte (`char` / `unsigned char`) is its bit pattern, a `Fin 256`.
  The conversion of a wider integer to `char` is the reduction modulo 256,
  `Fin.ofNat`.
* `bitsBuffer` is a `std::string` holding only the characters `'0'` and `'1'`;
  it is modelled as a `List Bool` (`true` is `'1'`).
* Integer widths are those of an LP64 build: `unsigned int` has 32 bits,
  `unsigned long` and `size_t` have 64. Lengths of strings and the counters
  that run over them are natural numbers: no string has `2 ^ 32` elements or
  more, so none of them wraps. Where a value is not bounded by the length of a
  string, the width is modelled: `Size` after the marker has passed the end of
  the buffer, and `AppendNumber_lp64` / `ReadNumber_lp64`, the two methods on
  any `unsigned long`. The codec only hands lengths of codes to `AppendNumber`,
  which are below `2 ^ 32`, where `AppendNumber` and `ReadNumber` on natural
  numbers are the same functions (`AppendNumber_lp64_eq`, `ReadNumber_lp64_eq`).
* `std::string::at` and `std::vector::at` throw `std::out_of_range`; a function
  that can throw returns an `Option`, and `none` is the exception.
* Two things are left to the C++ implementation by the language: whether plain
  `char` is signed (the order of the keys of `std::map<const char, _>`) and how
  `std::sort` orders elements that compare equal. Both are fields of
  `StdImpl`, and the theorems hold for every `StdImpl`.
* The instance of `THuffman` is threaded through its methods: a method takes
  the instance and returns the instance it leaves behind.
-/

set_option autoImplicit false

namespace THuff

/-- One byte value, the bit pattern of a `char`. -/
abbrev Byte := Fin 256

/-! ## bit_buffer.h -/

/-- The class `TBitBuffer`: the buffer itself and the position marker used by
the Read operations. -/
structure TBitBuffer where
  bitsBuffer : List Bool
  bufferPos : Nat
deriving DecidableEq, Repr

namespace TBitBuffer

/-- The constructor `TBitBuffer()`: an empty buffer, marker at 0. -/
def new : TBitBuffer := ⟨[], 0⟩

/-- The method `_AppendBit`: adds one bit to the buffer. -/
def _AppendBit (b : TBitBuffer) (bit : Bool) : TBitBuffer :=
  { b with bitsBuffer := b.bitsBuffer ++ [bit] }

/-- The method `_ReadBit`: `bitsBuffer.at(bufferPos++) == '1'`; `none` when
`at` throws. -/
def _ReadBit (b : TBitBuffer) : Option (Bool × TBitBuffer) :=
  match b.bitsBuffer[b.bufferPos]? with
  | some bit => some (bit, { b with bufferPos := b.bufferPos + 1 })
  | none => none

/-- The buffer a throwing `_ReadBit` leaves behind: in
`bitsBuffer.at(bufferPos++)` the marker is incremented before `at` throws, so
the marker is then past the end of the buffer. -/
def _ReadBit_thrown (b : TBitBuffer) : TBitBuffer := { b with bufferPos := b.bufferPos + 1 }

/-- The method `Clear`. -/
def Clear (_b : TBitBuffer) : TBitBuffer := ⟨[], 0⟩

/-- The method `Size`: `bitsBuffer.size() - bufferPos`, computed in
`unsigned long`. While the marker is inside the buffer this is the number of
unread bits; once the marker has passed the end (see `_ReadBit_thrown`) the
subtraction wraps around `2 ^ 64`. -/
def Size (b : TBitBuffer) : Nat :=
  if b.bufferPos ≤ b.bitsBuffer.length then b.bitsBuffer.length - b.bufferPos
  else 2 ^ 64 - (b.bufferPos - b.bitsBuffer.length)

/-- The method `ReadAllBits`. -/
def ReadAllBits (b : TBitBuffer) : List Bool := b.bitsBuffer

/-- The method `ReadBit`: the next bit as a character. -/
def ReadBit (b : TBitBuffer) : Option (Bool × TBitBuffer) :=
  match b._ReadBit with
  | some (bit, b1) => some (if bit = true then true else false, b1)
  | none => none

/-- The method `AssignBits`. -/
def AssignBits (_b : TBitBuffer) (input : List Bool) : TBitBuffer := ⟨input, 0⟩

/-- The method `AppendBits`. -/
def AppendBits (b : TBitBuffer) (input : List Bool) : TBitBuffer :=
  { b with bitsBuffer := b.bitsBuffer ++ input }

/-- The loop `for(i=0;i<n;i++) _AppendBit(bit);`. -/
def appendRepeat (bit : Bool) : Nat → TBitBuffer → TBitBuffer
  | 0, b => b
  | n + 1, b => appendRepeat bit n (b._AppendBit bit)

/-- The loop of `AppendByte` (and the inner loop of `AssignBytes`): `n` more
bits of `input` are appended, the mask moving right after each. -/
def appendMasked (input : Byte) : Nat → Nat → TBitBuffer → TBitBuffer
  | 0, _, b => b
  | n + 1, mask, b =>
    appendMasked input n (mask >>> 1) (b._AppendBit (decide (input.val &&& mask ≠ 0)))

/-- The method `AppendByte`: eight bits, mask starting at `0x80`. -/
def AppendByte (b : TBitBuffer) (input : Byte) : TBitBuffer :=
  appendMasked input 8 0x80 b

/-- The outer loop of `AssignBytes`. -/
def assignBytesLoop : List Byte → TBitBuffer → TBitBuffer
  | [], b => b
  | character :: rest, b => assignBytesLoop rest (appendMasked character 8 0x80 b)

/-- The method `AssignBytes`: the buffer is cleared and every byte of the
input decomposed. -/
def AssignBytes (_b : TBitBuffer) (input : List Byte) : TBitBuffer :=
  assignBytesLoop input ⟨[], 0⟩

/-- The loop of `ReadBits`: `len` bits are read and appended to `r`. -/
def readBitsLoop : Nat → TBitBuffer → List Bool → Option (List Bool × TBitBuffer)
  | 0, b, r => some (r, b)
  | n + 1, b, r =>
    match b._ReadBit with
    | some (bit, b1) => readBitsLoop n b1 (r ++ [if bit = true then true else false])
    | none => none

/-- The method `ReadBits`. -/
def ReadBits (b : TBitBuffer) (len : Nat) : Option (List Bool × TBitBuffer) :=
  if len = 1 then
    match b._ReadBit with
    | some (bit, b1) => some ([if bit = true then true else false], b1)
    | none => none
  else readBitsLoop len b []

/-- The method `AppendNumber` on values below `2 ^ 32`, as the codec calls it:
`value / 5` ones, a zero, `value % 5` ones, a zero. -/
def AppendNumber (b : TBitBuffer) (value : Nat) : TBitBuffer :=
  let a := value / 5
  let r := value % 5
  ((appendRepeat true r ((appendRepeat true a b)._AppendBit false)))._AppendBit false

/-- One loop `while(_ReadBit() != false) a++;` of `ReadNumber`. Every
iteration moves the marker, so `Size() + 1` iterations always suffice; the
fuel only makes the recursion structural. -/
def readTally : Nat → TBitBuffer → Nat → Option (Nat × TBitBuffer)
  | 0, _, _ => none
  | fuel + 1, b, a =>
    match b._ReadBit with
    | some (true, b1) => readTally fuel b1 (a + 1)
    | some (false, b1) => some (a, b1)
    | none => none

/-- The method `ReadNumber` on numbers below `2 ^ 32`, as the codec reads
them: `(a*5)+b` for the two runs of ones counted. -/
def ReadNumber (b : TBitBuffer) : Option (Nat × TBitBuffer) :=
  match readTally (b.Size + 1) b 0 with
  | some (a, b1) =>
    match readTally (b1.Size + 1) b1 0 with
    | some (r, b2) => some (a * 5 + r, b2)
    | none => none
  | none => none

/-- The method `AppendNumber` on any `unsigned long`: `value / 5` and
`value % 5` are stored in the `unsigned int` variables `a` and `b`, which
keeps them modulo `2 ^ 32`. -/
def AppendNumber_lp64 (b : TBitBuffer) (value : Nat) : TBitBuffer :=
  let a := value % 2 ^ 64 / 5 % 2 ^ 32
  let r := value % 2 ^ 64 % 5 % 2 ^ 32
  ((appendRepeat true r ((appendRepeat true a b)._AppendBit false)))._AppendBit false

/-- The method `ReadNumber` with its `unsigned int` arithmetic: the counters
`a` and `b` and the value `(a*5)+b` are kept modulo `2 ^ 32`. -/
def ReadNumber_lp64 (b : TBitBuffer) : Option (Nat × TBitBuffer) :=
  match readTally (b.Size + 1) b 0 with
  | some (a, b1) =>
    match readTally (b1.Size + 1) b1 0 with
    | some (r, b2) => some ((a % 2 ^ 32 * 5 + r % 2 ^ 32) % 2 ^ 32, b2)
    | none => none
  | none => none

/-- The method `AppendPadding`. -/
def AppendPadding (b : TBitBuffer) (totalSize : Nat) : TBitBuffer :=
  let paddingSize := 8 - totalSize % 8
  if paddingSize < 8 then
    (appendRepeat false (paddingSize - 1) b)._AppendBit true
  else
    (appendRepeat false 7 b)._AppendBit true

/-- The loop of `ReadPadding`: at most `n` more bits are read, stopping after
the first one. -/
def readPaddingLoop : Nat → TBitBuffer → Option TBitBuffer
  | 0, b => some b
  | n + 1, b =>
    match b._ReadBit with
    | some (true, b1) => some b1
    | some (false, b1) => readPaddingLoop n b1
    | none => none

/-- The method `ReadPadding`. -/
def ReadPadding (b : TBitBuffer) : Option TBitBuffer := readPaddingLoop 8 b

/-- The loop of `ReadByte`: bit `7 - i` of the bitset is set from the next bit
read, for `i = 8 - n, ..., 7`. -/
def readByteLoop : Nat → TBitBuffer → Nat → Option (Nat × TBitBuffer)
  | 0, b, byte => some (byte, b)
  | n + 1, b, byte =>
    match b._ReadBit with
    | some (bit, b1) => readByteLoop n b1 (if bit = true then byte + 2 ^ n else byte)
    | none => none

/-- The method `ReadByte`. -/
def ReadByte (b : TBitBuffer) : Option (Byte × TBitBuffer) :=
  match readByteLoop 8 b 0 with
  | some (byte, b1) => some (Fin.ofNat byte, b1)
  | none => none

/-- The inner loop of `ReadAllBytes`: for `j = 8 - n, ..., 7`, stop when
`i + j` is past the end, else set bit `7 - j` from `bitsBuffer.at(i + j)`.
Here `k` is `i + j`. -/
def packByte (bitsBuffer : List Bool) : Nat → Nat → Nat → Nat
  | 0, _, byte => byte
  | n + 1, k, byte =>
    match bitsBuffer[k]? with
    | none => byte
    | some bit => packByte bitsBuffer n (k + 1) (if bit = true then byte + 2 ^ n else byte)

/-- The outer loop of `ReadAllBytes`, `for(i=0;i<bufferSize;i+=8)`. It runs
at most `bufferSize` times; the fuel only makes the recursion structural. -/
def readAllBytesLoop (bitsBuffer : List Bool) : Nat → Nat → List Byte
  | 0, _ => []
  | fuel + 1, i =>
    if i < bitsBuffer.length then
      Fin.ofNat (packByte bitsBuffer 8 i 0) :: readAllBytesLoop bitsBuffer fuel (i + 8)
    else []

/-- The method `ReadAllBytes`. -/
def ReadAllBytes (b : TBitBuffer) : List Byte :=
  readAllBytesLoop b.bitsBuffer b.bitsBuffer.length 0

end TBitBuffer

/-! ## huffman_btree.h -/

/-- A `node_t *`: `null` is the NULL pointer, `node` a pointer to a node with
its four members. -/
inductive node_t where
  | null : node_t
  | node (letter : Byte) (totalFrequency : Nat) (left right : node_t) : node_t
deriving DecidableEq, Repr

/-- The member access `p->totalFrequency`. The codec only reads it through
roots of forest trees, which are never NULL; the model gives NULL the value
0. -/
def node_t.freq : node_t → Nat
  | .null => 0
  | .node _ f _ _ => f

/-- The member access `p->letter`, with the same convention for NULL. -/
def node_t.char : node_t → Byte
  | .null => 0
  | .node c _ _ _ => c

/-- The class `THuffmanBTree`: its only data member is `root`. -/
structure THuffmanBTree where
  root : node_t
deriving DecidableEq, Repr

namespace THuffmanBTree

/-- The constructor: `root = NULL`. -/
def new : THuffmanBTree := ⟨.null⟩

/-- The getter `GetRoot`. -/
def GetRoot (t : THuffmanBTree) : node_t := t.root

/-- The getter `GetRootLetter`. -/
def GetRootLetter (t : THuffmanBTree) : Byte := t.root.char

/-- The getter `GetRootFreq`. -/
def GetRootFreq (t : THuffmanBTree) : Nat := t.root.freq

/-- The method `DefineRoot`: a new root owning the two given nodes, its
frequency their sum. -/
def DefineRoot (_t : THuffmanBTree) (_letter : Byte) (newLeft newRight : node_t) :
    THuffmanBTree :=
  ⟨.node _letter (newLeft.freq + newRight.freq) newLeft newRight⟩

/-- The method `_BitCode`: the search for `needle` below `leaf`, `bitCode`
being the path walked so far. -/
def _BitCode (needle : Byte) : node_t → List Bool → List Bool
  | .null, _ => []
  | .node letter _ left right, bitCode =>
    if letter = needle then bitCode
    else
      let foo := _BitCode needle left (bitCode ++ [false])
      if foo.length > 0 then foo
      else _BitCode needle right (bitCode ++ [true])

/-- The method `BitCode`. -/
def BitCode (t : THuffmanBTree) (a : Byte) : List Bool := _BitCode a t.root []

/-- The method `_Insert`: the simple ordered insert below a node. It is only
called on a node; on NULL the model returns NULL. -/
def _Insert (_letter : Byte) (_totalFrequency : Nat) : node_t → node_t
  | .null => .null
  | .node c f left right =>
    if f > _totalFrequency then
      match left with
      | .null => .node c f (.node _letter _totalFrequency .null .null) right
      | .node c1 f1 l1 r1 =>
        .node c f (_Insert _letter _totalFrequency (.node c1 f1 l1 r1)) right
    else
      match right with
      | .null => .node c f left (.node _letter _totalFrequency .null .null)
      | .node c1 f1 l1 r1 =>
        .node c f left (_Insert _letter _totalFrequency (.node c1 f1 l1 r1))

/-- The method `Insert`. -/
def Insert (t : THuffmanBTree) (_letter : Byte) (_totalFrequency : Nat) : THuffmanBTree :=
  match t.root with
  | .null => ⟨.node _letter _totalFrequency .null .null⟩
  | .node c f l r => ⟨_Insert _letter _totalFrequency (.node c f l r)⟩

end THuffmanBTree

/-! ## huffman.h -/

/-- The compare function `__TreeFreqCmp` handed to `sort`. -/
def __TreeFreqCmp (a b : THuffmanBTree) : Bool := decide (a.GetRootFreq < b.GetRootFreq)

/-- What the language leaves to the C++ implementation: the signedness of
plain `char`, and `std::sort`, of which the standard only promises that the
result is a rearrangement of the range in which no element compares less than
an earlier one. -/
structure StdImpl where
  charSigned : Bool
  sort : List THuffmanBTree → List THuffmanBTree
  sort_perm : ∀ l, (sort l).Perm l
  sort_sorted : ∀ l, (sort l).Pairwise (fun a b => __TreeFreqCmp b a = false)

/-- The order `std::less<const char>` of the keys of `freqTable` and
`bitTable`. -/
def charLt (L : StdImpl) (a b : Byte) : Bool :=
  if L.charSigned = true then decide ((a.val + 128) % 256 < (b.val + 128) % 256)
  else decide (a.val < b.val)

/-- The order of `std::string` on strings of `'0'` and `'1'`, the keys of
`codeTable`. -/
def strLt : List Bool → List Bool → Bool
  | _, [] => false
  | [], _ :: _ => true
  | x :: xs, y :: ys => if x = y then strLt xs ys else decide (x = false)

section Map

variable {K V : Type} [DecidableEq K]

/-- The method `std::map::find`, on a map kept as the list of its pairs in key
order. -/
def mapFind (k : K) : List (K × V) → Option V
  | [] => none
  | (k1, v1) :: m => if k1 = k then some v1 else mapFind k m

/-- A new pair is put at its place in key order. -/
def mapPlace (lt : K → K → Bool) (k : K) (v : V) : List (K × V) → List (K × V)
  | [] => [(k, v)]
  | (k1, v1) :: m =>
    if lt k k1 = true then (k, v) :: (k1, v1) :: m else (k1, v1) :: mapPlace lt k v m

/-- The method `std::map::insert`: nothing happens when the key is there. -/
def mapInsert (lt : K → K → Bool) (k : K) (v : V) (m : List (K × V)) : List (K × V) :=
  match mapFind k m with
  | some _ => m
  | none => mapPlace lt k v m

/-- The value of an existing key is changed in place. -/
def mapUpdate (k : K) (f : V → V) : List (K × V) → List (K × V)
  | [] => []
  | (k1, v1) :: m => if k1 = k then (k1, f v1) :: m else (k1, v1) :: mapUpdate k f m

/-- The assignment `m[k] = v`. -/
def mapAssign (lt : K → K → Bool) (k : K) (v : V) (m : List (K × V)) : List (K × V) :=
  match mapFind k m with
  | some _ => mapUpdate k (fun _ => v) m
  | none => mapPlace lt k v m

end Map

/-- The data members of the class `THuffman` (`codeTableCache` is never used
and is left out). -/
structure THuffman where
  forest : List THuffmanBTree
  bitTable : List (Byte × TBitBuffer)
  freqTable : List (Byte × Nat)
  codeTable : List (List Bool × Byte)
  plainText : List Byte
  encodedText : TBitBuffer
deriving DecidableEq, Repr

namespace THuffman

/-- A freshly constructed `THuffman`. -/
def new : THuffman := ⟨[], [], [], [], [], TBitBuffer.new⟩

/-- The first loop of `_PopulateForest`: every character of the text is
counted in `freqTable`. -/
def countLoop (L : StdImpl) : List Byte → List (Byte × Nat) → List (Byte × Nat)
  | [], freqTable => freqTable
  | character :: rest, freqTable =>
    match mapFind character freqTable with
    | none => countLoop L rest (mapInsert (charLt L) character 1 freqTable)
    | some _ => countLoop L rest (mapUpdate character (fun n => n + 1) freqTable)

/-- The second step of `_PopulateForest`: a table of one character gets a
second one, `'a'`, or `'b'` when the character is `'a'`. -/
def addFiller (L : StdImpl) (freqTable : List (Byte × Nat)) : List (Byte × Nat) :=
  if freqTable.length = 1 then
    match freqTable with
    | (first, _) :: _ =>
      if first ≠ 97 then mapAssign (charLt L) 97 1 freqTable
      else mapAssign (charLt L) 98 1 freqTable
    | [] => freqTable
  else freqTable

/-- The third step of `_PopulateForest`: a new tree of one node is pushed for
every pair of `freqTable`. -/
def pushLeaves : List (Byte × Nat) → List THuffmanBTree → List THuffmanBTree
  | [], forest => forest
  | (c, n) :: rest, forest => pushLeaves rest (forest ++ [THuffmanBTree.new.Insert c n])

/-- The method `_PopulateForest`. -/
def _PopulateForest (L : StdImpl) (h : THuffman) : THuffman :=
  let freqTable := addFiller L (countLoop L h.plainText h.freqTable)
  { h with freqTable := freqTable, forest := L.sort (pushLeaves freqTable h.forest) }

/-- The loop of `_BuildBitTree`. Every iteration makes the forest one tree
shorter, so `forest.size()` iterations suffice; the fuel only makes the
recursion structural. -/
def buildLoop (L : StdImpl) : Nat → List THuffmanBTree → List THuffmanBTree
  | 0, forest => forest
  | fuel + 1, forest =>
    match forest with
    | lowestFreqNode1 :: lowestFreqNode2 :: rest =>
      buildLoop L fuel
        (L.sort (THuffmanBTree.new.DefineRoot 0 lowestFreqNode1.GetRoot lowestFreqNode2.GetRoot
          :: rest))
    | _ => forest

/-- The method `_BuildBitTree`. -/
def _BuildBitTree (L : StdImpl) (h : THuffman) : THuffman :=
  { h with forest := buildLoop L h.forest.length h.forest }

/-- The loop of `_BuildBitTable`; `forest.at(0)` throws on an empty forest. -/
def bitTableLoop (L : StdImpl) (forest : List THuffmanBTree) :
    List (Byte × Nat) → List (Byte × TBitBuffer) → Option (List (Byte × TBitBuffer))
  | [], bitTable => some bitTable
  | (character, _) :: rest, bitTable =>
    match forest[0]? with
    | none => none
    | some tree =>
      bitTableLoop L forest rest
        (mapInsert (charLt L) character (TBitBuffer.new.AssignBits (tree.BitCode character))
          bitTable)

/-- The method `_BuildBitTable`. -/
def _BuildBitTable (L : StdImpl) (h : THuffman) : Option THuffman :=
  match bitTableLoop L h.forest h.freqTable h.bitTable with
  | some bitTable => some { h with bitTable := bitTable }
  | none => none

/-- The loop of `_EncodeText`. A character missing from `bitTable` would make
`bitTable[...]` a null pointer, and the call through it is `none`. -/
def encodeLoop (bitTable : List (Byte × TBitBuffer)) : List Byte → List Bool → Option (List Bool)
  | [], r => some r
  | c :: rest, r =>
    match mapFind c bitTable with
    | some bb => encodeLoop bitTable rest (r ++ bb.ReadAllBits)
    | none => none

/-- The method `_EncodeText`. -/
def _EncodeText (h : THuffman) : Option (List Bool) := encodeLoop h.bitTable h.plainText []

/-- The loop of `_WriteHeader`: letter, length of its code, code. -/
def writeLetters : List (Byte × TBitBuffer) → TBitBuffer → TBitBuffer
  | [], enc => enc
  | (c, bb) :: rest, enc =>
    writeLetters rest (((enc.AppendByte c).AppendNumber bb.Size).AppendBits bb.ReadAllBits)

/-- The method `_WriteHeader`. -/
def _WriteHeader (h : THuffman) (bodySize : Nat) : THuffman :=
  let enc := writeLetters h.bitTable
    (h.encodedText.Clear.AppendByte (Fin.ofNat h.bitTable.length))
  { h with encodedText := enc.AppendPadding (enc.Size + bodySize) }

/-- The loop of `_ReadHeader`, `characters - i` entries still to read. -/
def readLetters : Nat → TBitBuffer → List (List Bool × Byte) →
    Option (TBitBuffer × List (List Bool × Byte))
  | 0, enc, codeTable => some (enc, codeTable)
  | n + 1, enc, codeTable =>
    match enc.ReadByte with
    | none => none
    | some (character, enc1) =>
      match enc1.ReadNumber with
      | none => none
      | some (len, enc2) =>
        match enc2.ReadBits len with
        | none => none
        | some (charCode, enc3) =>
          readLetters n enc3 (mapInsert strLt charCode character codeTable)

/-- The method `_ReadHeader`. -/
def _ReadHeader (h : THuffman) : Option THuffman :=
  match h.encodedText.ReadByte with
  | none => none
  | some (characters, enc) =>
    match readLetters characters.val enc h.codeTable with
    | none => none
    | some (enc1, codeTable) =>
      match enc1.ReadPadding with
      | none => none
      | some enc2 => some { h with encodedText := enc2, codeTable := codeTable }

/-- The loop of `_DecodeText`, `len - i` bits still to read. -/
def decodeLoop (codeTable : List (List Bool × Byte)) :
    Nat → TBitBuffer → List Bool → List Byte → Option (TBitBuffer × List Byte)
  | 0, enc, _, plainText => some (enc, plainText)
  | n + 1, enc, buf, plainText =>
    match enc.ReadBit with
    | none => none
    | some (bit, enc1) =>
      match mapFind (buf ++ [bit]) codeTable with
      | some c => decodeLoop codeTable n enc1 [] (plainText ++ [c])
      | none => decodeLoop codeTable n enc1 (buf ++ [bit]) plainText

/-- The method `_DecodeText`. -/
def _DecodeText (h : THuffman) : Option THuffman :=
  match decodeLoop h.codeTable h.encodedText.Size h.encodedText [] h.plainText with
  | some (enc, plainText) => some { h with encodedText := enc, plainText := plainText }
  | none => none

/-- The method `__CleanUp`. -/
def __CleanUp (h : THuffman) : THuffman :=
  { h with forest := [], bitTable := [], freqTable := [], codeTable := [] }

/-- The in-memory `Encode`: the encoded bytes and the instance afterwards. -/
def Encode (L : StdImpl) (h : THuffman) (input : List Byte) : Option (List Byte × THuffman) :=
  let h1 := { h with plainText := input, encodedText := h.encodedText.Clear }
  let h2 := _PopulateForest L h1
  let h3 := _BuildBitTree L h2
  match _BuildBitTable L h3 with
  | none => none
  | some h4 =>
    match _EncodeText h4 with
    | none => none
    | some tmp =>
      let h5 := _WriteHeader h4 tmp.length
      let h6 := { h5 with encodedText := h5.encodedText.AppendBits tmp }
      let h7 := __CleanUp h6
      some (h7.encodedText.ReadAllBytes, h7)

/-- The in-memory `Decode`: the decoded bytes and the instance afterwards. -/
def Decode (h : THuffman) (input : List Byte) : Option (List Byte × THuffman) :=
  let h1 := { h with plainText := [], encodedText := h.encodedText.AssignBytes input }
  match _ReadHeader h1 with
  | none => none
  | some h2 =>
    match _DecodeText h2 with
    | none => none
    | some h3 =>
      let h4 := __CleanUp h3
      some (h4.plainText, h4)

end THuffman

/-! ## A concrete implementation -/

/-- The insertion step of `insertSort`: `t` goes before the first tree of
greater root frequency. -/
def insertTree (t : THuffmanBTree) : List THuffmanBTree → List THuffmanBTree
  | [] => [t]
  | u :: l => if __TreeFreqCmp t u = true then t :: u :: l else u :: insertTree t l

/-- A `std::sort` that is an insertion sort on the root frequency. It is not
stable: of two trees of equal root frequency, the one that came later in the
input comes first. -/
def insertSort : List THuffmanBTree → List THuffmanBTree
  | [] => []
  | t :: l => insertTree t (insertSort l)

/-- An implementation with the given signedness of `char` and the insertion
sort as `std::sort`. -/
def stdImpl (charSigned : Bool) : StdImpl where
  charSigned := charSigned
  sort := insertSort
  sort_perm := by
    have hins : ∀ (t : THuffmanBTree) (l : List THuffmanBTree),
        (insertTree t l).Perm (t :: l) := by
      intro t l
      induction l with
      | nil => exact List.Perm.refl _
      | cons u l ih =>
        unfold insertTree
        split
        · exact List.Perm.refl _
        · exact (List.Perm.cons u ih).trans (List.Perm.swap t u l)
    intro l
    induction l with
    | nil => exact List.Perm.refl _
    | cons t l ih => exact (hins t _).trans (List.Perm.cons t ih)
  sort_sorted := by
    have hperm : ∀ (t : THuffmanBTree) (l : List THuffmanBTree),
        (insertTree t l).Perm (t :: l) := by
      intro t l
      induction l with
      | nil => exact List.Perm.refl _
      | cons u l ih =>
        unfold insertTree
        split
        · exact List.Perm.refl _
        · exact (List.Perm.cons u ih).trans (List.Perm.swap t u l)
    have hins : ∀ (t : THuffmanBTree) (l : List THuffmanBTree),
        l.Pairwise (fun a b => __TreeFreqCmp b a = false) →
        (insertTree t l).Pairwise (fun a b => __TreeFreqCmp b a = false) := by
      intro t l
      induction l with
      | nil => intro _; simp [insertTree]
      | cons u l ih =>
        intro h
        rw [List.pairwise_cons] at h
        unfold insertTree
        split
        · rename_i htu
          refine List.Pairwise.cons ?_ (List.Pairwise.cons h.1 h.2)
          intro v hv
          simp only [__TreeFreqCmp, decide_eq_true_eq, decide_eq_false_iff_not, not_lt] at *
          rcases List.mem_cons.1 hv with rfl | hv
          · omega
          · have := h.1 v hv
            omega
        · rename_i htu
          refine List.Pairwise.cons ?_ (ih h.2)
          intro v hv
          rcases List.mem_cons.1 ((hperm t l).subset hv) with rfl | hv
          · simpa using htu
          · exact h.1 v hv
    intro l
    induction l with
    | nil => simp [insertSort]
    | cons t l ih => exact hins t _ ih

/-- An implementation with signed `char`, as on x86. -/
def x86 : StdImpl := stdImpl true

/-- An implementation with unsigned `char`, as on ARM. -/
def arm : StdImpl := stdImpl false

/-- The codec used as in the usage example of `huffman.h`: `Encode`, then
`Decode` of the result on the same instance. -/
def roundTrip (L : StdImpl) (input : List Byte) : Option (List Byte) :=
  match THuffman.Encode L THuffman.new input with
  | none => none
  | some (encoded, huff) =>
    match THuffman.Decode huff encoded with
    | none => none
    | some (decoded, _) => some decoded

/-! ## Vocabulary of the statements -/

/-- The bits of a buffer not read yet. -/
def TBitBuffer.unread (b : TBitBuffer) : List Bool := b.bitsBuffer.drop b.bufferPos

/-- The eight bits `AppendByte` appends for `c`. -/
def byteBits (c : Byte) : List Bool := (TBitBuffer.new.AppendByte c).bitsBuffer

/-- The bits `AssignBytes` expands a byte sequence to. -/
def bytesBits : List Byte → List Bool
  | [] => []
  | c :: rest => byteBits c ++ bytesBits rest

/-- The bits `AppendNumber` appends for `v`. -/
def tallyBits (v : Nat) : List Bool := (TBitBuffer.new.AppendNumber v).bitsBuffer

/-- The bits of one header entry: letter, length of the code, code. -/
def letterBits (c : Byte) (code : List Bool) : List Bool :=
  byteBits c ++ (tallyBits code.length ++ code)

/-- The bits the loop of `_WriteHeader` appends for a whole `bitTable`. -/
def lettersBits : List (Byte × TBitBuffer) → List Bool
  | [] => []
  | (c, bb) :: rest => byteBits c ++ (tallyBits bb.Size ++ bb.ReadAllBits) ++ lettersBits rest

/-- The instance inside `Encode` on a fresh `THuffman`, after
`_PopulateForest`, `_BuildBitTree` and `_BuildBitTable`: the tables from which
body and header are written. -/
def THuffman.encodeTables (L : StdImpl) (input : List Byte) : Option THuffman :=
  THuffman._BuildBitTable L (THuffman._BuildBitTree L (THuffman._PopulateForest L
    { THuffman.new with plainText := input, encodedText := THuffman.new.encodedText.Clear }))

/-- The path of the spec's `bitCode(symbol)`, following its words: a
depth-first search from the root, `0` (`false`) appended when descending left
and `1` (`true`) when descending right, the accumulated path returned on
reaching the leaf holding `symbol`, and not-found (`none`) if it is absent. A
leaf is a node without children. -/
def leafPath (symbol : Byte) : node_t → Option (List Bool)
  | .null => none
  | .node letter _ .null .null => if letter = symbol then some [] else none
  | .node _ _ left right =>
    match leafPath symbol left with
    | some path => some (false :: path)
    | none =>
      match leafPath symbol right with
      | some path => some (true :: path)
      | none => none

/-- The trees the merge step produces: a leaf as `Insert` creates it on a new
tree, or a root as `DefineRoot(NULL, left, right)` creates it over two such
trees. -/
def isMerged : node_t → Bool
  | .null => false
  | .node _ _ .null .null => true
  | .node letter totalFrequency left right =>
    decide (letter = 0) && decide (totalFrequency = left.freq + right.freq) &&
      isMerged left && isMerged right

/-- The expansion of one byte most-significant bit first, in the spec's
words: bit 7 of the value comes first and bit 0 last. -/
def msbFirst (c : Byte) : List Bool :=
  [decide (c.val / 128 % 2 = 1), decide (c.val / 64 % 2 = 1), decide (c.val / 32 % 2 = 1),
   decide (c.val / 16 % 2 = 1), decide (c.val / 8 % 2 = 1), decide (c.val / 4 % 2 = 1),
   decide (c.val / 2 % 2 = 1), decide (c.val % 2 = 1)]

/-- The expansion of a byte sequence, every byte most-significant bit
first. -/
def msbBits : List Byte → List Bool
  | [] => []
  | c :: rest => msbFirst c ++ msbBits rest

/-- The leaves of a tree, left to right, each with its letter and its
frequency. A leaf is a node without children. -/
def leaves : node_t → List (Byte × Nat)
  | .null => []
  | .node letter totalFrequency .null .null => [(letter, totalFrequency)]
  | .node _ _ left right => leaves left ++ leaves right

/-- The leaves of all the trees of a forest. -/
def forestLeaves : List THuffmanBTree → List (Byte × Nat)
  | [] => []
  | t :: forest => leaves t.root ++ forestLeaves forest

/-- The forest is in ascending order of root frequency. -/
def IsAscending (forest : List THuffmanBTree) : Prop :=
  forest.Pairwise (fun a b => a.GetRootFreq ≤ b.GetRootFreq)

/-- The instance inside `Encode` on a fresh `THuffman`, after
`_PopulateForest`: the frequency table and the forest of one-node trees. -/
def THuffman.populated (L : StdImpl) (input : List Byte) : THuffman :=
  THuffman._PopulateForest L
    { THuffman.new with plainText := input, encodedText := THuffman.new.encodedText.Clear }

/-- A code table given by its pairs (symbol, code), as the `bitTable` that
`_BuildBitTable` would hold: every code in a buffer of its own, unread. -/
def tableOf (codes : List (Byte × List Bool)) : List (Byte × TBitBuffer) :=
  codes.map (fun e => (e.1, TBitBuffer.new.AssignBits e.2))

/-- The pairs (code, symbol) of the inverse of a code table. -/
def inverseOf (codes : List (Byte × List Bool)) : List (List Bool × Byte) :=
  codes.map (fun e => (e.2, e.1))

/-- The concatenation of the codes of a sequence of entries (code, symbol). -/
def concatCodes : List (List Bool × Byte) → List Bool
  | [] => []
  | e :: rest => e.1 ++ concatCodes rest


/-! ### The cost of a tree and of the merge loop -/

/-- The cost of the leaves of a tree whose root is at depth `d`: the sum over
the leaves of frequency × leaf depth. -/
def costAt : Nat → node_t → Nat
  | _, .null => 0
  | d, .node _ totalFrequency .null .null => totalFrequency * d
  | d, .node _ _ left right => costAt (d + 1) left + costAt (d + 1) right

/-- The sum over the leaves of a tree of frequency × leaf depth, the root
being at depth 0. -/
def cost (t : node_t) : Nat := costAt 0 t

/-- The sum of the costs of the trees of a forest. -/
def forestCost : List THuffmanBTree → Nat
  | [] => 0
  | t :: forest => cost t.root + forestCost forest

/-- The merge loop on the frequencies alone, as a reference for the proofs:
on an ascending list, the two smallest weights are replaced by their sum, put
back in order, and the sum is paid; the result is the total paid. -/
def mergeCost : Nat → List Nat → Nat
  | 0, _ => 0
  | fuel + 1, a :: b :: rest =>
    a + b + mergeCost fuel (List.orderedInsert (fun x y => x ≤ y) (a + b) rest)
  | _ + 1, _ => 0

/-- The total paid by the merge loop on a list of weights in any order. -/
def huffCost (weights : List Nat) : Nat :=
  mergeCost weights.length (weights.insertionSort (fun x y => x ≤ y))

/-- The lists of leaf depths of the full binary trees (every internal node
with two children), in any order: the single leaf at depth 0, and any leaf
replaced by two leaves one level deeper. -/
inductive FullDepths : List Nat → Prop
  | leaf : FullDepths [0]
  | split (d : Nat) (rest : List Nat) :
      FullDepths (d :: rest) → FullDepths ((d + 1) :: (d + 1) :: rest)
  | perm (l1 l2 : List Nat) : l1.Perm l2 → FullDepths l1 → FullDepths l2

/-- The cost of a list of pairs (weight, depth): the sum of weight × depth. -/
def pairCost (P : List (Nat × Nat)) : Nat := (P.map (fun p => p.1 * p.2)).sum

/-- The pairs (symbol, code) of a `bitTable`: every letter with the bits of
its buffer. -/
def codesOf (table : List (Byte × TBitBuffer)) : List (Byte × List Bool) :=
  table.map (fun e => (e.1, e.2.bitsBuffer))
/-! ## The bit buffer -/

namespace TBitBuffer

theorem appendRepeat_eq (bit : Bool) (n : Nat) (b : TBitBuffer) :
    appendRepeat bit n b = ⟨b.bitsBuffer ++ List.replicate n bit, b.bufferPos⟩ := by
  induction n generalizing b with
  | zero => simp [appendRepeat]
  | succ n ih =>
    simp [appendRepeat, ih, _AppendBit, List.replicate_succ]

theorem AppendNumber_eq (b : TBitBuffer) (v : Nat) :
    b.AppendNumber v =
      ⟨b.bitsBuffer ++ (List.replicate (v / 5) true ++ false ::
        (List.replicate (v % 5) true ++ [false])), b.bufferPos⟩ := by
  simp [AppendNumber, appendRepeat_eq, _AppendBit]

theorem AppendPadding_eq (b : TBitBuffer) (L : Nat) :
    b.AppendPadding L =
      ⟨b.bitsBuffer ++ (List.replicate (7 - L % 8) false ++ [true]), b.bufferPos⟩ := by
  unfold AppendPadding
  have h : L % 8 < 8 := Nat.mod_lt _ (by decide)
  by_cases h0 : L % 8 = 0
  · simp [h0, appendRepeat_eq, _AppendBit]
  · have h1 : 8 - L % 8 < 8 := by omega
    have h2 : 8 - L % 8 - 1 = 7 - L % 8 := by omega
    simp [h1, h2, appendRepeat_eq, _AppendBit]

theorem _ReadBit_of_unread (b : TBitBuffer) (x : Bool) (r : List Bool)
    (h : b.unread = x :: r) :
    b._ReadBit = some (x, ⟨b.bitsBuffer, b.bufferPos + 1⟩) ∧
      (⟨b.bitsBuffer, b.bufferPos + 1⟩ : TBitBuffer).unread = r := by
  unfold unread at h
  have h1 : b.bitsBuffer[b.bufferPos]? = some x := by
    have := List.getElem?_drop b.bitsBuffer b.bufferPos 0
    rw [h] at this
    simpa using this.symm
  constructor
  · simp [_ReadBit, h1]
  · show b.bitsBuffer.drop (b.bufferPos + 1) = r
    rw [← List.drop_drop, h]
    rfl

theorem _ReadBit_of_unread_nil (b : TBitBuffer) (h : b.unread = []) : b._ReadBit = none := by
  unfold unread at h
  have h1 : b.bitsBuffer[b.bufferPos]? = none := by
    rw [List.getElem?_eq_none_iff]
    exact List.drop_eq_nil_iff.1 h
  simp [_ReadBit, h1]

theorem readTally_ones (n : Nat) (r : List Bool) :
    ∀ (fuel : Nat) (b : TBitBuffer) (a : Nat), n < fuel →
      b.unread = List.replicate n true ++ false :: r →
      readTally fuel b a = some (a + n, ⟨b.bitsBuffer, b.bufferPos + n + 1⟩) ∧
        (⟨b.bitsBuffer, b.bufferPos + n + 1⟩ : TBitBuffer).unread = r := by
  induction n with
  | zero =>
    intro fuel b a hf hu
    obtain ⟨fuel, rfl⟩ : ∃ k, fuel = k + 1 := ⟨fuel - 1, by omega⟩
    have h := _ReadBit_of_unread b false r (by simpa using hu)
    simp [readTally, h.1]
    exact h.2
  | succ n ih =>
    intro fuel b a hf hu
    obtain ⟨fuel, rfl⟩ : ∃ k, fuel = k + 1 := ⟨fuel - 1, by omega⟩
    have h := _ReadBit_of_unread b true (List.replicate n true ++ false :: r)
      (by simpa [List.replicate_succ] using hu)
    have h2 := ih fuel ⟨b.bitsBuffer, b.bufferPos + 1⟩ (a + 1) (by omega) h.2
    simp only [readTally, h.1]
    have e : b.bufferPos + 1 + n + 1 = b.bufferPos + (n + 1) + 1 := by omega
    have e2 : a + 1 + n = a + (n + 1) := by omega
    simpa [e, e2] using h2

/-- With the marker inside the buffer, `Size` is the number of unread bits. -/
theorem unread_length (b : TBitBuffer) (h : b.bufferPos ≤ b.bitsBuffer.length) :
    b.unread.length = b.Size := by
  simp [unread, Size, h]

/-- Past the end nothing is unread, while `Size` has wrapped. -/
theorem unread_length_le (b : TBitBuffer) : b.unread.length ≤ b.Size := by
  simp only [unread, Size, List.length_drop]
  split_ifs <;> omega

theorem bufferPos_lt_of_unread (b : TBitBuffer) (x : Bool) (r : List Bool)
    (h : b.unread = x :: r) : b.bufferPos < b.bitsBuffer.length := by
  have := congrArg List.length h
  simp only [unread, List.length_drop, List.length_cons] at this
  omega

/-- Reading a number written by `AppendNumber`, whatever precedes the marker and
whatever follows the number. -/
theorem ReadNumber_of_unread (b : TBitBuffer) (v : Nat) (r : List Bool)
    (h : b.unread = List.replicate (v / 5) true ++ false ::
      (List.replicate (v % 5) true ++ false :: r)) :
    b.ReadNumber = some (v, ⟨b.bitsBuffer, b.bufferPos + (v / 5 + v % 5 + 2)⟩) ∧
      (⟨b.bitsBuffer, b.bufferPos + (v / 5 + v % 5 + 2)⟩ : TBitBuffer).unread = r := by
  have hs : v / 5 < b.Size + 1 := by
    have := congrArg List.length h
    have hle := unread_length_le b
    simp at this
    omega
  have h1 := readTally_ones (v / 5) _ (b.Size + 1) b 0 hs h
  have hs2 : v % 5 < (⟨b.bitsBuffer, b.bufferPos + v / 5 + 1⟩ : TBitBuffer).Size + 1 := by
    have := congrArg List.length h1.2
    have hle := unread_length_le ⟨b.bitsBuffer, b.bufferPos + v / 5 + 1⟩
    simp at this
    omega
  have h2 := readTally_ones (v % 5) r _ ⟨b.bitsBuffer, b.bufferPos + v / 5 + 1⟩ 0 hs2 h1.2
  have e : b.bufferPos + v / 5 + 1 + v % 5 + 1 = b.bufferPos + (v / 5 + v % 5 + 2) := by omega
  have e3 : v / 5 * 5 + v % 5 = v := by omega
  simp only [ReadNumber, h1.1, h2.1]
  simp only [e] at h2
  simp [e, e3, h2.2]

/-- Below `2 ^ 32` nothing wraps in `AppendNumber`. -/
theorem AppendNumber_lp64_eq (b : TBitBuffer) (v : Nat) (hv : v < 2 ^ 32) :
    b.AppendNumber_lp64 v = b.AppendNumber v := by
  have h1 : v % 2 ^ 64 = v := Nat.mod_eq_of_lt (by omega)
  have h2 : v / 5 % 2 ^ 32 = v / 5 := Nat.mod_eq_of_lt (by omega)
  have h3 : v % 5 % 2 ^ 32 = v % 5 := Nat.mod_eq_of_lt (by omega)
  simp only [AppendNumber_lp64, AppendNumber, h1, h2, h3]

/-- The `unsigned int` arithmetic of `ReadNumber` keeps the number read modulo
`2 ^ 32`. -/
theorem ReadNumber_lp64_eq (b : TBitBuffer) :
    b.ReadNumber_lp64 = b.ReadNumber.map (fun p => (p.1 % 2 ^ 32, p.2)) := by
  unfold ReadNumber_lp64 ReadNumber
  cases readTally (b.Size + 1) b 0 with
  | none => rfl
  | some p =>
    obtain ⟨a, b1⟩ := p
    simp only
    cases readTally (b1.Size + 1) b1 0 with
    | none => rfl
    | some q =>
      obtain ⟨r, b2⟩ := q
      simp only [Option.map_some', Option.some.injEq, Prod.mk.injEq, and_true]
      omega

end TBitBuffer


namespace TBitBuffer

theorem appendMasked_eq (c : Byte) (n : Nat) :
    ∀ (mask : Nat) (b : TBitBuffer),
      appendMasked c n mask b =
        ⟨b.bitsBuffer ++ (appendMasked c n mask ⟨[], 0⟩).bitsBuffer, b.bufferPos⟩ := by
  induction n with
  | zero => intro mask b; simp [appendMasked]
  | succ n ih =>
    intro mask b
    simp only [appendMasked]
    rw [ih (mask >>> 1) (b._AppendBit _), ih (mask >>> 1) (_AppendBit ⟨[], 0⟩ _)]
    simp [_AppendBit]

theorem appendMasked_length (c : Byte) (n : Nat) :
    ∀ (mask : Nat) (b : TBitBuffer),
      (appendMasked c n mask b).bitsBuffer.length = b.bitsBuffer.length + n := by
  induction n with
  | zero => intro mask b; rfl
  | succ n ih =>
    intro mask b
    simp only [appendMasked, ih, _AppendBit, List.length_append, List.length_cons,
      List.length_nil]
    omega

theorem AppendByte_eq (b : TBitBuffer) (c : Byte) :
    b.AppendByte c = ⟨b.bitsBuffer ++ byteBits c, b.bufferPos⟩ := by
  unfold AppendByte byteBits AppendByte
  exact appendMasked_eq c 8 _ b

theorem byteBits_length (c : Byte) : (byteBits c).length = 8 := by
  unfold byteBits AppendByte
  rw [appendMasked_length]
  rfl

theorem assignBytesLoop_eq (input : List Byte) :
    ∀ b : TBitBuffer,
      assignBytesLoop input b = ⟨b.bitsBuffer ++ bytesBits input, b.bufferPos⟩ := by
  induction input with
  | nil => intro b; simp [assignBytesLoop, bytesBits]
  | cons c rest ih =>
    intro b
    have h := AppendByte_eq b c
    unfold AppendByte at h
    simp only [assignBytesLoop, h, ih, bytesBits, List.append_assoc]

theorem AssignBytes_eq (b : TBitBuffer) (input : List Byte) :
    b.AssignBytes input = ⟨bytesBits input, 0⟩ := by
  simp [AssignBytes, assignBytesLoop_eq]

theorem packByte_drop (bits : List Bool) (k : Nat) :
    ∀ (n j byte : Nat), packByte bits n (k + j) byte = packByte (bits.drop k) n j byte := by
  intro n
  induction n with
  | zero => intro j byte; rfl
  | succ n ih =>
    intro j byte
    simp only [packByte, List.getElem?_drop]
    cases bits[k + j]? with
    | none => rfl
    | some bit => exact ih (j + 1) _

theorem packByte_append (l r : List Bool) :
    ∀ (n j byte : Nat), j + n ≤ l.length →
      packByte (l ++ r) n j byte = packByte l n j byte := by
  intro n
  induction n with
  | zero => intro j byte _; rfl
  | succ n ih =>
    intro j byte h
    simp only [packByte]
    rw [List.getElem?_append_left (by omega)]
    cases l[j]? with
    | none => rfl
    | some bit => exact ih (j + 1) _ (by omega)

theorem byteBits_packByte_bits : ∀ b0 b1 b2 b3 b4 b5 b6 b7 : Bool,
    byteBits (Fin.ofNat (packByte [b0, b1, b2, b3, b4, b5, b6, b7] 8 0 0)) =
      [b0, b1, b2, b3, b4, b5, b6, b7] := by
  decide

theorem byteBits_packByte (chunk : List Bool) (h : chunk.length = 8) :
    byteBits (Fin.ofNat (packByte chunk 8 0 0)) = chunk := by
  rcases chunk with _ | ⟨b0, _ | ⟨b1, _ | ⟨b2, _ | ⟨b3, _ | ⟨b4, _ | ⟨b5, _ | ⟨b6,
    _ | ⟨b7, _ | ⟨b8, r⟩⟩⟩⟩⟩⟩⟩⟩⟩ <;> simp at h
  exact byteBits_packByte_bits b0 b1 b2 b3 b4 b5 b6 b7

set_option maxRecDepth 100000 in
theorem packByte_byteBits : ∀ c : Byte, (Fin.ofNat (packByte (byteBits c) 8 0 0) : Byte) = c := by
  decide

/-- On a buffer of `8 * m` bits from position `k` on, the loop of `ReadAllBytes`
yields `m` bytes whose expansion is exactly those bits. -/
theorem readAllBytesLoop_exact (bits : List Bool) :
    ∀ (m fuel k : Nat), bits.length = k + 8 * m → m ≤ fuel →
      bytesBits (readAllBytesLoop bits fuel k) = bits.drop k ∧
        (readAllBytesLoop bits fuel k).length = m := by
  intro m
  induction m with
  | zero =>
    intro fuel k hlen _
    have hd : bits.drop k = [] := List.drop_eq_nil_iff.2 (by omega)
    cases fuel with
    | zero => simp [readAllBytesLoop, bytesBits, hd]
    | succ fuel =>
      have : ¬ k < bits.length := by omega
      simp [readAllBytesLoop, this, bytesBits, hd]
  | succ m ih =>
    intro fuel k hlen hfuel
    obtain ⟨fuel, rfl⟩ : ∃ f, fuel = f + 1 := ⟨fuel - 1, by omega⟩
    have hk : k < bits.length := by omega
    have ih1 := ih fuel (k + 8) (by omega) (by omega)
    have hsplit : bits.drop k = (bits.drop k).take 8 ++ bits.drop (k + 8) := by
      rw [← List.drop_drop, List.take_append_drop]
    have hchunk : ((bits.drop k).take 8).length = 8 := by
      simp only [List.length_take, List.length_drop]
      omega
    have hpack : packByte bits 8 k 0 = packByte ((bits.drop k).take 8) 8 0 0 := by
      have := packByte_drop bits k 8 0 0
      rw [Nat.add_zero] at this
      rw [this, hsplit, packByte_append _ _ 8 0 0 (by omega)]
      simp
    simp only [readAllBytesLoop, hk, if_true, bytesBits, List.length_cons, ih1.1, ih1.2,
      hpack, byteBits_packByte _ hchunk]
    exact ⟨hsplit.symm, trivial⟩

end TBitBuffer

/-! ## Maps -/

section MapLemmas

variable {K V : Type} [DecidableEq K]

theorem mapFind_mapPlace (lt : K → K → Bool) (k : K) (v : V) (m : List (K × V)) (c : K) :
    (mapFind c (mapPlace lt k v m)).isSome = true ↔ c = k ∨ (mapFind c m).isSome = true := by
  induction m with
  | nil =>
    simp only [mapPlace, mapFind]
    by_cases h : k = c
    · simp [h]
    · simp [h, Ne.symm h]
  | cons e m ih =>
    obtain ⟨k1, v1⟩ := e
    simp only [mapPlace]
    by_cases hlt : lt k k1 = true
    · simp only [hlt, if_true, mapFind]
      by_cases h : k = c
      · simp [h]
      · simp [h, Ne.symm h]
    · simp only [hlt, mapFind]
      by_cases h1 : k1 = c
      · simp [h1]
      · simp only [h1, if_false]
        exact ih

theorem mapFind_mapInsert (lt : K → K → Bool) (k : K) (v : V) (m : List (K × V)) (c : K) :
    (mapFind c (mapInsert lt k v m)).isSome = true ↔ c = k ∨ (mapFind c m).isSome = true := by
  unfold mapInsert
  cases hk : mapFind k m with
  | some w =>
    simp only
    constructor
    · intro h
      exact Or.inr h
    · rintro (rfl | h)
      · simp [hk]
      · exact h
  | none => exact mapFind_mapPlace lt k v m c

theorem mapFind_mapUpdate (k : K) (f : V → V) (m : List (K × V)) (c : K) :
    (mapFind c (mapUpdate k f m)).isSome = (mapFind c m).isSome := by
  induction m with
  | nil => rfl
  | cons e m ih =>
    obtain ⟨k1, v1⟩ := e
    simp only [mapUpdate]
    by_cases h : k1 = k
    · simp only [h, if_true, mapFind]
      by_cases h2 : k = c
      · simp [h2]
      · simp [h2]
    · simp only [h, if_false, mapFind]
      by_cases h2 : k1 = c
      · simp [h2]
      · simp [h2, ih]

theorem mapFind_mapAssign (lt : K → K → Bool) (k : K) (v : V) (m : List (K × V)) (c : K) :
    (mapFind c m).isSome = true → (mapFind c (mapAssign lt k v m)).isSome = true := by
  intro h
  unfold mapAssign
  cases mapFind k m with
  | some w =>
    simp only
    rw [mapFind_mapUpdate]
    exact h
  | none => exact (mapFind_mapPlace lt k v m c).2 (Or.inr h)

end MapLemmas

/-! ## `Encode` always returns -/

namespace THuffman

theorem countLoop_finds (L : StdImpl) (text : List Byte) :
    ∀ (freqTable : List (Byte × Nat)) (c : Byte),
      (c ∈ text ∨ (mapFind c freqTable).isSome = true) →
      (mapFind c (countLoop L text freqTable)).isSome = true := by
  induction text with
  | nil =>
    intro freqTable c h
    rcases h with h | h
    · cases h
    · exact h
  | cons x text ih =>
    intro freqTable c h
    unfold countLoop
    cases hx : mapFind x freqTable with
    | none =>
      simp only
      apply ih
      rcases h with h | h
      · rcases List.mem_cons.1 h with rfl | h
        · exact Or.inr ((mapFind_mapInsert _ _ _ _ _).2 (Or.inl rfl))
        · exact Or.inl h
      · exact Or.inr ((mapFind_mapInsert _ _ _ _ _).2 (Or.inr h))
    | some w =>
      simp only
      apply ih
      rcases h with h | h
      · rcases List.mem_cons.1 h with rfl | h
        · right
          rw [mapFind_mapUpdate, hx]
          rfl
        · exact Or.inl h
      · right
        rw [mapFind_mapUpdate]
        exact h

theorem addFiller_finds (L : StdImpl) (freqTable : List (Byte × Nat)) (c : Byte)
    (h : (mapFind c freqTable).isSome = true) :
    (mapFind c (addFiller L freqTable)).isSome = true := by
  unfold addFiller
  split
  · split
    · split
      · exact mapFind_mapAssign _ _ _ _ _ h
      · exact mapFind_mapAssign _ _ _ _ _ h
    · exact h
  · exact h

theorem pushLeaves_length (freqTable : List (Byte × Nat)) :
    ∀ forest : List THuffmanBTree,
      (pushLeaves freqTable forest).length = forest.length + freqTable.length := by
  induction freqTable with
  | nil => intro forest; rfl
  | cons e m ih =>
    intro forest
    obtain ⟨c, n⟩ := e
    simp only [pushLeaves, ih, List.length_append, List.length_cons, List.length_nil]
    omega

theorem sort_length (L : StdImpl) (l : List THuffmanBTree) : (L.sort l).length = l.length :=
  (L.sort_perm l).length_eq

theorem buildLoop_ne_nil (L : StdImpl) :
    ∀ (fuel : Nat) (forest : List THuffmanBTree), forest ≠ [] → buildLoop L fuel forest ≠ [] := by
  intro fuel
  induction fuel with
  | zero => intro forest h; exact h
  | succ fuel ih =>
    intro forest h
    unfold buildLoop
    split
    · apply ih
      intro h0
      have := congrArg List.length h0
      rw [sort_length] at this
      simp at this
    · exact h

theorem bitTableLoop_some (L : StdImpl) (forest : List THuffmanBTree) (hf : forest ≠ []) :
    ∀ (freqTable : List (Byte × Nat)) (bitTable : List (Byte × TBitBuffer)),
      ∃ bt, bitTableLoop L forest freqTable bitTable = some bt ∧
        ∀ c, ((mapFind c bitTable).isSome = true ∨ (mapFind c freqTable).isSome = true) →
          (mapFind c bt).isSome = true := by
  intro freqTable
  induction freqTable with
  | nil =>
    intro bitTable
    refine ⟨bitTable, rfl, ?_⟩
    intro c h
    rcases h with h | h
    · exact h
    · cases h
  | cons e m ih =>
    intro bitTable
    obtain ⟨k, n⟩ := e
    obtain ⟨tree, rest, rfl⟩ : ∃ t r, forest = t :: r := by
      cases forest with
      | nil => exact absurd rfl hf
      | cons t r => exact ⟨t, r, rfl⟩
    obtain ⟨bt, hbt, hfind⟩ := ih
      (mapInsert (charLt L) k (TBitBuffer.new.AssignBits (tree.BitCode k)) bitTable)
    refine ⟨bt, ?_, ?_⟩
    · simp only [bitTableLoop, List.getElem?_cons_zero]
      exact hbt
    · intro c h
      apply hfind
      by_cases hck : k = c
      · exact Or.inl ((mapFind_mapInsert _ _ _ _ _).2 (Or.inl hck.symm))
      · rcases h with h | h
        · exact Or.inl ((mapFind_mapInsert _ _ _ _ _).2 (Or.inr h))
        · simp only [mapFind, hck, if_false] at h
          exact Or.inr h

theorem encodeLoop_some (bitTable : List (Byte × TBitBuffer)) (text : List Byte)
    (h : ∀ c ∈ text, (mapFind c bitTable).isSome = true) :
    ∀ r : List Bool, ∃ body, encodeLoop bitTable text r = some body := by
  induction text with
  | nil => intro r; exact ⟨r, rfl⟩
  | cons x text ih =>
    intro r
    have hx := h x (List.mem_cons_self _ _)
    cases hbb : mapFind x bitTable with
    | none => rw [hbb] at hx; cases hx
    | some bb =>
      simp only [encodeLoop, hbb]
      exact ih (fun c hc => h c (List.mem_cons_of_mem _ hc)) _

end THuffman


namespace TBitBuffer

theorem tallyBits_eq (v : Nat) :
    tallyBits v = List.replicate (v / 5) true ++ false ::
      (List.replicate (v % 5) true ++ [false]) := by
  simp [tallyBits, AppendNumber_eq, new]

theorem AppendNumber_tally (b : TBitBuffer) (v : Nat) :
    b.AppendNumber v = ⟨b.bitsBuffer ++ tallyBits v, b.bufferPos⟩ := by
  rw [AppendNumber_eq, tallyBits_eq]

/-- On a buffer whose length is a multiple of 8, `ReadAllBytes` returns
`length / 8` bytes, and their expansion is the buffer: nothing is filled in. -/
theorem ReadAllBytes_exact (b : TBitBuffer) (h : b.bitsBuffer.length % 8 = 0) :
    b.ReadAllBytes.length = b.bitsBuffer.length / 8 ∧
      bytesBits b.ReadAllBytes = b.bitsBuffer := by
  have := readAllBytesLoop_exact b.bitsBuffer (b.bitsBuffer.length / 8) b.bitsBuffer.length 0
    (by omega) (by omega)
  simp only [List.drop_zero] at this
  exact ⟨this.2, this.1⟩

end TBitBuffer

namespace THuffman

theorem writeLetters_eq (table : List (Byte × TBitBuffer)) :
    ∀ enc : TBitBuffer,
      writeLetters table enc = ⟨enc.bitsBuffer ++ lettersBits table, enc.bufferPos⟩ := by
  induction table with
  | nil => intro enc; simp [writeLetters, lettersBits]
  | cons e table ih =>
    intro enc
    obtain ⟨c, bb⟩ := e
    simp only [writeLetters, ih, TBitBuffer.AppendByte_eq, TBitBuffer.AppendNumber_tally,
      TBitBuffer.AppendBits, lettersBits, List.append_assoc]

/-- What `_WriteHeader` leaves in `encodedText`: the count byte, the entries,
then zeros and a one up to a byte boundary of header plus body. -/
theorem _WriteHeader_encodedText (h : THuffman) (bodySize : Nat) :
    (_WriteHeader h bodySize).encodedText =
      ⟨(byteBits (Fin.ofNat h.bitTable.length) ++ lettersBits h.bitTable) ++
        (List.replicate
          (7 - ((byteBits (Fin.ofNat h.bitTable.length) ++ lettersBits h.bitTable).length
            + bodySize) % 8) false ++ [true]), 0⟩ := by
  simp only [_WriteHeader, writeLetters_eq, TBitBuffer.AppendByte_eq, TBitBuffer.Clear,
    TBitBuffer.AppendPadding_eq, TBitBuffer.Size, List.nil_append, Nat.sub_zero,
    Nat.zero_le, if_true]

theorem bitTableLoop_covers (L : StdImpl) (forest : List THuffmanBTree)
    (freqTable : List (Byte × Nat)) (hf : freqTable ≠ [] → forest ≠ []) :
    ∃ bt, bitTableLoop L forest freqTable [] = some bt ∧
      ∀ c, (mapFind c freqTable).isSome = true → (mapFind c bt).isSome = true := by
  by_cases h : freqTable = []
  · subst h
    exact ⟨[], rfl, fun c hc => by cases hc⟩
  · obtain ⟨bt, h1, h2⟩ := bitTableLoop_some L forest (hf h) freqTable []
    exact ⟨bt, h1, fun c hc => h2 c (Or.inr hc)⟩

/-- The tables are always built, and every character of the input has an
entry in `bitTable`. -/
theorem encodeTables_some (L : StdImpl) (input : List Byte) :
    ∃ h4, encodeTables L input = some h4 ∧ h4.plainText = input ∧
      h4.encodedText = ⟨[], 0⟩ ∧
      ∀ c ∈ input, (mapFind c h4.bitTable).isSome = true := by
  have hfind : ∀ c ∈ input,
      (mapFind c (addFiller L (countLoop L input []))).isSome = true :=
    fun c hc => addFiller_finds L _ c (countLoop_finds L input [] c (Or.inl hc))
  obtain ⟨bt, h1, h2⟩ := bitTableLoop_covers L
    (buildLoop L (L.sort (pushLeaves (addFiller L (countLoop L input [])) [])).length
      (L.sort (pushLeaves (addFiller L (countLoop L input [])) [])))
    (addFiller L (countLoop L input [])) (by
      intro hne
      apply buildLoop_ne_nil
      intro h0
      have := congrArg List.length h0
      rw [sort_length, pushLeaves_length] at this
      simp at this
      exact hne this)
  refine ⟨⟨buildLoop L (L.sort (pushLeaves (addFiller L (countLoop L input [])) [])).length
      (L.sort (pushLeaves (addFiller L (countLoop L input [])) [])), bt,
      addFiller L (countLoop L input []), [], input, ⟨[], 0⟩⟩, ?_, ?_, ?_, ?_⟩
  · simp only [encodeTables, _BuildBitTable, _BuildBitTree, _PopulateForest, new, h1]
    rfl
  · rfl
  · rfl
  · intro c hc
    exact h2 c (hfind c hc)

/-- The shape of the result of `Encode` on a fresh instance. -/
theorem Encode_new (L : StdImpl) (input : List Byte) (h4 : THuffman) (body : List Bool)
    (ht : encodeTables L input = some h4) (hb : _EncodeText h4 = some body) :
    Encode L new input =
      some (TBitBuffer.ReadAllBytes
          ⟨(_WriteHeader h4 body.length).encodedText.bitsBuffer ++ body, 0⟩,
        ⟨[], [], [], [], h4.plainText,
          ⟨(_WriteHeader h4 body.length).encodedText.bitsBuffer ++ body, 0⟩⟩) := by
  unfold encodeTables at ht
  unfold Encode
  simp only [ht, hb, __CleanUp, TBitBuffer.AppendBits, _WriteHeader_encodedText]
  rfl

end THuffman

/-! ## An input of one distinct byte -/

namespace THuffman

theorem sort_single (L : StdImpl) (x : THuffmanBTree) : L.sort [x] = [x] :=
  List.perm_singleton.1 (L.sort_perm [x])

theorem sort_pair (L : StdImpl) (x y : THuffmanBTree) :
    L.sort [x, y] = [x, y] ∨ L.sort [x, y] = [y, x] := by
  have hp := L.sort_perm [x, y]
  have hl := hp.length_eq
  rcases hs : L.sort [x, y] with _ | ⟨a, _ | ⟨b, _ | ⟨c, r⟩⟩⟩
  · rw [hs] at hl; simp at hl
  · rw [hs] at hl; simp at hl
  · rw [hs] at hp
    have ha : a ∈ [x, y] := hp.subset (List.mem_cons_self _ _)
    simp only [List.mem_cons, List.mem_singleton, List.not_mem_nil, or_false] at ha
    rcases ha with rfl | rfl
    · left
      have := List.perm_singleton.1 (List.Perm.cons_inv hp)
      rw [this]
    · right
      have h2 : [a, b].Perm [a, x] := hp.trans (List.Perm.swap a x [])
      have := List.perm_singleton.1 (List.Perm.cons_inv h2)
      rw [this]
  · rw [hs] at hl; simp at hl

theorem sort_pair_of_lt (L : StdImpl) (x y : THuffmanBTree)
    (h : y.GetRootFreq < x.GetRootFreq) : L.sort [x, y] = [y, x] := by
  rcases sort_pair L x y with hs | hs
  · have := L.sort_sorted [x, y]
    rw [hs] at this
    simp [__TreeFreqCmp] at this
    omega
  · exact hs

theorem charLt_asymm (L : StdImpl) (a b : Byte) (h : charLt L a b = true) :
    charLt L b a = false := by
  unfold charLt at h ⊢
  by_cases hs : L.charSigned = true
  · rw [if_pos hs] at h ⊢
    simp only [decide_eq_true_eq, decide_eq_false_iff_not] at h ⊢
    omega
  · rw [if_neg hs] at h ⊢
    simp only [decide_eq_true_eq, decide_eq_false_iff_not] at h ⊢
    omega

theorem countLoop_same (L : StdImpl) (c : Byte) :
    ∀ n m : Nat, countLoop L (List.replicate n c) [(c, m)] = [(c, m + n)] := by
  intro n
  induction n with
  | zero => intro m; rfl
  | succ n ih =>
    intro m
    simp only [List.replicate_succ, countLoop, mapFind, if_true, mapUpdate]
    rw [ih]
    have : m + 1 + n = m + (n + 1) := by omega
    rw [this]

theorem countLoop_replicate (L : StdImpl) (c : Byte) (n : Nat) (hn : 0 < n) :
    countLoop L (List.replicate n c) [] = [(c, n)] := by
  obtain ⟨k, rfl⟩ : ∃ k, n = k + 1 := ⟨n - 1, by omega⟩
  simp only [List.replicate_succ, countLoop, mapFind, mapInsert, mapPlace]
  rw [countLoop_same]
  have : 1 + k = k + 1 := by omega
  rw [this]

/-- The filler `_PopulateForest` adds next to a single character `c`. -/
theorem addFiller_single (L : StdImpl) (c : Byte) (n : Nat) (f : Byte)
    (hf : f = if c ≠ 97 then 97 else 98) :
    f ≠ c ∧
      ((charLt L f c = true ∧ addFiller L [(c, n)] = [(f, 1), (c, n)]) ∨
        (charLt L f c = false ∧ addFiller L [(c, n)] = [(c, n), (f, 1)])) := by
  have hfc : f ≠ c := by
    subst hf
    by_cases h : c = 97
    · subst h; decide
    · simp only [ne_eq, h, not_false_eq_true, if_true]
      exact fun e => h e.symm
  refine ⟨hfc, ?_⟩
  have hA : addFiller L [(c, n)] = mapPlace (charLt L) f 1 [(c, n)] := by
    subst hf
    by_cases h : c = 97
    · subst h
      simp [addFiller, mapAssign, mapFind]
    · simp [addFiller, mapAssign, mapFind, h]
  rw [hA]
  cases hlt : charLt L f c with
  | true => left; simp [mapPlace, hlt]
  | false => right; simp [mapPlace, hlt]

/-- The tables `Encode` builds from a frequency table of two characters. -/
theorem tables_of_two (L : StdImpl) (k1 k2 : Byte) (m1 m2 : Nat) (hk : k1 ≠ k2)
    (hlt : charLt L k2 k1 = false) (plainText : List Byte) (enc : TBitBuffer) :
    ∃ x y : THuffmanBTree,
      ((x = THuffmanBTree.new.Insert k1 m1 ∧ y = THuffmanBTree.new.Insert k2 m2) ∨
        (x = THuffmanBTree.new.Insert k2 m2 ∧ y = THuffmanBTree.new.Insert k1 m1)) ∧
      L.sort [THuffmanBTree.new.Insert k1 m1, THuffmanBTree.new.Insert k2 m2] = [x, y] ∧
      _BuildBitTable L (_BuildBitTree L
        ⟨L.sort [THuffmanBTree.new.Insert k1 m1, THuffmanBTree.new.Insert k2 m2], [],
          [(k1, m1), (k2, m2)], [], plainText, enc⟩) =
        some ⟨[THuffmanBTree.new.DefineRoot 0 x.GetRoot y.GetRoot],
          [(k1, ⟨(THuffmanBTree.new.DefineRoot 0 x.GetRoot y.GetRoot).BitCode k1, 0⟩),
           (k2, ⟨(THuffmanBTree.new.DefineRoot 0 x.GetRoot y.GetRoot).BitCode k2, 0⟩)],
          [(k1, m1), (k2, m2)], [], plainText, enc⟩ := by
  have hxy : ∃ x y : THuffmanBTree,
      ((x = THuffmanBTree.new.Insert k1 m1 ∧ y = THuffmanBTree.new.Insert k2 m2) ∨
        (x = THuffmanBTree.new.Insert k2 m2 ∧ y = THuffmanBTree.new.Insert k1 m1)) ∧
      L.sort [THuffmanBTree.new.Insert k1 m1, THuffmanBTree.new.Insert k2 m2] = [x, y] := by
    rcases sort_pair L (THuffmanBTree.new.Insert k1 m1) (THuffmanBTree.new.Insert k2 m2)
      with h | h
    · exact ⟨_, _, Or.inl ⟨rfl, rfl⟩, h⟩
    · exact ⟨_, _, Or.inr ⟨rfl, rfl⟩, h⟩
  obtain ⟨x, y, hor, hs⟩ := hxy
  refine ⟨x, y, hor, hs, ?_⟩
  rw [hs]
  simp only [_BuildBitTree, List.length_cons, List.length_nil, buildLoop, sort_single,
    _BuildBitTable, bitTableLoop, List.getElem?_cons_zero, mapInsert, mapFind, mapPlace,
    TBitBuffer.AssignBits, hk, if_false, hlt]
  simp

/-- The tables `Encode` builds from `n ≥ 1` copies of one byte `c`, `f` being
the filler. -/
theorem encodeTables_replicate (L : StdImpl) (c : Byte) (n : Nat) (hn : 0 < n) (f : Byte)
    (hf : f = if c ≠ 97 then 97 else 98) :
    ∃ (k1 k2 : Byte) (m1 m2 : Nat) (x y : THuffmanBTree),
      ((charLt L f c = false ∧ k1 = c ∧ m1 = n ∧ k2 = f ∧ m2 = 1) ∨
        (charLt L f c = true ∧ k1 = f ∧ m1 = 1 ∧ k2 = c ∧ m2 = n)) ∧
      ((x = THuffmanBTree.new.Insert k1 m1 ∧ y = THuffmanBTree.new.Insert k2 m2) ∨
        (x = THuffmanBTree.new.Insert k2 m2 ∧ y = THuffmanBTree.new.Insert k1 m1)) ∧
      L.sort [THuffmanBTree.new.Insert k1 m1, THuffmanBTree.new.Insert k2 m2] = [x, y] ∧
      encodeTables L (List.replicate n c) =
        some ⟨[THuffmanBTree.new.DefineRoot 0 x.GetRoot y.GetRoot],
          [(k1, ⟨(THuffmanBTree.new.DefineRoot 0 x.GetRoot y.GetRoot).BitCode k1, 0⟩),
           (k2, ⟨(THuffmanBTree.new.DefineRoot 0 x.GetRoot y.GetRoot).BitCode k2, 0⟩)],
          [(k1, m1), (k2, m2)], [], List.replicate n c, ⟨[], 0⟩⟩ := by
  obtain ⟨hfc, hcase⟩ := addFiller_single L c n f hf
  have key : ∀ (k1 k2 : Byte) (m1 m2 : Nat), k1 ≠ k2 → charLt L k2 k1 = false →
      addFiller L [(c, n)] = [(k1, m1), (k2, m2)] →
      ∃ x y : THuffmanBTree,
        ((x = THuffmanBTree.new.Insert k1 m1 ∧ y = THuffmanBTree.new.Insert k2 m2) ∨
          (x = THuffmanBTree.new.Insert k2 m2 ∧ y = THuffmanBTree.new.Insert k1 m1)) ∧
        L.sort [THuffmanBTree.new.Insert k1 m1, THuffmanBTree.new.Insert k2 m2] = [x, y] ∧
        encodeTables L (List.replicate n c) =
          some ⟨[THuffmanBTree.new.DefineRoot 0 x.GetRoot y.GetRoot],
            [(k1, ⟨(THuffmanBTree.new.DefineRoot 0 x.GetRoot y.GetRoot).BitCode k1, 0⟩),
             (k2, ⟨(THuffmanBTree.new.DefineRoot 0 x.GetRoot y.GetRoot).BitCode k2, 0⟩)],
            [(k1, m1), (k2, m2)], [], List.replicate n c, ⟨[], 0⟩⟩ := by
    intro k1 k2 m1 m2 hk hlt hft
    obtain ⟨x, y, hor, hs, ht⟩ := tables_of_two L k1 k2 m1 m2 hk hlt (List.replicate n c) ⟨[], 0⟩
    refine ⟨x, y, hor, hs, ?_⟩
    rw [← ht]
    simp only [encodeTables, _PopulateForest, new, countLoop_replicate L c n hn, hft,
      pushLeaves, List.nil_append, List.cons_append, TBitBuffer.Clear]
  rcases hcase with ⟨hlt, hft⟩ | ⟨hlt, hft⟩
  · obtain ⟨x, y, h1, h2, h3⟩ := key f c 1 n hfc (charLt_asymm L f c hlt) hft
    exact ⟨f, c, 1, n, x, y, Or.inr ⟨hlt, rfl, rfl, rfl, rfl⟩, h1, h2, h3⟩
  · obtain ⟨x, y, h1, h2, h3⟩ := key c f n 1 (Ne.symm hfc) hlt hft
    exact ⟨c, f, n, 1, x, y, Or.inl ⟨hlt, rfl, rfl, rfl, rfl⟩, h1, h2, h3⟩

theorem encodeLoop_replicate (bitTable : List (Byte × TBitBuffer)) (c : Byte) (bb : TBitBuffer)
    (h : mapFind c bitTable = some bb) :
    ∀ (n : Nat) (r : List Bool),
      ∃ body, encodeLoop bitTable (List.replicate n c) r = some body ∧
        body.length = r.length + n * bb.bitsBuffer.length := by
  intro n
  induction n with
  | zero => intro r; exact ⟨r, rfl, by simp⟩
  | succ n ih =>
    intro r
    obtain ⟨body, hb, hl⟩ := ih (r ++ bb.ReadAllBits)
    refine ⟨body, ?_, ?_⟩
    · simp only [List.replicate_succ, encodeLoop, h]
      exact hb
    · rw [hl]
      simp only [TBitBuffer.ReadAllBits, List.length_append]
      rw [Nat.succ_mul]
      omega

theorem bytesBits_head (output : List Byte) (x : Byte) (rest : List Bool)
    (h : bytesBits output = byteBits x ++ rest) : output.head? = some x := by
  cases output with
  | nil =>
    have := congrArg List.length h
    simp [bytesBits, TBitBuffer.byteBits_length] at this
    omega
  | cons y out =>
    simp only [bytesBits] at h
    have h1 := List.append_inj_left h
      (by rw [TBitBuffer.byteBits_length, TBitBuffer.byteBits_length])
    have h2 := congrArg (fun l => (Fin.ofNat (TBitBuffer.packByte l 8 0 0) : Byte)) h1
    simp only [TBitBuffer.packByte_byteBits] at h2
    rw [h2]
    rfl

end THuffman

namespace THuffman

theorem charLt_b_a (L : StdImpl) : charLt L 98 97 = false := by
  unfold charLt
  by_cases hs : L.charSigned = true
  · rw [if_pos hs]; decide
  · rw [if_neg hs]; decide

/-- The tables `Encode` builds from `n ≥ 1` copies of `'a'`: the entries are
`'a'` and `'b'`, in this order, and both codes are one bit long. -/
theorem encodeTables_a (L : StdImpl) (n : Nat) (hn : 0 < n) :
    ∃ (codeA codeB : List Bool) (x y : THuffmanBTree),
      L.sort [THuffmanBTree.new.Insert 97 n, THuffmanBTree.new.Insert 98 1] = [x, y] ∧
      ((x = THuffmanBTree.new.Insert 97 n ∧ y = THuffmanBTree.new.Insert 98 1 ∧
          codeA = [false] ∧ codeB = [true]) ∨
        (x = THuffmanBTree.new.Insert 98 1 ∧ y = THuffmanBTree.new.Insert 97 n ∧
          codeA = [true] ∧ codeB = [false])) ∧
      encodeTables L (List.replicate n 97) =
        some ⟨[THuffmanBTree.new.DefineRoot 0 x.GetRoot y.GetRoot],
          [(97, ⟨codeA, 0⟩), (98, ⟨codeB, 0⟩)],
          [(97, n), (98, 1)], [], List.replicate n 97, ⟨[], 0⟩⟩ := by
  obtain ⟨k1, k2, m1, m2, x, y, hcase, hor, hs, ht⟩ :=
    encodeTables_replicate L 97 n hn 98 (by decide)
  rcases hcase with ⟨_, rfl, rfl, rfl, rfl⟩ | ⟨hlt, _⟩
  · rcases hor with ⟨rfl, rfl⟩ | ⟨rfl, rfl⟩
    · exact ⟨[false], [true], _, _, hs, Or.inl ⟨rfl, rfl, rfl, rfl⟩, ht⟩
    · exact ⟨[true], [false], _, _, hs, Or.inr ⟨rfl, rfl, rfl, rfl⟩, ht⟩
  · rw [charLt_b_a] at hlt
    cases hlt

end THuffman

namespace THuffman

theorem sort_pair_of_sorted (L : StdImpl) (x y : THuffmanBTree)
    (h : x.GetRootFreq < y.GetRootFreq) : L.sort [x, y] = [x, y] := by
  rcases sort_pair L x y with hs | hs
  · exact hs
  · have := L.sort_sorted [x, y]
    rw [hs] at this
    simp [__TreeFreqCmp] at this
    omega

theorem charLt_of_small (L : StdImpl) (a b : Byte) (ha : a.val < 128) (hb : b.val < 128) :
    charLt L a b = decide (a.val < b.val) := by
  unfold charLt
  by_cases hs : L.charSigned = true
  · rw [if_pos hs]
    have h1 : (a.val + 128) % 256 = a.val + 128 := Nat.mod_eq_of_lt (by omega)
    have h2 : (b.val + 128) % 256 = b.val + 128 := Nat.mod_eq_of_lt (by omega)
    rw [h1, h2]
    simp
  · rw [if_neg hs]

/-- The tables `Encode` builds from the two bytes 0x00 0x00. -/
theorem encodeTables_zero_zero (L : StdImpl) :
    encodeTables L [0, 0] =
      some ⟨[⟨.node 0 3 (.node 97 1 .null .null) (.node 0 2 .null .null)⟩],
        [(0, ⟨[], 0⟩), (97, ⟨[false], 0⟩)], [(0, 2), (97, 1)], [], [0, 0], ⟨[], 0⟩⟩ := by
  obtain ⟨k1, k2, m1, m2, x, y, hcase, _, hs, ht⟩ :=
    encodeTables_replicate L 0 2 (by decide) 97 (by decide)
  have hlt : charLt L 97 0 = false := by
    rw [charLt_of_small L 97 0 (by decide) (by decide)]
    decide
  rcases hcase with ⟨_, rfl, rfl, rfl, rfl⟩ | ⟨h, _⟩
  · rw [sort_pair_of_lt L _ _ (by decide)] at hs
    obtain ⟨rfl, hs2⟩ := List.cons.inj hs
    obtain ⟨rfl, _⟩ := List.cons.inj hs2
    exact ht
  · rw [hlt] at h
    cases h

/-- The tables `Encode` builds from the three bytes 0x00 0x01 0x01. -/
theorem encodeTables_zero_one_one (L : StdImpl) :
    encodeTables L [0, 1, 1] =
      some ⟨[⟨.node 0 3 (.node 0 1 .null .null) (.node 1 2 .null .null)⟩],
        [(0, ⟨[], 0⟩), (1, ⟨[true], 0⟩)], [(0, 1), (1, 2)], [], [0, 1, 1], ⟨[], 0⟩⟩ := by
  have hlt : charLt L 1 0 = false := by
    rw [charLt_of_small L 1 0 (by decide) (by decide)]
    decide
  obtain ⟨x, y, _, hs, ht⟩ := tables_of_two L 0 1 1 2 (by decide) hlt [0, 1, 1] ⟨[], 0⟩
  rw [sort_pair_of_sorted L _ _ (by decide)] at hs
  obtain ⟨rfl, hs2⟩ := List.cons.inj hs
  obtain ⟨rfl, _⟩ := List.cons.inj hs2
  have hft : addFiller L (countLoop L [0, 1, 1] []) = [(0, 1), (1, 2)] := by
    simp [countLoop, mapFind, mapInsert, mapPlace, mapUpdate, hlt, addFiller]
  have h1 : encodeTables L [0, 1, 1] =
      _BuildBitTable L (_BuildBitTree L
        ⟨L.sort [THuffmanBTree.new.Insert 0 1, THuffmanBTree.new.Insert 1 2], [],
          [(0, 1), (1, 2)], [], [0, 1, 1], ⟨[], 0⟩⟩) := by
    simp only [encodeTables, _PopulateForest, new, hft, pushLeaves, List.nil_append,
      List.cons_append, TBitBuffer.Clear]
  rw [h1, ht]
  rfl

end THuffman

/-! ## The fuel of the loops is enough -/

namespace TBitBuffer

/-- The loop of `ReadNumber` ends, by a zero bit or by the exception, within
`Size() + 1` iterations: more fuel changes nothing. -/
theorem readTally_fuel (fuel : Nat) :
    ∀ (b : TBitBuffer) (a : Nat), b.Size < fuel →
      readTally (fuel + 1) b a = readTally fuel b a := by
  induction fuel with
  | zero => intro b a h; omega
  | succ fuel ih =>
    intro b a h
    rw [readTally, readTally]
    cases hb : b.bitsBuffer[b.bufferPos]? with
    | none => simp [_ReadBit, hb]
    | some bit =>
      cases bit with
      | false => simp [_ReadBit, hb]
      | true =>
        simp only [_ReadBit, hb]
        apply ih
        have hlt : b.bufferPos < b.bitsBuffer.length := by
          by_contra hge
          have := List.getElem?_eq_none_iff.2 (Nat.le_of_not_lt hge)
          rw [this] at hb
          cases hb
        simp only [Size] at h ⊢
        split_ifs at h ⊢ <;> omega

end TBitBuffer

namespace THuffman

/-- The loop of `_BuildBitTree` ends within `forest.size()` iterations: it
leaves at most one tree. -/
theorem buildLoop_length (L : StdImpl) :
    ∀ (fuel : Nat) (forest : List THuffmanBTree), forest.length ≤ fuel →
      (buildLoop L fuel forest).length ≤ 1 := by
  intro fuel
  induction fuel with
  | zero =>
    intro forest h
    simp only [buildLoop]
    omega
  | succ fuel ih =>
    intro forest h
    unfold buildLoop
    split
    · apply ih
      rw [sort_length]
      simp only [List.length_cons] at h ⊢
      omega
    · rename_i hshort
      rcases forest with _ | ⟨a, _ | ⟨b, rest⟩⟩
      · simp
      · simp
      · exact absurd rfl (hshort a b rest)

end THuffman

/-! ## `BitCode` and the path to a leaf -/

namespace THuffmanBTree

theorem _BitCode_node (needle letter : Byte) (f : Nat) (left right : node_t)
    (bitCode : List Bool) :
    _BitCode needle (.node letter f left right) bitCode =
      if letter = needle then bitCode
      else if (_BitCode needle left (bitCode ++ [false])).length > 0 then
        _BitCode needle left (bitCode ++ [false])
      else _BitCode needle right (bitCode ++ [true]) := by
  simp only [_BitCode]

theorem _BitCode_absent (needle : Byte) (hn : needle ≠ 0) :
    ∀ (t : node_t) (bitCode : List Bool), isMerged t = true → leafPath needle t = none →
      _BitCode needle t bitCode = [] := by
  intro t
  induction t with
  | null => intro bitCode h; cases h
  | node letter f left right ihl ihr =>
    intro bitCode hm hp
    cases left with
    | null =>
      cases right with
      | null =>
        simp only [leafPath] at hp
        have hne : letter ≠ needle := by
          intro e
          simp [e] at hp
        simp [_BitCode, hne]
      | node c2 f2 l2 r2 => simp [isMerged] at hm
    | node c1 f1 l1 r1 =>
      simp only [isMerged, Bool.and_eq_true, decide_eq_true_eq] at hm
      obtain ⟨⟨⟨hl0, _⟩, hml⟩, hmr⟩ := hm
      have hne : letter ≠ needle := by
        rw [hl0]
        exact fun e => hn e.symm
      simp only [leafPath] at hp
      cases h1 : leafPath needle (.node c1 f1 l1 r1) with
      | some path => simp [h1] at hp
      | none =>
        cases h2 : leafPath needle right with
        | some path => simp [h1, h2] at hp
        | none =>
          rw [_BitCode_node, if_neg hne, ihl _ hml h1]
          simp only [List.length_nil, gt_iff_lt, Nat.lt_irrefl, if_false]
          exact ihr _ hmr h2

/-- On a tree of the merge step and for a symbol other than 0 held by a leaf,
`_BitCode` returns the path walked so far followed by the path to the leaf. -/
theorem _BitCode_eq_leafPath (needle : Byte) (hn : needle ≠ 0) :
    ∀ (t : node_t) (bitCode path : List Bool), isMerged t = true →
      leafPath needle t = some path → _BitCode needle t bitCode = bitCode ++ path := by
  intro t
  induction t with
  | null => intro bitCode path h; cases h
  | node letter f left right ihl ihr =>
    intro bitCode path hm hp
    cases left with
    | null =>
      cases right with
      | null =>
        simp only [leafPath] at hp
        by_cases he : letter = needle
        · simp only [he, if_true, Option.some.injEq] at hp
          subst hp
          simp [_BitCode, he]
        · simp [he] at hp
      | node c2 f2 l2 r2 => simp [isMerged] at hm
    | node c1 f1 l1 r1 =>
      simp only [isMerged, Bool.and_eq_true, decide_eq_true_eq] at hm
      obtain ⟨⟨⟨hl0, _⟩, hml⟩, hmr⟩ := hm
      have hne : letter ≠ needle := by
        rw [hl0]
        exact fun e => hn e.symm
      simp only [leafPath] at hp
      cases h1 : leafPath needle (.node c1 f1 l1 r1) with
      | some p1 =>
        simp only [h1, Option.some.injEq] at hp
        subst hp
        rw [_BitCode_node, if_neg hne, ihl _ _ hml h1]
        simp
      | none =>
        cases h2 : leafPath needle right with
        | some p2 =>
          simp only [h1, h2, Option.some.injEq] at hp
          subst hp
          rw [_BitCode_node, if_neg hne, _BitCode_absent needle hn _ _ hml h1,
            ihr _ _ hmr h2]
          simp
        | none => simp [h1, h2] at hp

end THuffmanBTree

/-! ## Reading bits -/

namespace TBitBuffer

theorem _ReadBit_eq (b : TBitBuffer) :
    b._ReadBit =
      match b.unread with
      | [] => none
      | x :: _ => some (x, ⟨b.bitsBuffer, b.bufferPos + 1⟩) := by
  cases h : b.unread with
  | nil => exact _ReadBit_of_unread_nil b h
  | cons x r => exact (_ReadBit_of_unread b x r h).1

theorem unread_step (b : TBitBuffer) (x : Bool) (r : List Bool) (h : b.unread = x :: r) :
    (⟨b.bitsBuffer, b.bufferPos + 1⟩ : TBitBuffer).unread = r :=
  (_ReadBit_of_unread b x r h).2

/-- The loop of `ReadBits` on any buffer: it throws exactly when more bits are
asked for than are unread, and else hands out the next `n` unread bits. -/
theorem readBitsLoop_eq (n : Nat) :
    ∀ (b : TBitBuffer) (r : List Bool),
      readBitsLoop n b r =
        if n ≤ b.unread.length then
          some (r ++ b.unread.take n, ⟨b.bitsBuffer, b.bufferPos + n⟩)
        else none := by
  induction n with
  | zero => intro b r; simp [readBitsLoop]
  | succ n ih =>
    intro b r
    rw [readBitsLoop, _ReadBit_eq]
    cases h : b.unread with
    | nil =>
      simp
    | cons x rest =>
      simp only [ih, unread_step b x rest h, List.length_cons, Nat.add_le_add_iff_right,
        Bool.if_true_left, Bool.or_false, Bool.if_false_right, Bool.and_true,
        decide_eq_true_eq]
      by_cases hn : n ≤ rest.length
      · simp [hn, List.take_succ_cons, Nat.add_assoc, Nat.add_comm 1 n]
      · simp [hn]

theorem ReadBits_eq (b : TBitBuffer) (n : Nat) :
    b.ReadBits n =
      if n ≤ b.unread.length then some (b.unread.take n, ⟨b.bitsBuffer, b.bufferPos + n⟩)
      else none := by
  unfold ReadBits
  by_cases h1 : n = 1
  · subst h1
    have := readBitsLoop_eq 1 b []
    simp only [readBitsLoop, List.nil_append] at this
    rw [if_pos rfl, ← this]
  · rw [if_neg h1, readBitsLoop_eq]
    simp

end TBitBuffer

/-! ## Bytes and their bits -/

namespace TBitBuffer

set_option maxRecDepth 100000 in
theorem byteBits_eq_msbFirst : ∀ c : Byte, byteBits c = msbFirst c := by
  decide

theorem bytesBits_eq_msbBits (input : List Byte) : bytesBits input = msbBits input := by
  induction input with
  | nil => rfl
  | cons c rest ih => simp only [bytesBits, msbBits, ih, byteBits_eq_msbFirst]

theorem bytesBits_length (input : List Byte) : (bytesBits input).length = 8 * input.length := by
  induction input with
  | nil => rfl
  | cons c rest ih =>
    simp only [bytesBits, List.length_append, byteBits_length, ih, List.length_cons]
    omega

theorem byteBits_injective (x y : Byte) (h : byteBits x = byteBits y) : x = y := by
  have h2 := congrArg (fun l => (Fin.ofNat (packByte l 8 0 0) : Byte)) h
  simpa only [packByte_byteBits] using h2

theorem bytesBits_injective :
    ∀ (x y : List Byte), bytesBits x = bytesBits y → x = y := by
  intro x
  induction x with
  | nil =>
    intro y h
    cases y with
    | nil => rfl
    | cons c r =>
      have := congrArg List.length h
      rw [bytesBits_length, bytesBits_length] at this
      simp at this
  | cons a x ih =>
    intro y h
    cases y with
    | nil =>
      have := congrArg List.length h
      rw [bytesBits_length, bytesBits_length] at this
      simp at this
    | cons c r =>
      simp only [bytesBits] at h
      have hl : (byteBits a).length = (byteBits c).length := by
        rw [byteBits_length, byteBits_length]
      have h1 := List.append_inj h hl
      rw [byteBits_injective a c h1.1, ih r h1.2]

/-- The function `ReadAllBytes` undoes `AssignBytes`. -/
theorem ReadAllBytes_AssignBytes (b : TBitBuffer) (input : List Byte) :
    (b.AssignBytes input).ReadAllBytes = input := by
  rw [AssignBytes_eq]
  have h := ReadAllBytes_exact ⟨bytesBits input, 0⟩ (by
    show (bytesBits input).length % 8 = 0
    rw [bytesBits_length]
    omega)
  exact bytesBits_injective _ _ h.2

end TBitBuffer

/-! ## The frequency table -/

section MapKeys

variable {K V : Type} [DecidableEq K]

theorem mapFind_eq_none (k : K) (m : List (K × V)) :
    mapFind k m = none ↔ k ∉ m.map Prod.fst := by
  induction m with
  | nil => simp [mapFind]
  | cons e m ih =>
    obtain ⟨k1, v1⟩ := e
    simp only [mapFind, List.map_cons, List.mem_cons, not_or]
    by_cases h : k1 = k
    · simp [h]
    · simp only [h, if_false, ih]
      constructor
      · intro hm
        exact ⟨fun e => h e.symm, hm⟩
      · intro hm
        exact hm.2

omit [DecidableEq K] in
theorem mapPlace_perm (lt : K → K → Bool) (k : K) (v : V) (m : List (K × V)) :
    (mapPlace lt k v m).Perm ((k, v) :: m) := by
  induction m with
  | nil => exact List.Perm.refl _
  | cons e m ih =>
    obtain ⟨k1, v1⟩ := e
    simp only [mapPlace]
    split
    · exact List.Perm.refl _
    · exact (List.Perm.cons _ ih).trans (List.Perm.swap _ _ _)

theorem mapFind_mapPlace_eq (lt : K → K → Bool) (k : K) (v : V) (m : List (K × V)) (c : K)
    (hk : mapFind k m = none) :
    mapFind c (mapPlace lt k v m) = if c = k then some v else mapFind c m := by
  induction m with
  | nil =>
    simp only [mapPlace, mapFind]
    by_cases h : k = c
    · simp [h]
    · simp [h, Ne.symm h]
  | cons e m ih =>
    obtain ⟨k1, v1⟩ := e
    simp only [mapFind] at hk
    have hk1 : ¬ k1 = k := by
      intro e
      simp [e] at hk
    simp only [hk1, if_false] at hk
    simp only [mapPlace]
    split
    · simp only [mapFind]
      by_cases h : k = c
      · simp [h]
      · simp [h, Ne.symm h]
    · simp only [mapFind]
      by_cases h1 : k1 = c
      · have : ¬ c = k := fun e => hk1 (h1.trans e)
        simp [h1, this]
      · simp only [h1, if_false]
        exact ih hk

theorem mapUpdate_keys (k : K) (f : V → V) (m : List (K × V)) :
    (mapUpdate k f m).map Prod.fst = m.map Prod.fst := by
  induction m with
  | nil => rfl
  | cons e m ih =>
    obtain ⟨k1, v1⟩ := e
    simp only [mapUpdate]
    split
    · rfl
    · simp only [List.map_cons, ih]

theorem mapFind_mapUpdate_eq (k : K) (f : V → V) (m : List (K × V)) (c : K) :
    mapFind c (mapUpdate k f m) = if c = k then (mapFind k m).map f else mapFind c m := by
  induction m with
  | nil => simp [mapUpdate, mapFind]
  | cons e m ih =>
    obtain ⟨k1, v1⟩ := e
    simp only [mapUpdate]
    by_cases h : k1 = k
    · subst h
      simp only [if_true, mapFind]
      by_cases h2 : k1 = c
      · simp [h2]
      · simp [h2, Ne.symm h2]
    · simp only [h, if_false, mapFind]
      by_cases h2 : k1 = c
      · have : ¬ c = k := fun e => h (h2.trans e)
        simp [h2, this]
      · simp only [h2, if_false]
        exact ih

/-- In a map with distinct keys, `find` returns the value of the pair with
that key. -/
theorem mapFind_of_mem (m : List (K × V)) (hn : (m.map Prod.fst).Nodup) (k : K) (v : V)
    (h : (k, v) ∈ m) : mapFind k m = some v := by
  induction m with
  | nil => cases h
  | cons e m ih =>
    obtain ⟨k1, v1⟩ := e
    simp only [List.map_cons, List.nodup_cons] at hn
    rcases List.mem_cons.1 h with h | h
    · cases h
      simp [mapFind]
    · have hne : ¬ k1 = k := by
        intro e
        apply hn.1
        rw [e]
        exact List.mem_map_of_mem Prod.fst h
      simp only [mapFind, hne, if_false]
      exact ih hn.2 h

theorem mem_of_mapFind (m : List (K × V)) (k : K) (v : V) (h : mapFind k m = some v) :
    (k, v) ∈ m := by
  induction m with
  | nil => cases h
  | cons e m ih =>
    obtain ⟨k1, v1⟩ := e
    simp only [mapFind] at h
    by_cases h1 : k1 = k
    · simp only [h1, if_true, Option.some.injEq] at h
      rw [h1, h]
      exact List.mem_cons_self _ _
    · simp only [h1, if_false] at h
      exact List.mem_cons_of_mem _ (ih h)

end MapKeys

namespace THuffman

/-- The first loop of `_PopulateForest` counts: the keys stay distinct, and a
character of the text gets its number of occurrences added. -/
theorem countLoop_counts (L : StdImpl) (text : List Byte) :
    ∀ freqTable : List (Byte × Nat), (freqTable.map Prod.fst).Nodup →
      ((countLoop L text freqTable).map Prod.fst).Nodup ∧
      ∀ c, mapFind c (countLoop L text freqTable) =
        if c ∈ text then some (text.count c + (mapFind c freqTable).getD 0)
        else mapFind c freqTable := by
  induction text with
  | nil =>
    intro freqTable hn
    exact ⟨hn, fun c => by simp [countLoop]⟩
  | cons x text ih =>
    intro freqTable hn
    unfold countLoop
    cases hx : mapFind x freqTable with
    | none =>
      simp only
      have hperm : (mapInsert (charLt L) x 1 freqTable).Perm ((x, 1) :: freqTable) := by
        simp only [mapInsert, hx]
        exact mapPlace_perm _ _ _ _
      have hn2 : ((mapInsert (charLt L) x 1 freqTable).map Prod.fst).Nodup := by
        refine (List.Perm.nodup_iff (hperm.map Prod.fst)).2 ?_
        simp only [List.map_cons, List.nodup_cons]
        exact ⟨(mapFind_eq_none x freqTable).1 hx, hn⟩
      obtain ⟨h1, h2⟩ := ih _ hn2
      refine ⟨h1, ?_⟩
      intro c
      rw [h2 c]
      have hf : mapFind c (mapInsert (charLt L) x 1 freqTable) =
          if c = x then some 1 else mapFind c freqTable := by
        simp only [mapInsert, hx]
        exact mapFind_mapPlace_eq _ _ _ _ _ hx
      rw [hf]
      by_cases hcx : c = x
      · subst hcx
        simp [hx]
        exact fun h => List.count_eq_zero_of_not_mem h
      · have hxc : ¬ x = c := fun e => hcx e.symm
        simp [hcx, hxc, List.count_cons]
    | some w =>
      simp only
      have hn2 : ((mapUpdate x (fun n => n + 1) freqTable).map Prod.fst).Nodup := by
        rw [mapUpdate_keys]
        exact hn
      obtain ⟨h1, h2⟩ := ih _ hn2
      refine ⟨h1, ?_⟩
      intro c
      rw [h2 c, mapFind_mapUpdate_eq]
      by_cases hcx : c = x
      · subst hcx
        simp only [hx, Option.map_some', if_true, List.mem_cons, true_or, List.count_cons_self,
          Option.getD_some]
        by_cases hm : c ∈ text
        · simp only [hm, if_true, Option.some.injEq]
          omega
        · simp only [hm, if_false, Option.some.injEq, List.count_eq_zero_of_not_mem hm]
          omega
      · have hxc : ¬ x = c := fun e => hcx e.symm
        simp [hcx, hxc, List.count_cons]

end THuffman

/-! ## The forest -/

namespace THuffman

theorem pushLeaves_eq (freqTable : List (Byte × Nat)) :
    ∀ forest : List THuffmanBTree,
      pushLeaves freqTable forest =
        forest ++ freqTable.map (fun e => (⟨.node e.1 e.2 .null .null⟩ : THuffmanBTree)) := by
  induction freqTable with
  | nil => intro forest; simp [pushLeaves]
  | cons e m ih =>
    intro forest
    obtain ⟨c, n⟩ := e
    simp only [pushLeaves, ih, List.map_cons, List.append_assoc, List.singleton_append]
    rfl

theorem forestLeaves_append (f1 f2 : List THuffmanBTree) :
    forestLeaves (f1 ++ f2) = forestLeaves f1 ++ forestLeaves f2 := by
  induction f1 with
  | nil => rfl
  | cons t f1 ih =>
    show leaves t.root ++ forestLeaves (f1 ++ f2) = _
    rw [ih]
    simp only [forestLeaves, List.append_assoc]

theorem forestLeaves_leafTrees (freqTable : List (Byte × Nat)) :
    forestLeaves (freqTable.map (fun e => (⟨.node e.1 e.2 .null .null⟩ : THuffmanBTree)))
      = freqTable := by
  induction freqTable with
  | nil => rfl
  | cons e m ih =>
    simp only [List.map_cons, forestLeaves, leaves, ih]
    rfl

theorem forestLeaves_perm (f1 f2 : List THuffmanBTree) (h : f1.Perm f2) :
    (forestLeaves f1).Perm (forestLeaves f2) := by
  induction h with
  | nil => exact List.Perm.refl _
  | cons t _ ih =>
    simp only [forestLeaves]
    exact List.Perm.append_left _ ih
  | swap t u f =>
    simp only [forestLeaves]
    rw [← List.append_assoc, ← List.append_assoc]
    exact List.Perm.append_right _ List.perm_append_comm
  | trans _ _ ih1 ih2 => exact ih1.trans ih2

theorem isMerged_ne_null (t : node_t) (h : isMerged t = true) : t ≠ .null := by
  intro e
  rw [e] at h
  cases h

theorem isMerged_node (left right : node_t) (hl : isMerged left = true)
    (hr : isMerged right = true) :
    isMerged (.node 0 (left.freq + right.freq) left right) = true := by
  cases left with
  | null => cases hl
  | node c f l r => simp [isMerged, hl, hr]

theorem leaves_node (letter : Byte) (f : Nat) (left right : node_t) (hl : left ≠ .null) :
    leaves (.node letter f left right) = leaves left ++ leaves right := by
  cases left with
  | null => exact absurd rfl hl
  | node c f l r => simp only [leaves]

/-- In a tree of the merge step the frequency of a node is the sum of the
frequencies of the leaves below it. -/
theorem freq_eq_sum_leaves (t : node_t) (h : isMerged t = true) :
    t.freq = ((leaves t).map Prod.snd).sum := by
  induction t with
  | null => cases h
  | node c f left right ihl ihr =>
    cases left with
    | null =>
      cases right with
      | null => simp [leaves, node_t.freq]
      | node c2 f2 l2 r2 => simp [isMerged] at h
    | node c1 f1 l1 r1 =>
      simp only [isMerged, Bool.and_eq_true, decide_eq_true_eq] at h
      obtain ⟨⟨⟨_, hf⟩, hml⟩, hmr⟩ := h
      rw [leaves_node _ _ _ _ (by simp), List.map_append, List.sum_append, ← ihl hml, ← ihr hmr]
      simpa [node_t.freq] using hf

theorem sort_ascending (L : StdImpl) (l : List THuffmanBTree) : IsAscending (L.sort l) := by
  refine List.Pairwise.imp ?_ (L.sort_sorted l)
  intro a b h
  simpa [__TreeFreqCmp] using h

theorem buildLoop_ascending (L : StdImpl) :
    ∀ (k : Nat) (forest : List THuffmanBTree), IsAscending forest →
      IsAscending (buildLoop L k forest) := by
  intro k
  induction k with
  | zero => intro forest h; exact h
  | succ k ih =>
    intro forest h
    unfold buildLoop
    split
    · exact ih _ (sort_ascending L _)
    · exact h

theorem buildLoop_length_exact (L : StdImpl) :
    ∀ (k : Nat) (forest : List THuffmanBTree), k + 1 ≤ forest.length →
      (buildLoop L k forest).length = forest.length - k := by
  intro k
  induction k with
  | zero => intro forest _; rfl
  | succ k ih =>
    intro forest h
    rcases forest with _ | ⟨a, _ | ⟨b, rest⟩⟩
    · simp at h
    · simp at h
    · simp only [buildLoop]
      rw [ih _ (by rw [sort_length]; simp only [List.length_cons] at h ⊢; omega), sort_length]
      simp only [List.length_cons]
      omega

/-- The merge loop keeps the leaves of the forest and keeps every tree a tree
of the merge step. -/
theorem buildLoop_invariant (L : StdImpl) :
    ∀ (k : Nat) (forest : List THuffmanBTree),
      (∀ t ∈ forest, isMerged t.root = true) →
      (∀ t ∈ buildLoop L k forest, isMerged t.root = true) ∧
        (forestLeaves (buildLoop L k forest)).Perm (forestLeaves forest) := by
  intro k
  induction k with
  | zero => intro forest h; exact ⟨h, List.Perm.refl _⟩
  | succ k ih =>
    intro forest h
    rcases forest with _ | ⟨a, _ | ⟨b, rest⟩⟩
    · exact ⟨h, List.Perm.refl _⟩
    · exact ⟨h, List.Perm.refl _⟩
    · simp only [buildLoop]
      have ha := h a (List.mem_cons_self _ _)
      have hb := h b (List.mem_cons_of_mem _ (List.mem_cons_self _ _))
      have hnew : ∀ t ∈ L.sort (THuffmanBTree.new.DefineRoot 0 a.GetRoot b.GetRoot :: rest),
          isMerged t.root = true := by
        intro t ht
        rcases List.mem_cons.1 ((L.sort_perm _).subset ht) with rfl | ht
        · exact isMerged_node _ _ ha hb
        · exact h t (List.mem_cons_of_mem _ (List.mem_cons_of_mem _ ht))
      obtain ⟨h1, h2⟩ := ih _ hnew
      refine ⟨h1, h2.trans ((forestLeaves_perm _ _ (L.sort_perm _)).trans ?_)⟩
      simp only [forestLeaves, THuffmanBTree.DefineRoot, THuffmanBTree.GetRoot]
      rw [leaves_node _ _ _ _ (isMerged_ne_null _ ha), List.append_assoc]

/-- What `_PopulateForest` leaves on a fresh instance. -/
theorem populated_eq (L : StdImpl) (input : List Byte) :
    populated L input =
      ⟨L.sort ((addFiller L (countLoop L input [])).map
          (fun e => (⟨.node e.1 e.2 .null .null⟩ : THuffmanBTree))), [],
        addFiller L (countLoop L input []), [], input, ⟨[], 0⟩⟩ := by
  simp only [populated, _PopulateForest, new, pushLeaves_eq, List.nil_append, TBitBuffer.Clear]

theorem populated_forest (L : StdImpl) (input : List Byte) :
    (∀ t ∈ (populated L input).forest, isMerged t.root = true) ∧
      (forestLeaves (populated L input).forest).Perm (populated L input).freqTable ∧
      (populated L input).forest.length = (populated L input).freqTable.length := by
  rw [populated_eq]
  refine ⟨?_, ?_, ?_⟩
  · intro t ht
    have := (L.sort_perm _).subset ht
    simp only [List.mem_map] at this
    obtain ⟨e, _, rfl⟩ := this
    rfl
  · refine (forestLeaves_perm _ _ (L.sort_perm _)).trans ?_
    rw [forestLeaves_leafTrees]
  · simp only [sort_length, List.length_map]

/-- The frequency table `_PopulateForest` builds on a fresh instance: distinct
keys; at least two of them when the input is not empty; every character of the
input with its number of occurrences; and nothing else but the filler, with
frequency 1. -/
theorem populated_freqTable (L : StdImpl) (input : List Byte) :
    ((populated L input).freqTable.map Prod.fst).Nodup ∧
      (input ≠ [] → 2 ≤ (populated L input).freqTable.length) ∧
      (∀ c ∈ input, mapFind c (populated L input).freqTable = some (input.count c)) ∧
      (∀ e ∈ (populated L input).freqTable,
        (e.1 ∈ input ∧ e.2 = input.count e.1) ∨ (e.1 ∉ input ∧ e.2 = 1)) := by
  rw [populated_eq]
  simp only
  obtain ⟨hn, hc⟩ := countLoop_counts L input [] (by simp)
  simp only [mapFind, Option.getD_none, Nat.add_zero] at hc
  have hmem : ∀ e ∈ countLoop L input [], e.1 ∈ input ∧ e.2 = input.count e.1 := by
    intro e he
    have h1 := mapFind_of_mem _ hn e.1 e.2 he
    rw [hc] at h1
    by_cases hm : e.1 ∈ input
    · simp only [hm, if_true, Option.some.injEq] at h1
      exact ⟨hm, h1.symm⟩
    · simp [hm] at h1
  have hlen : input ≠ [] → 1 ≤ (countLoop L input []).length := by
    intro hne
    obtain ⟨x, hx⟩ := List.exists_mem_of_ne_nil _ hne
    have h1 := hc x
    simp only [hx, if_true] at h1
    have h2 := mem_of_mapFind _ _ _ h1
    exact List.length_pos_of_mem h2
  by_cases h1 : (countLoop L input []).length = 1
  · obtain ⟨⟨c, m⟩, hft⟩ := List.length_eq_one.1 h1
    obtain ⟨hfc, hcase⟩ := addFiller_single L c m _ rfl
    have hcm := hmem (c, m) (by rw [hft]; exact List.mem_singleton_self _)
    simp only at hcm
    have hperm : (addFiller L (countLoop L input [])).Perm
        [(c, m), ((if c ≠ 97 then 97 else 98 : Byte), 1)] := by
      rw [hft]
      rcases hcase with ⟨_, h⟩ | ⟨_, h⟩
      · rw [h]
        exact List.Perm.swap _ _ _
      · rw [h]
    have hfin : (if c ≠ 97 then 97 else 98 : Byte) ∉ input := by
      intro hin
      have h2 := hc (if c ≠ 97 then 97 else 98 : Byte)
      simp only [hin, if_true] at h2
      have h3 := mem_of_mapFind _ _ _ h2
      rw [hft, List.mem_singleton] at h3
      exact hfc (congrArg Prod.fst h3)
    refine ⟨?_, ?_, ?_, ?_⟩
    · refine (List.Perm.nodup_iff (hperm.map Prod.fst)).2 ?_
      simp only [List.map_cons, List.map_nil, List.nodup_cons, List.mem_singleton,
        List.not_mem_nil, not_false_eq_true, List.nodup_nil, and_true]
      exact fun e => hfc e.symm
    · intro _
      rw [hperm.length_eq]
      rfl
    · intro x hx
      have h2 := hc x
      simp only [hx, if_true] at h2
      have h3 := mem_of_mapFind _ _ _ h2
      rw [hft, List.mem_singleton] at h3
      have hnd : ((addFiller L (countLoop L input [])).map Prod.fst).Nodup := by
        refine (List.Perm.nodup_iff (hperm.map Prod.fst)).2 ?_
        simp only [List.map_cons, List.map_nil, List.nodup_cons, List.mem_singleton,
          List.not_mem_nil, not_false_eq_true, List.nodup_nil, and_true]
        exact fun e => hfc e.symm
      apply mapFind_of_mem _ hnd
      rw [hperm.mem_iff, h3]
      exact List.mem_cons_self _ _
    · intro e he
      rw [hperm.mem_iff] at he
      rcases List.mem_cons.1 he with rfl | he
      · exact Or.inl hcm
      · rw [List.mem_singleton] at he
        subst he
        exact Or.inr ⟨hfin, rfl⟩
  · have hA : addFiller L (countLoop L input []) = countLoop L input [] := by
      simp [addFiller, h1]
    rw [hA]
    refine ⟨hn, ?_, ?_, ?_⟩
    · intro hne
      have := hlen hne
      omega
    · intro x hx
      have h2 := hc x
      simpa only [hx, if_true] using h2
    · intro e he
      exact Or.inl (hmem e he)

end THuffman

namespace THuffman

/-- One more unit of fuel is one more turn of the loop of `_BuildBitTree`
(which does nothing on a forest of at most one tree). -/
theorem buildLoop_succ (L : StdImpl) :
    ∀ (k : Nat) (forest : List THuffmanBTree),
      buildLoop L (k + 1) forest = buildLoop L 1 (buildLoop L k forest) := by
  intro k
  induction k with
  | zero => intro forest; rfl
  | succ k ih =>
    intro forest
    rcases forest with _ | ⟨a, _ | ⟨b, rest⟩⟩
    · rfl
    · rfl
    · show buildLoop L (k + 1) _ = buildLoop L 1 (buildLoop L k _)
      exact ih _

/-- On a non-empty forest of merged trees, `_BuildBitTree` leaves exactly one
tree, reached after `forest.size() - 1` turns of the loop. -/
theorem buildLoop_single (L : StdImpl) (forest : List THuffmanBTree) (hne : forest ≠ [])
    (hm : ∀ t ∈ forest, isMerged t.root = true) :
    ∃ tree : THuffmanBTree,
      buildLoop L forest.length forest = [tree] ∧
        buildLoop L (forest.length - 1) forest = [tree] ∧
        isMerged tree.root = true ∧ (leaves tree.root).Perm (forestLeaves forest) := by
  have hpos : 1 ≤ forest.length := by
    cases forest with
    | nil => exact absurd rfl hne
    | cons a r => simp
  have hlen := buildLoop_length_exact L (forest.length - 1) forest (by omega)
  have h1 : (buildLoop L (forest.length - 1) forest).length = 1 := by omega
  obtain ⟨tree, ht⟩ := List.length_eq_one.1 h1
  obtain ⟨hinv, hperm⟩ := buildLoop_invariant L (forest.length - 1) forest hm
  refine ⟨tree, ?_, ht, ?_, ?_⟩
  · have e := buildLoop_succ L (forest.length - 1) forest
    rw [Nat.sub_add_cancel hpos] at e
    rw [e, ht]
    rfl
  · exact hinv tree (by rw [ht]; exact List.mem_singleton_self _)
  · rw [ht] at hperm
    simpa [forestLeaves] using hperm

end THuffman

/-! ## The size of the output -/

namespace THuffman

theorem leaves_length_pos (t : node_t) (h : isMerged t = true) : 1 ≤ (leaves t).length := by
  induction t with
  | null => cases h
  | node c f left right ihl _ =>
    cases left with
    | null =>
      cases right with
      | null => simp [leaves]
      | node c2 f2 l2 r2 => simp [isMerged] at h
    | node c1 f1 l1 r1 =>
      simp only [isMerged, Bool.and_eq_true, decide_eq_true_eq] at h
      rw [leaves_node _ _ _ _ (by simp), List.length_append]
      have := ihl h.1.2
      omega

/-- On a tree of the merge step, `_BitCode` adds at most (number of leaves - 1)
bits to the path walked so far. -/
theorem _BitCode_length_le (needle : Byte) :
    ∀ (t : node_t) (bitCode : List Bool), isMerged t = true →
      (THuffmanBTree._BitCode needle t bitCode).length
        ≤ bitCode.length + ((leaves t).length - 1) := by
  intro t
  induction t with
  | null => intro bitCode h; cases h
  | node c f left right ihl ihr =>
    intro bitCode h
    rw [THuffmanBTree._BitCode_node]
    split
    · omega
    · cases left with
      | null =>
        cases right with
        | null => simp [THuffmanBTree._BitCode]
        | node c2 f2 l2 r2 => simp [isMerged] at h
      | node c1 f1 l1 r1 =>
        simp only [isMerged, Bool.and_eq_true, decide_eq_true_eq] at h
        obtain ⟨⟨_, hml⟩, hmr⟩ := h
        have h1 := ihl (bitCode ++ [false]) hml
        have h2 := ihr (bitCode ++ [true]) hmr
        have p1 := leaves_length_pos _ hml
        have p2 := leaves_length_pos _ hmr
        rw [leaves_node _ _ _ _ (by simp), List.length_append]
        simp only [List.length_append, List.length_cons, List.length_nil] at h1 h2
        split <;> omega

section MapSize

variable {K V : Type} [DecidableEq K]

theorem mapInsert_mem (lt : K → K → Bool) (k : K) (v : V) (m : List (K × V)) (e : K × V)
    (h : e ∈ mapInsert lt k v m) : e = (k, v) ∨ e ∈ m := by
  unfold mapInsert at h
  cases hk : mapFind k m with
  | some w =>
    rw [hk] at h
    exact Or.inr h
  | none =>
    rw [hk] at h
    exact List.mem_cons.1 ((mapPlace_perm lt k v m).subset h)

theorem mapInsert_length_le (lt : K → K → Bool) (k : K) (v : V) (m : List (K × V)) :
    (mapInsert lt k v m).length ≤ m.length + 1 := by
  unfold mapInsert
  cases mapFind k m with
  | some w => simp
  | none =>
    simp only
    rw [(mapPlace_perm lt k v m).length_eq]
    simp

theorem mapUpdate_length (k : K) (f : V → V) (m : List (K × V)) :
    (mapUpdate k f m).length = m.length := by
  have := congrArg List.length (mapUpdate_keys k f m)
  simpa using this

end MapSize

theorem countLoop_append (L : StdImpl) (l1 l2 : List Byte) :
    ∀ freqTable, countLoop L (l1 ++ l2) freqTable = countLoop L l2 (countLoop L l1 freqTable) := by
  induction l1 with
  | nil => intro freqTable; rfl
  | cons x l1 ih =>
    intro freqTable
    simp only [List.cons_append, countLoop]
    cases mapFind x freqTable with
    | none => exact ih _
    | some w => exact ih _

theorem countLoop_length_le (L : StdImpl) (text : List Byte) :
    ∀ freqTable, (countLoop L text freqTable).length ≤ freqTable.length + text.length := by
  induction text with
  | nil => intro freqTable; simp [countLoop]
  | cons x text ih =>
    intro freqTable
    simp only [countLoop]
    cases mapFind x freqTable with
    | none =>
      have h1 := ih (mapInsert (charLt L) x 1 freqTable)
      have h2 := mapInsert_length_le (charLt L) x 1 freqTable
      simp only [List.length_cons]
      omega
    | some w =>
      have h1 := ih (mapUpdate x (fun n => n + 1) freqTable)
      rw [mapUpdate_length] at h1
      simp only [List.length_cons]
      omega

theorem addFiller_length_le (L : StdImpl) (freqTable : List (Byte × Nat)) :
    (addFiller L freqTable).length ≤ max freqTable.length 2 := by
  by_cases h1 : freqTable.length = 1
  · obtain ⟨⟨c, m⟩, rfl⟩ := List.length_eq_one.1 h1
    obtain ⟨_, hcase⟩ := addFiller_single L c m _ rfl
    rcases hcase with ⟨_, h⟩ | ⟨_, h⟩ <;> rw [h] <;> simp
  · have hA : addFiller L freqTable = freqTable := by simp [addFiller, h1]
    rw [hA]
    exact Nat.le_max_left _ _

/-- Every entry of the `bitTable` that `_BuildBitTable` builds holds, unread,
the `BitCode` of its letter in the first tree of the forest, and there are no
more entries than in `freqTable`. -/
theorem bitTableLoop_entries (L : StdImpl) (tree : THuffmanBTree)
    (rest : List THuffmanBTree) :
    ∀ (freqTable : List (Byte × Nat)) (bt0 bt : List (Byte × TBitBuffer)),
      bitTableLoop L (tree :: rest) freqTable bt0 = some bt →
      (∀ e ∈ bt, e ∈ bt0 ∨ e.2 = ⟨tree.BitCode e.1, 0⟩) ∧
        bt.length ≤ bt0.length + freqTable.length := by
  intro freqTable
  induction freqTable with
  | nil =>
    intro bt0 bt h
    simp only [bitTableLoop, Option.some.injEq] at h
    subst h
    exact ⟨fun e he => Or.inl he, by simp⟩
  | cons x m ih =>
    intro bt0 bt h
    obtain ⟨k, n⟩ := x
    simp only [bitTableLoop, List.getElem?_cons_zero] at h
    obtain ⟨h1, h2⟩ := ih _ _ h
    have h3 := mapInsert_length_le (charLt L) k
      (TBitBuffer.new.AssignBits (tree.BitCode k)) bt0
    refine ⟨?_, by simp only [List.length_cons]; omega⟩
    intro e he
    rcases h1 e he with h4 | h4
    · rcases mapInsert_mem _ _ _ _ _ h4 with h5 | h5
      · right
        rw [h5]
        rfl
      · exact Or.inl h5
    · exact Or.inr h4

theorem lettersBits_length_le (B : Nat) (table : List (Byte × TBitBuffer))
    (h : ∀ e ∈ table, e.2.bitsBuffer.length ≤ B ∧ e.2.bufferPos = 0) :
    (lettersBits table).length ≤ table.length * (2 * B + 10) := by
  induction table with
  | nil => simp [lettersBits]
  | cons e table ih =>
    obtain ⟨c, bb⟩ := e
    have h1 := h (c, bb) (List.mem_cons_self _ _)
    have h2 := ih (fun e he => h e (List.mem_cons_of_mem _ he))
    simp only [lettersBits, List.length_append, TBitBuffer.byteBits_length,
      TBitBuffer.tallyBits_eq, List.length_replicate, List.length_cons, List.length_nil,
      TBitBuffer.ReadAllBits, TBitBuffer.Size, List.length_cons]
    simp only at h1
    rw [h1.2, if_pos (Nat.zero_le _), Nat.sub_zero, Nat.succ_mul]
    have := Nat.div_add_mod bb.bitsBuffer.length 5
    omega

theorem encodeLoop_length_le (B : Nat) (bitTable : List (Byte × TBitBuffer))
    (h : ∀ e ∈ bitTable, e.2.bitsBuffer.length ≤ B) (text : List Byte) :
    ∀ (r body : List Bool), encodeLoop bitTable text r = some body →
      body.length ≤ r.length + text.length * B := by
  induction text with
  | nil =>
    intro r body hb
    simp only [encodeLoop, Option.some.injEq] at hb
    subst hb
    simp
  | cons c text ih =>
    intro r body hb
    simp only [encodeLoop] at hb
    cases hc : mapFind c bitTable with
    | none => simp [hc] at hb
    | some bb =>
      simp only [hc] at hb
      have h1 := ih _ _ hb
      have h2 := h _ (mem_of_mapFind _ _ _ hc)
      simp only [List.length_append, TBitBuffer.ReadAllBits, List.length_cons,
        Nat.succ_mul] at h1 ⊢
      simp only at h2
      omega

/-- A bound on the size of the output of `Encode` on a non-empty input, `n`
being the number of entries of the frequency table: at most 16 bits of count
and padding, `2 * (n - 1) + 10` bits per header entry and `n - 1` bits per
input byte. -/
theorem Encode_size_le (L : StdImpl) (input : List Byte) (hne : input ≠ []) :
    ∃ (output : List Byte) (h7 : THuffman),
      Encode L new input = some (output, h7) ∧
      8 * output.length ≤
        16 + (populated L input).freqTable.length *
            (2 * ((populated L input).freqTable.length - 1) + 10) +
          input.length * ((populated L input).freqTable.length - 1) := by
  obtain ⟨hm, hperm, hlen⟩ := populated_forest L input
  obtain ⟨_, h2, _, _⟩ := populated_freqTable L input
  have hnil : (populated L input).forest ≠ [] := by
    intro e
    have := h2 hne
    rw [← hlen, e] at this
    simp at this
  obtain ⟨tree, ht1, _, htm, htl⟩ := buildLoop_single L _ hnil hm
  have hleaves : (leaves tree.root).length = (populated L input).freqTable.length :=
    (htl.trans hperm).length_eq
  obtain ⟨h4, ht4, hp, _, hfind⟩ := encodeTables_some L input
  obtain ⟨body, hb⟩ := encodeLoop_some h4.bitTable h4.plainText (by rw [hp]; exact hfind) []
  have hbt : bitTableLoop L [tree] (populated L input).freqTable [] = some h4.bitTable := by
    have e1 : encodeTables L input =
        _BuildBitTable L (_BuildBitTree L (populated L input)) := rfl
    rw [e1] at ht4
    simp only [_BuildBitTable] at ht4
    have e2 : (_BuildBitTree L (populated L input)).forest = [tree] := ht1
    have e3 : (_BuildBitTree L (populated L input)).freqTable
        = (populated L input).freqTable := rfl
    have e4 : (_BuildBitTree L (populated L input)).bitTable = [] := by
      rw [populated_eq]
      rfl
    rw [e2, e3, e4] at ht4
    cases hx : bitTableLoop L [tree] (populated L input).freqTable [] with
    | none => rw [hx] at ht4; cases ht4
    | some bt =>
      rw [hx] at ht4
      simp only [Option.some.injEq] at ht4
      rw [← ht4]
  obtain ⟨hent, hcnt⟩ := bitTableLoop_entries L tree [] _ _ _ hbt
  have hcode : ∀ e ∈ h4.bitTable,
      e.2.bitsBuffer.length ≤ (populated L input).freqTable.length - 1 ∧ e.2.bufferPos = 0 := by
    intro e he
    rcases hent e he with h | h
    · cases h
    · rw [h]
      refine ⟨?_, rfl⟩
      have := _BitCode_length_le e.1 tree.root [] htm
      rw [hleaves] at this
      simpa [THuffmanBTree.BitCode] using this
  have hL := lettersBits_length_le _ h4.bitTable hcode
  have hB := encodeLoop_length_le _ h4.bitTable (fun e he => (hcode e he).1) h4.plainText _ _ hb
  rw [hp] at hB
  have hstream : ((_WriteHeader h4 body.length).encodedText.bitsBuffer ++ body).length % 8 = 0 ∧
      ((_WriteHeader h4 body.length).encodedText.bitsBuffer ++ body).length
        ≤ 16 + (lettersBits h4.bitTable).length + body.length := by
    rw [_WriteHeader_encodedText]
    simp only [List.length_append, List.length_replicate, List.length_cons, List.length_nil,
      TBitBuffer.byteBits_length]
    constructor <;> omega
  have hx := TBitBuffer.ReadAllBytes_exact
    ⟨(_WriteHeader h4 body.length).encodedText.bitsBuffer ++ body, 0⟩ hstream.1
  refine ⟨_, _, Encode_new L input h4 body ht4 hb, ?_⟩
  have h8 : 8 * (TBitBuffer.ReadAllBytes
      ⟨(_WriteHeader h4 body.length).encodedText.bitsBuffer ++ body, 0⟩).length
      = ((_WriteHeader h4 body.length).encodedText.bitsBuffer ++ body).length := by
    rw [hx.1]
    have := hstream.1
    simp only at this ⊢
    omega
  rw [h8]
  simp only [List.length_nil, Nat.zero_add] at hcnt hB
  have hmul : (lettersBits h4.bitTable).length ≤
      (populated L input).freqTable.length *
        (2 * ((populated L input).freqTable.length - 1) + 10) :=
    hL.trans (Nat.mul_le_mul_right _ hcnt)
  omega

end THuffman

namespace THuffman

/-- An input of `n > 208` copies of one byte followed by at most seven other
bytes is encoded in fewer bytes than it has. -/
theorem Encode_skewed (L : StdImpl) (n : Nat) (hn : 208 < n) (a : Byte) (rare : List Byte)
    (hr : rare.length ≤ 7) :
    ∃ (output : List Byte) (h7 : THuffman),
      Encode L new (List.replicate n a ++ rare) = some (output, h7) ∧
      output.length < (List.replicate n a ++ rare).length := by
  have hlen : (List.replicate n a ++ rare).length = n + rare.length := by
    rw [List.length_append, List.length_replicate]
  have hne : List.replicate n a ++ rare ≠ [] := by
    intro e
    have := congrArg List.length e
    rw [hlen] at this
    simp only [List.length_nil] at this
    omega
  obtain ⟨output, h7, henc, hsize⟩ := Encode_size_le L _ hne
  refine ⟨output, h7, henc, ?_⟩
  have hft : (populated L (List.replicate n a ++ rare)).freqTable.length ≤ 8 := by
    rw [populated_eq]
    simp only
    have h1 := addFiller_length_le L (countLoop L (List.replicate n a ++ rare) [])
    rw [countLoop_append, countLoop_replicate L a n (by omega)] at h1 ⊢
    have h2 := countLoop_length_le L rare [(a, n)]
    simp only [List.length_cons, List.length_nil] at h2
    omega
  have hmul : (populated L (List.replicate n a ++ rare)).freqTable.length *
      (2 * ((populated L (List.replicate n a ++ rare)).freqTable.length - 1) + 10)
      ≤ 8 * 24 := Nat.mul_le_mul hft (by omega)
  have hmul2 : (List.replicate n a ++ rare).length *
      ((populated L (List.replicate n a ++ rare)).freqTable.length - 1)
      ≤ (List.replicate n a ++ rare).length * 7 := Nat.mul_le_mul_left _ (by omega)
  omega

end THuffman

/-! ## Reading the header -/

namespace TBitBuffer

theorem unread_advance (b : TBitBuffer) (n : Nat) :
    (⟨b.bitsBuffer, b.bufferPos + n⟩ : TBitBuffer).unread = b.unread.drop n := by
  simp only [unread, List.drop_drop]

theorem ReadBits_of_unread (b : TBitBuffer) (code r : List Bool) (h : b.unread = code ++ r) :
    b.ReadBits code.length = some (code, ⟨b.bitsBuffer, b.bufferPos + code.length⟩) ∧
      (⟨b.bitsBuffer, b.bufferPos + code.length⟩ : TBitBuffer).unread = r := by
  have hs : code.length ≤ b.unread.length := by
    rw [h, List.length_append]
    omega
  rw [ReadBits_eq, if_pos hs, unread_advance, h]
  simp

theorem readByteLoop_eq (n : Nat) :
    ∀ (b : TBitBuffer) (byte : Nat), n ≤ b.unread.length →
      readByteLoop n b byte =
        some (packByte b.unread n 0 byte, ⟨b.bitsBuffer, b.bufferPos + n⟩) := by
  induction n with
  | zero => intro b byte _; rfl
  | succ n ih =>
    intro b byte hn
    rw [readByteLoop, _ReadBit_eq]
    cases h : b.unread with
    | nil =>
      rw [h] at hn
      simp at hn
    | cons x rest =>
      have hs : n ≤ (⟨b.bitsBuffer, b.bufferPos + 1⟩ : TBitBuffer).unread.length := by
        rw [unread_step b x rest h]
        rw [h] at hn
        simpa using hn
      simp only
      rw [ih _ _ hs, unread_step b x rest h]
      have hp := packByte_drop (x :: rest) 1 n 0 (if x = true then byte + 2 ^ n else byte)
      simp only [List.drop_one, List.tail_cons, Nat.add_zero] at hp
      simp only [packByte, List.getElem?_cons_zero, Nat.zero_add, hp, Nat.add_assoc,
        Nat.add_comm 1 n]

theorem ReadByte_of_unread (b : TBitBuffer) (c : Byte) (r : List Bool)
    (h : b.unread = byteBits c ++ r) :
    b.ReadByte = some (c, ⟨b.bitsBuffer, b.bufferPos + 8⟩) ∧
      (⟨b.bitsBuffer, b.bufferPos + 8⟩ : TBitBuffer).unread = r := by
  have hs : 8 ≤ b.unread.length := by
    rw [h, List.length_append, byteBits_length]
    omega
  constructor
  · rw [ReadByte, readByteLoop_eq 8 b 0 hs, h,
      packByte_append _ _ 8 0 0 (by rw [byteBits_length])]
    simp only [packByte_byteBits]
  · rw [unread_advance, h, List.drop_append_of_le_length (by rw [byteBits_length]),
      List.drop_of_length_le (by rw [byteBits_length]), List.nil_append]

theorem readPaddingLoop_of_unread (k : Nat) (r : List Bool) :
    ∀ (n : Nat) (b : TBitBuffer), k < n →
      b.unread = List.replicate k false ++ true :: r →
      readPaddingLoop n b = some ⟨b.bitsBuffer, b.bufferPos + (k + 1)⟩ ∧
        (⟨b.bitsBuffer, b.bufferPos + (k + 1)⟩ : TBitBuffer).unread = r := by
  induction k with
  | zero =>
    intro n b hn hu
    obtain ⟨n, rfl⟩ : ∃ m, n = m + 1 := ⟨n - 1, by omega⟩
    have h := _ReadBit_of_unread b true r (by simpa using hu)
    simp only [readPaddingLoop, h.1]
    exact ⟨trivial, h.2⟩
  | succ k ih =>
    intro n b hn hu
    obtain ⟨n, rfl⟩ : ∃ m, n = m + 1 := ⟨n - 1, by omega⟩
    have h := _ReadBit_of_unread b false (List.replicate k false ++ true :: r)
      (by simpa [List.replicate_succ] using hu)
    have h2 := ih n ⟨b.bitsBuffer, b.bufferPos + 1⟩ (by omega) h.2
    simp only [readPaddingLoop, h.1]
    have e : b.bufferPos + 1 + (k + 1) = b.bufferPos + (k + 1 + 1) := by omega
    simpa only [e] using h2

theorem ReadPadding_of_unread (b : TBitBuffer) (k : Nat) (r : List Bool) (hk : k ≤ 7)
    (h : b.unread = List.replicate k false ++ true :: r) :
    b.ReadPadding = some ⟨b.bitsBuffer, b.bufferPos + (k + 1)⟩ ∧
      (⟨b.bitsBuffer, b.bufferPos + (k + 1)⟩ : TBitBuffer).unread = r :=
  readPaddingLoop_of_unread k r 8 b (by omega) h

end TBitBuffer

namespace THuffman

theorem lettersBits_tableOf_cons (c : Byte) (code : List Bool)
    (codes : List (Byte × List Bool)) :
    lettersBits (tableOf ((c, code) :: codes)) =
      byteBits c ++ (tallyBits code.length ++ (code ++ lettersBits (tableOf codes))) := by
  simp only [tableOf, List.map_cons, lettersBits, TBitBuffer.AssignBits, TBitBuffer.Size,
    TBitBuffer.ReadAllBits, Nat.sub_zero, List.append_assoc, Nat.zero_le, if_true]

/-- The table the loop of `_ReadHeader` builds from the entries of `codes`. -/
theorem readLetters_tableOf (codes : List (Byte × List Bool)) :
    ∀ (enc : TBitBuffer) (codeTable : List (List Bool × Byte)) (r : List Bool),
      enc.unread = lettersBits (tableOf codes) ++ r →
      readLetters codes.length enc codeTable =
          some (⟨enc.bitsBuffer, enc.bufferPos + (lettersBits (tableOf codes)).length⟩,
            codes.foldl (fun acc e => mapInsert strLt e.2 e.1 acc) codeTable) ∧
        (⟨enc.bitsBuffer, enc.bufferPos + (lettersBits (tableOf codes)).length⟩ :
          TBitBuffer).unread = r := by
  induction codes with
  | nil =>
    intro enc codeTable r h
    simp only [tableOf, List.map_nil, lettersBits, List.nil_append] at h
    exact ⟨rfl, h⟩
  | cons e codes ih =>
    intro enc codeTable r h
    obtain ⟨c, code⟩ := e
    rw [lettersBits_tableOf_cons] at h ⊢
    simp only [List.append_assoc] at h
    obtain ⟨h1, u1⟩ := TBitBuffer.ReadByte_of_unread enc c _ h
    rw [TBitBuffer.tallyBits_eq] at u1
    simp only [List.append_assoc, List.cons_append, List.nil_append] at u1
    obtain ⟨h2, u2⟩ := TBitBuffer.ReadNumber_of_unread _ code.length _ u1
    obtain ⟨h3, u3⟩ := TBitBuffer.ReadBits_of_unread _ code _ u2
    obtain ⟨h4, u4⟩ := ih _ (mapInsert strLt code c codeTable) r u3
    have e : enc.bufferPos + 8 + (code.length / 5 + code.length % 5 + 2) + code.length +
        (lettersBits (tableOf codes)).length =
        enc.bufferPos + (byteBits c ++ (tallyBits code.length ++
          (code ++ lettersBits (tableOf codes)))).length := by
      simp only [List.length_append, TBitBuffer.byteBits_length, TBitBuffer.tallyBits_eq,
        List.length_replicate, List.length_cons, List.length_nil]
      omega
    simp only [e] at h4 u4
    refine ⟨?_, u4⟩
    simp only [List.length_cons, readLetters, h1, h2, h3, List.foldl_cons]
    exact h4

theorem insertCodes_perm (codes : List (Byte × List Bool)) :
    ∀ codeTable : List (List Bool × Byte),
      (codes.map Prod.snd).Nodup →
      (∀ e ∈ codes, mapFind e.2 codeTable = none) →
      (codes.foldl (fun acc e => mapInsert strLt e.2 e.1 acc) codeTable).Perm
        (codeTable ++ inverseOf codes) := by
  induction codes with
  | nil => intro codeTable _ _; simp [inverseOf]
  | cons e codes ih =>
    intro codeTable hn habs
    obtain ⟨c, code⟩ := e
    simp only [List.map_cons, List.nodup_cons] at hn
    have h0 : mapFind code codeTable = none := habs (c, code) (List.mem_cons_self _ _)
    have hperm : (mapInsert strLt code c codeTable).Perm ((code, c) :: codeTable) := by
      simp only [mapInsert, h0]
      exact mapPlace_perm _ _ _ _
    have habs2 : ∀ e ∈ codes, mapFind e.2 (mapInsert strLt code c codeTable) = none := by
      intro e he
      rw [mapFind_eq_none, (hperm.map Prod.fst).mem_iff]
      simp only [List.map_cons, List.mem_cons, not_or]
      refine ⟨?_, (mapFind_eq_none _ _).1 (habs e (List.mem_cons_of_mem _ he))⟩
      intro heq
      apply hn.1
      rw [← heq]
      exact List.mem_map_of_mem Prod.snd he
    refine (ih _ hn.2 habs2).trans ?_
    simp only [inverseOf, List.map_cons]
    refine (List.Perm.append_right _ hperm).trans ?_
    simp only [List.cons_append]
    exact List.perm_middle.symm

/-- The function `_ReadHeader` on a count byte, the entries of `codes`, a
padding of `z` zeros and a one, and a body. -/
theorem _ReadHeader_of_stream (hR : THuffman) (codes : List (Byte × List Bool)) (z : Nat)
    (body : List Bool) (hz : z ≤ 7) (hlen : codes.length ≤ 255) :
    _ReadHeader
        { hR with
          encodedText := ⟨byteBits (Fin.ofNat codes.length) ++ (lettersBits (tableOf codes) ++
            (List.replicate z false ++ true :: body)), 0⟩,
          codeTable := [] } =
      some { hR with
        encodedText := ⟨byteBits (Fin.ofNat codes.length) ++ (lettersBits (tableOf codes) ++
            (List.replicate z false ++ true :: body)),
          0 + 8 + (lettersBits (tableOf codes)).length + (z + 1)⟩,
        codeTable := codes.foldl (fun acc e => mapInsert strLt e.2 e.1 acc) [] } ∧
      (⟨byteBits (Fin.ofNat codes.length) ++ (lettersBits (tableOf codes) ++
            (List.replicate z false ++ true :: body)),
          0 + 8 + (lettersBits (tableOf codes)).length + (z + 1)⟩ : TBitBuffer).unread
        = body := by
  have hu0 : (⟨byteBits (Fin.ofNat codes.length) ++ (lettersBits (tableOf codes) ++
      (List.replicate z false ++ true :: body)), 0⟩ : TBitBuffer).unread =
      byteBits (Fin.ofNat codes.length) ++ (lettersBits (tableOf codes) ++
      (List.replicate z false ++ true :: body)) := rfl
  obtain ⟨r1, u1⟩ := TBitBuffer.ReadByte_of_unread _ _ _ hu0
  obtain ⟨r2, u2⟩ := readLetters_tableOf codes _ [] _ u1
  obtain ⟨r3, u3⟩ := TBitBuffer.ReadPadding_of_unread _ _ _ hz u2
  have hval : (Fin.ofNat codes.length : Byte).val = codes.length :=
    Nat.mod_eq_of_lt (by omega)
  refine ⟨?_, u3⟩
  simp only [_ReadHeader, r1, hval, r2, r3]

end THuffman

/-! ## Decoding the body -/

namespace THuffman

theorem ReadBit_eq (b : TBitBuffer) : b.ReadBit = b._ReadBit := by
  unfold TBitBuffer.ReadBit
  cases b._ReadBit with
  | none => rfl
  | some p =>
    obtain ⟨bit, b1⟩ := p
    cases bit <;> rfl

/-- The loop of `_DecodeText` while it reads the rest `todo` of one code: no
candidate matches before the last bit, and the last bit emits the symbol. -/
theorem decodeLoop_code (codeTable : List (List Bool × Byte))
    (hpf : ∀ e1 ∈ codeTable, ∀ e2 ∈ codeTable, e1.1 <+: e2.1 → e1 = e2)
    (code : List Bool) (c : Byte) (hmem : (code, c) ∈ codeTable) :
    ∀ (todo buf : List Bool), buf ++ todo = code → todo ≠ [] →
      ∀ (enc : TBitBuffer) (rest : List Bool) (m : Nat) (plainText : List Byte),
        enc.unread = todo ++ rest →
        decodeLoop codeTable (todo.length + m) enc buf plainText =
            decodeLoop codeTable m ⟨enc.bitsBuffer, enc.bufferPos + todo.length⟩ []
              (plainText ++ [c]) ∧
          (⟨enc.bitsBuffer, enc.bufferPos + todo.length⟩ : TBitBuffer).unread = rest := by
  intro todo
  induction todo with
  | nil => intro buf _ h; exact absurd rfl h
  | cons x t ih =>
    intro buf hcode _ enc rest m plainText hu
    obtain ⟨hr, hu1⟩ := TBitBuffer._ReadBit_of_unread enc x (t ++ rest) hu
    have hstep : decodeLoop codeTable ((x :: t).length + m) enc buf plainText =
        match mapFind (buf ++ [x]) codeTable with
        | some c1 => decodeLoop codeTable (t.length + m) ⟨enc.bitsBuffer, enc.bufferPos + 1⟩ []
            (plainText ++ [c1])
        | none => decodeLoop codeTable (t.length + m) ⟨enc.bitsBuffer, enc.bufferPos + 1⟩
            (buf ++ [x]) plainText := by
      have e : (x :: t).length + m = (t.length + m) + 1 := by
        simp only [List.length_cons]
        omega
      rw [e, decodeLoop, ReadBit_eq, hr]
    rw [hstep]
    by_cases ht : t = []
    · subst ht
      have hfind : mapFind (buf ++ [x]) codeTable = some c := by
        rw [hcode]
        cases hf : mapFind code codeTable with
        | none =>
          have := (mapFind_eq_none code codeTable).1 hf
          exact absurd (List.mem_map_of_mem Prod.fst hmem) this
        | some c1 =>
          have h1 := mem_of_mapFind _ _ _ hf
          have h2 := hpf _ h1 _ hmem (List.prefix_refl _)
          rw [(Prod.mk.inj h2).2]
      rw [hfind]
      simp only [List.length_nil, Nat.zero_add, List.length_cons]
      exact ⟨trivial, by simpa using hu1⟩
    · have hfind : mapFind (buf ++ [x]) codeTable = none := by
        cases hf : mapFind (buf ++ [x]) codeTable with
        | none => rfl
        | some c1 =>
          exfalso
          have h1 := mem_of_mapFind _ _ _ hf
          have hp : (buf ++ [x]) <+: code := by
            refine ⟨t, ?_⟩
            rw [← hcode]
            simp
          have h2 := hpf _ h1 _ hmem hp
          have h3 := congrArg List.length (Prod.mk.inj h2).1
          rw [← hcode] at h3
          simp only [List.length_append, List.length_cons, List.length_nil] at h3
          have : t.length ≠ 0 := fun e => ht (List.length_eq_zero.1 e)
          omega
      rw [hfind]
      obtain ⟨h4, u4⟩ := ih (buf ++ [x]) (by rw [← hcode]; simp) ht
        ⟨enc.bitsBuffer, enc.bufferPos + 1⟩ rest m plainText hu1
      have e : enc.bufferPos + 1 + t.length = enc.bufferPos + (x :: t).length := by
        simp only [List.length_cons]
        omega
      simp only [e] at h4 u4
      exact ⟨h4, u4⟩

/-- The loop of `_DecodeText` over the codes of a sequence of entries. -/
theorem decodeLoop_syms (codeTable : List (List Bool × Byte))
    (hne : ∀ e ∈ codeTable, e.1 ≠ [])
    (hpf : ∀ e1 ∈ codeTable, ∀ e2 ∈ codeTable, e1.1 <+: e2.1 → e1 = e2) :
    ∀ (syms : List (List Bool × Byte)), (∀ e ∈ syms, e ∈ codeTable) →
      ∀ (enc : TBitBuffer) (rest : List Bool) (m : Nat) (plainText : List Byte),
        enc.unread = concatCodes syms ++ rest →
        decodeLoop codeTable ((concatCodes syms).length + m) enc [] plainText =
            decodeLoop codeTable m
              ⟨enc.bitsBuffer, enc.bufferPos + (concatCodes syms).length⟩ []
              (plainText ++ syms.map Prod.snd) ∧
          (⟨enc.bitsBuffer, enc.bufferPos + (concatCodes syms).length⟩ : TBitBuffer).unread
            = rest := by
  intro syms
  induction syms with
  | nil =>
    intro _ enc rest m plainText hu
    simp only [concatCodes, List.length_nil, Nat.zero_add, Nat.add_zero, List.map_nil,
      List.append_nil, List.nil_append] at hu ⊢
    exact ⟨trivial, hu⟩
  | cons e syms ih =>
    intro hs enc rest m plainText hu
    obtain ⟨code, c⟩ := e
    have hmem := hs (code, c) (List.mem_cons_self _ _)
    simp only [concatCodes, List.append_assoc] at hu
    obtain ⟨h1, u1⟩ := decodeLoop_code codeTable hpf code c hmem code [] rfl
      (hne _ hmem) enc _ ((concatCodes syms).length + m) plainText hu
    obtain ⟨h2, u2⟩ := ih (fun e he => hs e (List.mem_cons_of_mem _ he)) _ rest m
      (plainText ++ [c]) u1
    have e1 : (concatCodes ((code, c) :: syms)).length + m
        = code.length + ((concatCodes syms).length + m) := by
      simp only [concatCodes, List.length_append]
      omega
    have e2 : enc.bufferPos + code.length + (concatCodes syms).length
        = enc.bufferPos + (concatCodes ((code, c) :: syms)).length := by
      simp only [concatCodes, List.length_append]
      omega
    simp only [e2] at h2 u2
    rw [e1, h1, h2]
    simp only [List.map_cons, List.append_assoc, List.singleton_append]
    exact ⟨trivial, u2⟩

end THuffman

/-! ## The cost of the merge loop on weights -/

theorem huffCost_perm (l1 l2 : List Nat) (h : l1.Perm l2) : huffCost l1 = huffCost l2 := by
  unfold huffCost
  have hs : l1.insertionSort (fun x y => x ≤ y) = l2.insertionSort (fun x y => x ≤ y) := by
    apply List.eq_of_perm_of_sorted (r := fun x y : Nat => x ≤ y)
    · exact (List.perm_insertionSort _ l1).trans (h.trans (List.perm_insertionSort _ l2).symm)
    · exact List.sorted_insertionSort _ l1
    · exact List.sorted_insertionSort _ l2
  rw [hs, h.length_eq]

theorem huffCost_single (w : Nat) : huffCost [w] = 0 := rfl

/-- One merge on the weights: the two smallest are paid and replaced by their
sum. -/
theorem huffCost_step (x y : Nat) (rest : List Nat) (hxy : x ≤ y)
    (hy : ∀ z ∈ rest, y ≤ z) :
    huffCost (x :: y :: rest) = x + y + huffCost ((x + y) :: rest) := by
  unfold huffCost
  have h1 : (x :: y :: rest).insertionSort (fun x y => x ≤ y)
      = x :: y :: rest.insertionSort (fun x y => x ≤ y) := by
    rw [List.insertionSort_cons, List.insertionSort_cons]
    · exact hy
    · intro b hb
      rcases List.mem_cons.1 hb with rfl | hb
      · exact hxy
      · exact Nat.le_trans hxy (hy b hb)
  rw [h1]
  simp only [List.length_cons, mergeCost, List.insertionSort]

/-! ## Lists of leaf depths -/

theorem FullDepths.ne_nil {l : List Nat} (h : FullDepths l) : l ≠ [] := by
  induction h with
  | leaf => simp
  | split d rest _ _ => simp
  | perm l1 l2 hp _ ih =>
    intro e
    subst e
    exact ih hp.eq_nil

/-- Two full trees side by side under a new root. -/
theorem FullDepths.join_leaf {l : List Nat} (h : FullDepths l) :
    FullDepths (1 :: l.map (fun d => d + 1)) := by
  induction h with
  | leaf => exact FullDepths.split 0 [] FullDepths.leaf
  | split d rest _ ih =>
    simp only [List.map_cons] at ih ⊢
    refine FullDepths.perm ((d + 1 + 1) :: (d + 1 + 1) :: 1 :: rest.map (fun d => d + 1)) _ ?_ ?_
    · exact ((List.Perm.swap _ _ _).cons _).trans (List.Perm.swap _ _ _)
    · exact FullDepths.split (d + 1) _ (FullDepths.perm _ _ (List.Perm.swap _ _ _) ih)
  | perm l1 l2 hp _ ih =>
    exact FullDepths.perm _ _ ((hp.map _).cons _) ih

theorem FullDepths.join {l1 l2 : List Nat} (h1 : FullDepths l1) (h2 : FullDepths l2) :
    FullDepths (l1.map (fun d => d + 1) ++ l2.map (fun d => d + 1)) := by
  induction h1 with
  | leaf => exact h2.join_leaf
  | split d rest _ ih =>
    simp only [List.map_cons, List.cons_append] at ih ⊢
    exact FullDepths.split (d + 1) _ ih
  | perm l1 l3 hp _ ih =>
    exact FullDepths.perm _ _ ((hp.map _).append_right _) ih

/-- In a full tree of at least two leaves, two leaves of the greatest depth
can be taken that are siblings: removing them leaves a full tree. -/
theorem FullDepths.deepest {l : List Nat} (h : FullDepths l) :
    2 ≤ l.length →
    ∃ (m : Nat) (rest : List Nat), l.Perm ((m + 1) :: (m + 1) :: rest) ∧
      (∀ d ∈ rest, d ≤ m + 1) ∧ FullDepths (m :: rest) := by
  induction h with
  | leaf => intro h2; simp at h2
  | split d rest h ih =>
    intro _
    by_cases hall : ∀ e ∈ rest, e ≤ d + 1
    · exact ⟨d, rest, List.Perm.refl _, hall, h⟩
    · simp only [not_forall] at hall
      obtain ⟨e, he, hlt⟩ := hall
      have hlen : 2 ≤ (d :: rest).length := by
        cases rest with
        | nil => cases he
        | cons a r => simp
      obtain ⟨m, rest2, hp, hb, hf⟩ := ih hlen
      have hem : e ≤ m + 1 := by
        have : e ∈ (m + 1) :: (m + 1) :: rest2 := hp.subset (List.mem_cons_of_mem _ he)
        rcases List.mem_cons.1 this with rfl | this
        · exact Nat.le_refl _
        · rcases List.mem_cons.1 this with rfl | this
          · exact Nat.le_refl _
          · exact hb e this
      have hd : d ∈ rest2 := by
        have : d ∈ (m + 1) :: (m + 1) :: rest2 := hp.subset (List.mem_cons_self _ _)
        rcases List.mem_cons.1 this with h1 | this
        · omega
        · rcases List.mem_cons.1 this with h1 | this
          · omega
          · exact this
      have hr2 : rest2.Perm (d :: rest2.erase d) := List.perm_cons_erase hd
      have hrest : rest.Perm ((m + 1) :: (m + 1) :: rest2.erase d) := by
        have h1 : (d :: rest).Perm (d :: (m + 1) :: (m + 1) :: rest2.erase d) := by
          refine hp.trans (((hr2.cons _).cons _).trans ?_)
          exact ((List.Perm.swap _ _ _).cons _).trans (List.Perm.swap _ _ _)
        exact h1.cons_inv
      refine ⟨m, (d + 1) :: (d + 1) :: rest2.erase d, ?_, ?_, ?_⟩
      · refine ((hrest.cons _).cons _).trans ?_
        refine (((List.Perm.swap _ _ _).cons _).trans ?_)
        refine (List.Perm.swap _ _ _).trans ?_
        refine List.Perm.cons _ ?_
        refine (((List.Perm.swap _ _ _).cons _).trans ?_)
        exact (List.Perm.swap _ _ _)
      · intro x hx
        rcases List.mem_cons.1 hx with rfl | hx
        · omega
        · rcases List.mem_cons.1 hx with rfl | hx
          · omega
          · exact hb x (List.mem_of_mem_erase hx)
      · have h1 : FullDepths (d :: m :: rest2.erase d) :=
          FullDepths.perm _ _ ((hr2.cons _).trans (List.Perm.swap _ _ _)) hf
        refine FullDepths.perm _ _ ?_ (FullDepths.split d _ h1)
        exact ((List.Perm.swap _ _ _).cons _).trans (List.Perm.swap _ _ _)
  | perm l1 l2 hp _ ih =>
    intro h2
    obtain ⟨m, rest, hp2, hb, hf⟩ := ih (by rw [hp.length_eq]; exact h2)
    exact ⟨m, rest, hp.symm.trans hp2, hb, hf⟩

/-! ## The merge loop on weights is no dearer than any full tree -/

theorem pairCost_perm {P Q : List (Nat × Nat)} (h : P.Perm Q) : pairCost P = pairCost Q :=
  (h.map _).sum_eq

theorem pairCost_cons (p : Nat × Nat) (Q : List (Nat × Nat)) :
    pairCost (p :: Q) = p.1 * p.2 + pairCost Q := by
  simp [pairCost]

theorem pairCost_append (P Q : List (Nat × Nat)) :
    pairCost (P ++ Q) = pairCost P + pairCost Q := by
  simp [pairCost]

theorem pairCost_deeper (P : List (Nat × Nat)) :
    pairCost (P.map (fun p => (p.1, p.2 + 1))) = pairCost P + (P.map Prod.fst).sum := by
  induction P with
  | nil => rfl
  | cons p Q ih =>
    rw [List.map_cons, pairCost_cons, pairCost_cons, ih, List.map_cons, List.sum_cons]
    simp only [Nat.mul_add, Nat.mul_one]
    omega

theorem perm_cons_of_mem {α : Type} {a : α} {l : List α} (h : a ∈ l) :
    ∃ l2 : List α, l.Perm (a :: l2) := by
  obtain ⟨s, t, rfl⟩ := List.append_of_mem h
  exact ⟨s ++ t, List.perm_middle⟩

theorem exists_lightest :
    ∀ (P : List (Nat × Nat)), P ≠ [] →
      ∃ (p : Nat × Nat) (Q : List (Nat × Nat)), P.Perm (p :: Q) ∧ ∀ q ∈ Q, p.1 ≤ q.1 := by
  intro P
  induction P with
  | nil => intro h; exact absurd rfl h
  | cons a P ih =>
    intro _
    by_cases hP : P = []
    · subst hP
      exact ⟨a, [], List.Perm.refl _, by simp⟩
    · obtain ⟨p, Q, hp, hmin⟩ := ih hP
      by_cases hle : a.1 ≤ p.1
      · refine ⟨a, p :: Q, hp.cons _, ?_⟩
        intro q hq
        rcases List.mem_cons.1 hq with rfl | hq
        · exact hle
        · exact Nat.le_trans hle (hmin q hq)
      · refine ⟨p, a :: Q, (hp.cons _).trans (List.Perm.swap _ _ _), ?_⟩
        intro q hq
        rcases List.mem_cons.1 hq with rfl | hq
        · omega
        · exact hmin q hq

theorem exists_two_lightest (P : List (Nat × Nat)) (h : 2 ≤ P.length) :
    ∃ (p q : Nat × Nat) (Q : List (Nat × Nat)), P.Perm (p :: q :: Q) ∧ p.1 ≤ q.1 ∧
      ∀ r ∈ Q, q.1 ≤ r.1 := by
  have hne : P ≠ [] := by
    intro e
    subst e
    simp at h
  obtain ⟨p, Q1, hp, hmin⟩ := exists_lightest P hne
  have hne1 : Q1 ≠ [] := by
    intro e
    subst e
    have := hp.length_eq
    simp at this
    omega
  obtain ⟨q, Q, hq, hmin2⟩ := exists_lightest Q1 hne1
  exact ⟨p, q, Q, hp.trans (hq.cons _), hmin q (hq.symm.subset (List.mem_cons_self _ _)),
    hmin2⟩

/-- The lightest leaf can be moved to the greatest depth without raising the
cost: it changes places with a leaf that is there. -/
theorem swapDeep (w d m : Nat) (Q : List (Nat × Nat)) (rest : List Nat)
    (hp : (d :: Q.map Prod.snd).Perm ((m + 1) :: rest))
    (hr : ∀ e ∈ rest, e ≤ m + 1) (hw : ∀ q ∈ Q, w ≤ q.1) :
    ∃ Q2 : List (Nat × Nat), (Q2.map Prod.fst).Perm (Q.map Prod.fst) ∧
      (Q2.map Prod.snd).Perm rest ∧ w * (m + 1) + pairCost Q2 ≤ w * d + pairCost Q := by
  by_cases hd : d = m + 1
  · subst hd
    exact ⟨Q, List.Perm.refl _, hp.cons_inv, Nat.le_refl _⟩
  · have hdle : d ≤ m + 1 := by
      rcases List.mem_cons.1 (hp.subset (List.mem_cons_self _ _)) with h1 | h1
      · omega
      · exact hr d h1
    have hmem : m + 1 ∈ Q.map Prod.snd := by
      rcases List.mem_cons.1 (hp.symm.subset (List.mem_cons_self _ _)) with h1 | h1
      · omega
      · exact h1
    obtain ⟨⟨a, e⟩, haQ, he⟩ := List.mem_map.1 hmem
    simp only at he
    subst he
    obtain ⟨E, hQ⟩ := perm_cons_of_mem haQ
    refine ⟨(a, d) :: E, (hQ.map Prod.fst).symm, ?_, ?_⟩
    · have h1 : ((m + 1) :: d :: E.map Prod.snd).Perm ((m + 1) :: rest) :=
        (List.Perm.swap _ _ _).trans ((((hQ.map Prod.snd).cons d).symm).trans hp)
      exact h1.cons_inv
    · rw [pairCost_perm hQ, pairCost_cons, pairCost_cons]
      have hwa : w ≤ a := hw _ haQ
      obtain ⟨s, rfl⟩ := Nat.exists_eq_add_of_le hwa
      obtain ⟨u, hu⟩ := Nat.exists_eq_add_of_le hdle
      rw [hu]
      simp only
      nlinarith [Nat.zero_le (s * u)]

/-- The total paid by the merge loop on the weights is at most the cost of any
assignment of the depths of a full tree to these weights. -/
theorem huffCost_le_pairCost :
    ∀ (n : Nat) (P : List (Nat × Nat)), P.length = n + 1 →
      FullDepths (P.map Prod.snd) → huffCost (P.map Prod.fst) ≤ pairCost P := by
  intro n
  induction n with
  | zero =>
    intro P hlen _
    obtain ⟨p, rfl⟩ := List.length_eq_one.1 hlen
    simp [huffCost_single]
  | succ n ih =>
    intro P hlen hfull
    obtain ⟨p, q, Q, hP, hpq, hmin⟩ := exists_two_lightest P (by omega)
    have hfull2 : FullDepths (p.2 :: q.2 :: Q.map Prod.snd) :=
      FullDepths.perm _ _ (hP.map Prod.snd) hfull
    obtain ⟨m, rest, hdp, hb, hf⟩ := hfull2.deepest (by simp)
    -- the lightest leaf goes to the greatest depth
    obtain ⟨Q1, hQ1w, hQ1d, hQ1c⟩ := swapDeep p.1 p.2 m (q :: Q) ((m + 1) :: rest) hdp
      (by
        intro e he
        rcases List.mem_cons.1 he with rfl | he
        · exact Nat.le_refl _
        · exact hb e he)
      (by
        intro r hr
        rcases List.mem_cons.1 hr with rfl | hr
        · exact hpq
        · exact Nat.le_trans hpq (hmin r hr))
    -- the second lightest is still there
    have hq1 : q.1 ∈ Q1.map Prod.fst := hQ1w.symm.subset (by simp)
    obtain ⟨⟨qw, e⟩, hqQ1, hqe⟩ := List.mem_map.1 hq1
    simp only at hqe
    subst hqe
    obtain ⟨Q2, hQ1⟩ := perm_cons_of_mem hqQ1
    have hQ2w : (Q2.map Prod.fst).Perm (Q.map Prod.fst) := by
      have h1 : (q.1 :: Q2.map Prod.fst).Perm (q.1 :: Q.map Prod.fst) :=
        (hQ1.map Prod.fst).symm.trans hQ1w
      exact h1.cons_inv
    obtain ⟨Q3, hQ3w, hQ3d, hQ3c⟩ := swapDeep q.1 e m Q2 rest
      ((hQ1.map Prod.snd).symm.trans hQ1d) hb
      (by
        intro r hr
        have h1 : r.1 ∈ Q.map Prod.fst := hQ2w.subset (List.mem_map_of_mem _ hr)
        obtain ⟨r2, hr2, hr2e⟩ := List.mem_map.1 h1
        rw [← hr2e]
        exact hmin r2 hr2)
    -- the two siblings become one leaf of the smaller tree
    have hlenQ : Q.length = n := by
      have := hP.length_eq
      simp at this
      omega
    have hlen3 : ((p.1 + q.1, m) :: Q3).length = n + 1 := by
      have h1 := (hQ3w.trans hQ2w).length_eq
      simp only [List.length_map] at h1
      simp [h1, hlenQ]
    have hih := ih ((p.1 + q.1, m) :: Q3) hlen3
      (FullDepths.perm _ _ (hQ3d.symm.cons _) hf)
    rw [pairCost_cons] at hih
    simp only [List.map_cons] at hih
    rw [huffCost_perm _ _ ((hQ3w.trans hQ2w).cons _)] at hih
    rw [huffCost_perm _ _ (hP.map Prod.fst), pairCost_perm hP]
    simp only [List.map_cons]
    rw [huffCost_step _ _ _ hpq (by
      intro z hz
      obtain ⟨r, hr, hre⟩ := List.mem_map.1 hz
      rw [← hre]
      exact hmin r hr)]
    rw [pairCost_cons]
    rw [pairCost_perm hQ1, pairCost_cons] at hQ1c
    simp only at hQ1c hQ3c
    simp only [Nat.mul_add, Nat.add_mul, Nat.mul_one] at hih hQ1c hQ3c ⊢
    omega

/-! ## Any tree is at least as dear as a full tree over its leaves -/

theorem leaves_node_of_child (letter : Byte) (f : Nat) (left right : node_t)
    (h : ¬(left = .null ∧ right = .null)) :
    leaves (.node letter f left right) = leaves left ++ leaves right := by
  cases left with
  | null =>
    cases right with
    | null => exact absurd ⟨rfl, rfl⟩ h
    | node c2 f2 l2 r2 => simp only [leaves]
  | node c1 f1 l1 r1 => simp only [leaves]

theorem costAt_node_of_child (d : Nat) (letter : Byte) (f : Nat) (left right : node_t)
    (h : ¬(left = .null ∧ right = .null)) :
    costAt d (.node letter f left right) = costAt (d + 1) left + costAt (d + 1) right := by
  cases left with
  | null =>
    cases right with
    | null => exact absurd ⟨rfl, rfl⟩ h
    | node c2 f2 l2 r2 => simp only [costAt]
  | node c1 f1 l1 r1 => simp only [costAt]

/-- One level deeper, every leaf costs its frequency more. -/
theorem costAt_succ (t : node_t) :
    ∀ d : Nat, costAt (d + 1) t = costAt d t + ((leaves t).map Prod.snd).sum := by
  induction t with
  | null => intro d; rfl
  | node c f left right ihl ihr =>
    intro d
    by_cases h : left = .null ∧ right = .null
    · obtain ⟨rfl, rfl⟩ := h
      simp [costAt, leaves, Nat.mul_add]
    · rw [costAt_node_of_child _ _ _ _ _ h, costAt_node_of_child _ _ _ _ _ h,
        leaves_node_of_child _ _ _ _ h, ihl (d + 1), ihr (d + 1), List.map_append,
        List.sum_append]
      omega

/-- Every tree that is not NULL is at least as dear as some full tree over the
same leaf frequencies: a node with one child only can be left out. -/
theorem exists_fullDepths (t : node_t) :
    t ≠ .null →
    ∃ P : List (Nat × Nat), (P.map Prod.fst).Perm ((leaves t).map Prod.snd) ∧
      FullDepths (P.map Prod.snd) ∧ pairCost P ≤ cost t := by
  induction t with
  | null => intro h; exact absurd rfl h
  | node c f left right ihl ihr =>
    intro _
    by_cases hl : left = .null
    · by_cases hr : right = .null
      · subst hl
        subst hr
        exact ⟨[(f, 0)], by simp [leaves], FullDepths.leaf, by simp [pairCost]⟩
      · obtain ⟨P, hw, hd, hc⟩ := ihr hr
        have h : ¬(left = .null ∧ right = .null) := fun h => hr h.2
        refine ⟨P, ?_, hd, ?_⟩
        · rw [leaves_node_of_child _ _ _ _ h, hl]
          simpa [leaves] using hw
        · unfold cost at hc ⊢
          rw [costAt_node_of_child _ _ _ _ _ h, costAt_succ right 0]
          omega
    · have h : ¬(left = .null ∧ right = .null) := fun h => hl h.1
      by_cases hr : right = .null
      · obtain ⟨P, hw, hd, hc⟩ := ihl hl
        refine ⟨P, ?_, hd, ?_⟩
        · rw [leaves_node_of_child _ _ _ _ h, hr]
          simpa [leaves] using hw
        · unfold cost at hc ⊢
          rw [costAt_node_of_child _ _ _ _ _ h, costAt_succ left 0]
          omega
      · obtain ⟨Pl, hwl, hdl, hcl⟩ := ihl hl
        obtain ⟨Pr, hwr, hdr, hcr⟩ := ihr hr
        refine ⟨Pl.map (fun p => (p.1, p.2 + 1)) ++ Pr.map (fun p => (p.1, p.2 + 1)), ?_, ?_, ?_⟩
        · rw [leaves_node_of_child _ _ _ _ h]
          simp only [List.map_append, List.map_map]
          exact List.Perm.append hwl hwr
        · have := FullDepths.join hdl hdr
          simpa only [List.map_append, List.map_map] using this
        · unfold cost at hcl hcr ⊢
          rw [costAt_node_of_child _ _ _ _ _ h, costAt_succ left 0, costAt_succ right 0,
            pairCost_append, pairCost_deeper, pairCost_deeper, hwl.sum_eq, hwr.sum_eq]
          omega

/-! ## The cost of the tree the merge loop builds -/

namespace THuffman

theorem forestCost_eq (forest : List THuffmanBTree) :
    forestCost forest = (forest.map (fun t => cost t.root)).sum := by
  induction forest with
  | nil => rfl
  | cons t forest ih => simp only [forestCost, ih, List.map_cons, List.sum_cons]

theorem forestCost_perm (f1 f2 : List THuffmanBTree) (h : f1.Perm f2) :
    forestCost f1 = forestCost f2 := by
  rw [forestCost_eq, forestCost_eq]
  exact (h.map _).sum_eq

theorem forestCost_leafTrees (freqTable : List (Byte × Nat)) :
    forestCost (freqTable.map (fun e => (⟨.node e.1 e.2 .null .null⟩ : THuffmanBTree))) = 0 := by
  induction freqTable with
  | nil => rfl
  | cons e m ih => simp only [List.map_cons, forestCost, ih, cost, costAt, Nat.mul_zero]

theorem rootFreq_leafTrees (freqTable : List (Byte × Nat)) :
    (freqTable.map (fun e => (⟨.node e.1 e.2 .null .null⟩ : THuffmanBTree))).map
      THuffmanBTree.GetRootFreq = freqTable.map Prod.snd := by
  induction freqTable with
  | nil => rfl
  | cons e m ih =>
    simp only [List.map_cons, ih]
    rfl

/-- The cost of the root that `DefineRoot` puts over two trees of the merge
step: their costs and their root frequencies. -/
theorem cost_DefineRoot (a b : THuffmanBTree) (ha : isMerged a.root = true)
    (hb : isMerged b.root = true) :
    cost (THuffmanBTree.new.DefineRoot 0 a.GetRoot b.GetRoot).root
      = cost a.root + cost b.root + (a.GetRootFreq + b.GetRootFreq) := by
  unfold cost
  simp only [THuffmanBTree.DefineRoot, THuffmanBTree.GetRoot, THuffmanBTree.GetRootFreq]
  rw [costAt_node_of_child _ _ _ _ _ (fun h => isMerged_ne_null _ ha h.1),
    costAt_succ a.root 0, costAt_succ b.root 0, ← freq_eq_sum_leaves _ ha,
    ← freq_eq_sum_leaves _ hb]
  omega

/-- Every turn of the merge loop pays, in the cost of the forest, what the
merge loop on the root frequencies pays. -/
theorem buildLoop_cost (L : StdImpl) :
    ∀ (k : Nat) (forest : List THuffmanBTree),
      (∀ t ∈ forest, isMerged t.root = true) → IsAscending forest →
      forestCost (buildLoop L k forest)
          + huffCost ((buildLoop L k forest).map THuffmanBTree.GetRootFreq)
        = forestCost forest + huffCost (forest.map THuffmanBTree.GetRootFreq) := by
  intro k
  induction k with
  | zero => intro forest _ _; rfl
  | succ k ih =>
    intro forest hm hasc
    rcases forest with _ | ⟨a, _ | ⟨b, rest⟩⟩
    · rfl
    · rfl
    · simp only [buildLoop]
      have ha := hm a (List.mem_cons_self _ _)
      have hb := hm b (List.mem_cons_of_mem _ (List.mem_cons_self _ _))
      have hnew : ∀ t ∈ L.sort (THuffmanBTree.new.DefineRoot 0 a.GetRoot b.GetRoot :: rest),
          isMerged t.root = true := by
        intro t ht
        rcases List.mem_cons.1 ((L.sort_perm _).subset ht) with rfl | ht
        · exact isMerged_node _ _ ha hb
        · exact hm t (List.mem_cons_of_mem _ (List.mem_cons_of_mem _ ht))
      rw [ih _ hnew (sort_ascending L _), forestCost_perm _ _ (L.sort_perm _),
        huffCost_perm _ _ ((L.sort_perm _).map _)]
      simp only [IsAscending, List.pairwise_cons] at hasc
      obtain ⟨h1, h2, _⟩ := hasc
      simp only [forestCost, List.map_cons]
      rw [cost_DefineRoot a b ha hb,
        huffCost_step a.GetRootFreq b.GetRootFreq _ (h1 b (List.mem_cons_self _ _)) (by
          intro z hz
          obtain ⟨t, ht, hte⟩ := List.mem_map.1 hz
          rw [← hte]
          exact h2 t ht)]
      have e : (THuffmanBTree.new.DefineRoot 0 a.GetRoot b.GetRoot).GetRootFreq
          = a.GetRootFreq + b.GetRootFreq := rfl
      rw [e]
      omega

/-- The tree that `_PopulateForest` and `_BuildBitTree` build costs what the
merge loop on the frequencies pays. -/
theorem built_cost (L : StdImpl) (input : List Byte) (hne : input ≠ []) :
    ∃ tree : THuffmanBTree,
      (_BuildBitTree L (populated L input)).forest = [tree] ∧
        (leaves tree.root).Perm (populated L input).freqTable ∧
        cost tree.root = huffCost ((populated L input).freqTable.map Prod.snd) := by
  obtain ⟨hm, hperm, hlen⟩ := populated_forest L input
  obtain ⟨_, h2, _, _⟩ := populated_freqTable L input
  have hnil : (populated L input).forest ≠ [] := by
    intro e
    have := h2 hne
    rw [← hlen, e] at this
    simp at this
  obtain ⟨tree, ht1, _, _, htl⟩ := buildLoop_single L (populated L input).forest hnil hm
  have hasc : IsAscending (populated L input).forest := by
    rw [populated_eq]
    exact sort_ascending L _
  have hcost := buildLoop_cost L (populated L input).forest.length _ hm hasc
  rw [ht1] at hcost
  have hf0 : forestCost (populated L input).forest = 0 := by
    rw [populated_eq]
    simp only
    rw [forestCost_perm _ _ (L.sort_perm _), forestCost_leafTrees]
  have hw : huffCost ((populated L input).forest.map THuffmanBTree.GetRootFreq)
      = huffCost ((populated L input).freqTable.map Prod.snd) := by
    rw [populated_eq]
    simp only
    rw [huffCost_perm _ _ ((L.sort_perm _).map _), rootFreq_leafTrees]
  rw [hf0, hw] at hcost
  simp only [forestCost, List.map_cons, List.map_nil, huffCost_single] at hcost
  exact ⟨tree, ht1, htl.trans hperm, by omega⟩

/-- No tree over the same leaves is cheaper than the one the merge loop
builds. -/
theorem huffCost_le_cost (t : node_t) (ht : t ≠ .null) :
    huffCost ((leaves t).map Prod.snd) ≤ cost t := by
  obtain ⟨P, hw, hd, hc⟩ := exists_fullDepths t ht
  have hlen : P.length = (P.length - 1) + 1 := by
    have := hd.ne_nil
    cases P with
    | nil => simp at this
    | cons p Q => simp
  have := huffCost_le_pairCost (P.length - 1) P hlen hd
  rw [huffCost_perm _ _ hw] at this
  omega

end THuffman

/-! ## Calls on a used instance -/

namespace THuffman

/-- On an instance whose four tables are empty, `Encode` does what it does on
a fresh instance: `plainText` and `encodedText` are set anew. -/
theorem Encode_clean (L : StdImpl) (h : THuffman) (input : List Byte)
    (hf : h.forest = []) (hb : h.bitTable = []) (hq : h.freqTable = [])
    (hc : h.codeTable = []) : Encode L h input = Encode L new input := by
  obtain ⟨f, b, q, c, p, e⟩ := h
  simp only at hf hb hq hc
  subst hf hb hq hc
  rfl

/-- On an instance whose `codeTable` is empty, `Decode` does what it does on a
fresh instance. -/
theorem Decode_clean (h : THuffman) (input : List Byte) (hc : h.codeTable = []) :
    Decode h input = Decode new input := by
  obtain ⟨f, b, q, c, p, e⟩ := h
  simp only at hc
  subst hc
  simp only [Decode, _ReadHeader, _DecodeText, new, TBitBuffer.AssignBytes_eq]
  cases (⟨bytesBits input, 0⟩ : TBitBuffer).ReadByte with
  | none => rfl
  | some r1 =>
    simp only
    cases readLetters r1.1.val r1.2 [] with
    | none => rfl
    | some r2 =>
      simp only
      cases r2.1.ReadPadding with
      | none => rfl
      | some r3 =>
        simp only
        cases decodeLoop r2.2 r3.Size r3 [] [] with
        | none => rfl
        | some r4 => rfl

theorem Encode_tables (L : StdImpl) (h : THuffman) (input : List Byte)
    (r : List Byte × THuffman) (hr : Encode L h input = some r) :
    r.2.forest = [] ∧ r.2.bitTable = [] ∧ r.2.freqTable = [] ∧ r.2.codeTable = [] := by
  unfold Encode at hr
  simp only at hr
  split at hr
  · cases hr
  · split at hr
    · cases hr
    · cases hr
      exact ⟨rfl, rfl, rfl, rfl⟩

theorem Decode_tables (h : THuffman) (input : List Byte)
    (r : List Byte × THuffman) (hr : Decode h input = some r) :
    r.2.forest = [] ∧ r.2.bitTable = [] ∧ r.2.freqTable = [] ∧ r.2.codeTable = [] := by
  unfold Decode at hr
  simp only at hr
  split at hr
  · cases hr
  · split at hr
    · cases hr
    · cases hr
      exact ⟨rfl, rfl, rfl, rfl⟩

end THuffman


/-! ## Decoding what `Encode` wrote -/

namespace TBitBuffer

/-- With `n` bits left to read, the loop of `ReadPadding` returns, and has
read at most `n` bits. -/
theorem readPaddingLoop_returns :
    ∀ (n : Nat) (b : TBitBuffer), n ≤ b.unread.length →
      ∃ k, k ≤ n ∧ readPaddingLoop n b = some ⟨b.bitsBuffer, b.bufferPos + k⟩ := by
  intro n
  induction n with
  | zero => intro b _; exact ⟨0, Nat.le_refl _, rfl⟩
  | succ n ih =>
    intro b h
    cases hu : b.unread with
    | nil => rw [hu] at h; simp at h
    | cons x r =>
      obtain ⟨h1, h2⟩ := _ReadBit_of_unread b x r hu
      cases x
      · obtain ⟨k, hk, e⟩ := ih ⟨b.bitsBuffer, b.bufferPos + 1⟩ (by
          rw [h2]
          rw [hu] at h
          simpa using h)
        refine ⟨k + 1, by omega, ?_⟩
        simp only [readPaddingLoop, h1, e, Nat.add_assoc, Nat.add_comm 1 k]
      · exact ⟨1, by omega, by simp only [readPaddingLoop, h1]⟩

end TBitBuffer

namespace THuffman

/-- With `n` bits left to read, the loop of `_DecodeText` returns after
reading exactly `n` bits, whatever the code table. -/
theorem decodeLoop_returns (codeTable : List (List Bool × Byte)) :
    ∀ (n : Nat) (enc : TBitBuffer) (buf : List Bool) (plainText : List Byte),
      n ≤ enc.unread.length →
      ∃ text, decodeLoop codeTable n enc buf plainText =
        some (⟨enc.bitsBuffer, enc.bufferPos + n⟩, text) := by
  intro n
  induction n with
  | zero => intro enc buf plainText _; exact ⟨plainText, rfl⟩
  | succ n ih =>
    intro enc buf plainText h
    cases hu : enc.unread with
    | nil => rw [hu] at h; simp at h
    | cons x r =>
      obtain ⟨h1, h2⟩ := TBitBuffer._ReadBit_of_unread enc x r hu
      have hn : n ≤ (⟨enc.bitsBuffer, enc.bufferPos + 1⟩ : TBitBuffer).unread.length := by
        rw [h2]
        rw [hu] at h
        simpa using h
      simp only [decodeLoop, ReadBit_eq, h1]
      cases mapFind (buf ++ [x]) codeTable with
      | none =>
        obtain ⟨text, e⟩ := ih ⟨enc.bitsBuffer, enc.bufferPos + 1⟩ (buf ++ [x]) plainText hn
        exact ⟨text, by simp only [e, Nat.add_assoc, Nat.add_comm 1 n]⟩
      | some c =>
        obtain ⟨text, e⟩ := ih ⟨enc.bitsBuffer, enc.bufferPos + 1⟩ [] (plainText ++ [c]) hn
        exact ⟨text, by simp only [e, Nat.add_assoc, Nat.add_comm 1 n]⟩

/-- The function `_ReadHeader` returns on a count byte, the entries of at most
256 codes, a padding and a body, whatever `codeTable` held before, with the
marker inside the stream. With 256 entries the count byte is 0, no entry is
read and the padding is looked for in the first entry. -/
theorem _ReadHeader_returns (h : THuffman) (codes : List (Byte × List Bool)) (z : Nat)
    (body : List Bool) (hz : z ≤ 7) (hlen : codes.length ≤ 256)
    (hbits : h.encodedText = ⟨byteBits (Fin.ofNat codes.length) ++
      (lettersBits (tableOf codes) ++ (List.replicate z false ++ true :: body)), 0⟩) :
    ∃ (pos : Nat) (codeTable : List (List Bool × Byte)),
      pos ≤ h.encodedText.bitsBuffer.length ∧
      _ReadHeader h = some { h with
        encodedText := ⟨h.encodedText.bitsBuffer, pos⟩, codeTable := codeTable } := by
  have hu0 : h.encodedText.unread = byteBits (Fin.ofNat codes.length) ++
      (lettersBits (tableOf codes) ++ (List.replicate z false ++ true :: body)) := by
    rw [hbits]
    rfl
  have hp0 : h.encodedText.bufferPos = 0 := by rw [hbits]
  have hl0 : h.encodedText.bitsBuffer.length = 8 + ((lettersBits (tableOf codes)).length +
      (z + 1 + body.length)) := by
    rw [hbits]
    simp only [List.length_append, List.length_replicate, List.length_cons,
      TBitBuffer.byteBits_length]
    omega
  obtain ⟨r1, u1⟩ := TBitBuffer.ReadByte_of_unread _ _ _ hu0
  by_cases h255 : codes.length ≤ 255
  · obtain ⟨r2, u2⟩ := readLetters_tableOf codes _ h.codeTable _ u1
    obtain ⟨r3, u3⟩ := TBitBuffer.ReadPadding_of_unread _ _ _ hz u2
    have hval : (Fin.ofNat codes.length : Byte).val = codes.length :=
      Nat.mod_eq_of_lt (by omega)
    refine ⟨h.encodedText.bufferPos + 8 + (lettersBits (tableOf codes)).length + (z + 1),
      codes.foldl (fun acc e => mapInsert strLt e.2 e.1 acc) h.codeTable, ?_, ?_⟩
    · simp only [hp0, hl0]
      omega
    · simp only [_ReadHeader, r1, hval, r2, r3]
  · have h256 : codes.length = 256 := by omega
    have hval : (Fin.ofNat codes.length : Byte).val = 0 := by
      rw [h256]
      rfl
    have h8 : 8 ≤ (⟨h.encodedText.bitsBuffer, h.encodedText.bufferPos + 8⟩ :
        TBitBuffer).unread.length := by
      rw [u1]
      cases codes with
      | nil => simp at h256
      | cons e cs =>
        obtain ⟨c, code⟩ := e
        rw [lettersBits_tableOf_cons]
        simp only [List.length_append, TBitBuffer.byteBits_length]
        omega
    obtain ⟨k, hk, r3⟩ := TBitBuffer.readPaddingLoop_returns 8 _ h8
    refine ⟨h.encodedText.bufferPos + 8 + k, h.codeTable, ?_, ?_⟩
    · simp only [TBitBuffer.unread, List.length_drop] at h8
      omega
    · simp only [_ReadHeader, r1, hval, readLetters, TBitBuffer.ReadPadding, r3]

/-- The function `Decode` returns on every stream of that shape, having read
every bit of it and none beyond. -/
theorem Decode_returns (hd : THuffman) (output : List Byte) (codes : List (Byte × List Bool))
    (z : Nat) (body : List Bool) (hz : z ≤ 7) (hlen : codes.length ≤ 256)
    (hout : bytesBits output = byteBits (Fin.ofNat codes.length) ++
      (lettersBits (tableOf codes) ++ (List.replicate z false ++ true :: body))) :
    ∃ (text : List Byte) (h9 : THuffman), Decode hd output = some (text, h9) ∧
      h9.encodedText.bitsBuffer = bytesBits output ∧
      h9.encodedText.bufferPos = (bytesBits output).length := by
  obtain ⟨pos, codeTable, hpos, hread⟩ := _ReadHeader_returns
    { hd with plainText := [], encodedText := hd.encodedText.AssignBytes output } codes z body
    hz hlen (by simp only [TBitBuffer.AssignBytes_eq, hout])
  simp only [TBitBuffer.AssignBytes_eq] at hpos hread
  have hsize : (⟨bytesBits output, pos⟩ : TBitBuffer).Size
      ≤ (⟨bytesBits output, pos⟩ : TBitBuffer).unread.length := by
    rw [TBitBuffer.unread_length _ hpos]
  obtain ⟨text, hloop⟩ := decodeLoop_returns codeTable _ _ [] [] hsize
  refine ⟨text, ⟨[], [], [], [], text,
    ⟨bytesBits output, pos + (⟨bytesBits output, pos⟩ : TBitBuffer).Size⟩⟩, ?_, rfl, ?_⟩
  · simp only [Decode, TBitBuffer.AssignBytes_eq, hread, _DecodeText, hloop, __CleanUp]
  · simp only [TBitBuffer.Size] at hpos ⊢
    rw [if_pos hpos]
    omega

end THuffman

namespace THuffman

theorem mapInsert_keys_nodup {K V : Type} [DecidableEq K] (lt : K → K → Bool) (k : K) (v : V)
    (m : List (K × V)) (h : (m.map Prod.fst).Nodup) :
    ((mapInsert lt k v m).map Prod.fst).Nodup := by
  unfold mapInsert
  cases hf : mapFind k m with
  | some x => exact h
  | none =>
    simp only
    refine (List.Perm.nodup_iff ((mapPlace_perm lt k v m).map Prod.fst)).2 ?_
    simp only [List.map_cons, List.nodup_cons]
    exact ⟨(mapFind_eq_none k m).1 hf, h⟩

/-- The entries `_BuildBitTable` adds have their marker at 0 and a letter of
`freqTable`, and the letters of `bitTable` stay distinct. -/
theorem bitTableLoop_keys (L : StdImpl) (forest : List THuffmanBTree) :
    ∀ (freqTable : List (Byte × Nat)) (bt0 bt : List (Byte × TBitBuffer)),
      bitTableLoop L forest freqTable bt0 = some bt →
      (∀ e ∈ bt, e ∈ bt0 ∨ (e.2.bufferPos = 0 ∧ e.1 ∈ freqTable.map Prod.fst)) ∧
        ((bt0.map Prod.fst).Nodup → (bt.map Prod.fst).Nodup) := by
  intro freqTable
  induction freqTable with
  | nil =>
    intro bt0 bt h
    simp only [bitTableLoop, Option.some.injEq] at h
    subst h
    exact ⟨fun e he => Or.inl he, fun hn => hn⟩
  | cons x m ih =>
    intro bt0 bt h
    obtain ⟨k, n⟩ := x
    simp only [bitTableLoop] at h
    cases hf : forest[0]? with
    | none => rw [hf] at h; cases h
    | some tree =>
      rw [hf] at h
      simp only at h
      obtain ⟨h1, h2⟩ := ih _ _ h
      refine ⟨?_, fun hn => h2 (mapInsert_keys_nodup _ _ _ _ hn)⟩
      intro e he
      rcases h1 e he with h4 | h4
      · rcases mapInsert_mem _ _ _ _ _ h4 with h5 | h5
        · right
          rw [h5]
          exact ⟨rfl, by simp⟩
        · exact Or.inl h5
      · exact Or.inr ⟨h4.1, List.mem_cons_of_mem _ h4.2⟩

/-- The `bitTable` inside `Encode` is what the loop of `_BuildBitTable` makes
of the forest of `_BuildBitTree` and the frequency table, from an empty
table. -/
theorem encodeTables_bitTable (L : StdImpl) (input : List Byte) (h4 : THuffman)
    (ht : encodeTables L input = some h4) :
    bitTableLoop L (_BuildBitTree L (populated L input)).forest
        (populated L input).freqTable [] = some h4.bitTable ∧ h4.plainText = input := by
  have e1 : encodeTables L input =
      _BuildBitTable L (_BuildBitTree L (populated L input)) := rfl
  rw [e1] at ht
  simp only [_BuildBitTable] at ht
  have e3 : (_BuildBitTree L (populated L input)).freqTable
      = (populated L input).freqTable := rfl
  have e4 : (_BuildBitTree L (populated L input)).bitTable = [] := by
    rw [populated_eq]
    rfl
  have e5 : (_BuildBitTree L (populated L input)).plainText = input := by
    rw [populated_eq]
    rfl
  rw [e3, e4] at ht
  cases hx : bitTableLoop L (_BuildBitTree L (populated L input)).forest
      (populated L input).freqTable [] with
  | none => rw [hx] at ht; cases ht
  | some bt =>
    rw [hx] at ht
    simp only [Option.some.injEq] at ht
    rw [← ht]
    exact ⟨rfl, e5⟩

/-- A table whose buffers are all unread is the table of its codes. -/
theorem tableOf_codesOf (table : List (Byte × TBitBuffer))
    (h : ∀ e ∈ table, e.2.bufferPos = 0) : table = tableOf (codesOf table) := by
  induction table with
  | nil => rfl
  | cons e m ih =>
    have h0 := h e (List.mem_cons_self _ _)
    obtain ⟨c, ⟨bits, pos⟩⟩ := e
    simp only at h0
    subst h0
    have := ih (fun e he => h e (List.mem_cons_of_mem _ he))
    simp only [tableOf, codesOf, List.map_cons, List.map_map] at this ⊢
    rw [← this]
    rfl

theorem nodup_bytes_length_le (l : List Byte) (h : l.Nodup) : l.length ≤ 256 := by
  have := List.Nodup.length_le_card h
  rw [Fintype.card_fin] at this
  exact this

/-- The stream `Encode` returns on a fresh instance, for every input: the
count byte, the entries of the table of at most 256 codes, the padding and the
body that the loop of `_EncodeText` makes from that table. -/
theorem Encode_stream (L : StdImpl) (input : List Byte) :
    ∃ (h4 : THuffman) (body : List Bool) (output : List Byte) (h7 : THuffman) (z : Nat),
      encodeTables L input = some h4 ∧
      (∀ c ∈ input, (mapFind c h4.bitTable).isSome = true) ∧
      encodeLoop h4.bitTable input [] = some body ∧
      Encode L new input = some (output, h7) ∧
      h7.codeTable = [] ∧
      z ≤ 7 ∧ (codesOf h4.bitTable).length ≤ 256 ∧
      bytesBits output = byteBits (Fin.ofNat (codesOf h4.bitTable).length) ++
        (lettersBits (tableOf (codesOf h4.bitTable)) ++
          (List.replicate z false ++ true :: body)) := by
  obtain ⟨h4, ht, hp, _, hfind⟩ := encodeTables_some L input
  obtain ⟨body, hb⟩ := encodeLoop_some h4.bitTable h4.plainText (by rw [hp]; exact hfind) []
  obtain ⟨hbt, _⟩ := encodeTables_bitTable L input h4 ht
  obtain ⟨hent, hnd⟩ := bitTableLoop_keys L _ _ _ _ hbt
  have hpos : ∀ e ∈ h4.bitTable, e.2.bufferPos = 0 := by
    intro e he
    rcases hent e he with h | h
    · cases h
    · exact h.1
  have htab := tableOf_codesOf h4.bitTable hpos
  have hcount : h4.bitTable.length = (codesOf h4.bitTable).length := by simp [codesOf]
  have hlen : (codesOf h4.bitTable).length ≤ 256 := by
    have := nodup_bytes_length_le _ (hnd (by simp))
    rw [← hcount]
    simpa using this
  have hl8 : ((_WriteHeader h4 body.length).encodedText.bitsBuffer ++ body).length % 8 = 0 := by
    rw [_WriteHeader_encodedText]
    simp only [List.length_append, List.length_replicate, List.length_cons, List.length_nil]
    omega
  have hx := TBitBuffer.ReadAllBytes_exact
    ⟨(_WriteHeader h4 body.length).encodedText.bitsBuffer ++ body, 0⟩ hl8
  refine ⟨h4, body, _, _,
    7 - ((byteBits (Fin.ofNat h4.bitTable.length) ++ lettersBits h4.bitTable).length
      + body.length) % 8, ht, hfind, by rw [← hp]; exact hb,
    Encode_new L input h4 body ht hb, rfl, by omega, hlen, ?_⟩
  rw [hx.2, _WriteHeader_encodedText, ← htab, ← hcount]
  simp only [List.append_assoc, List.cons_append, List.nil_append]

theorem sort_nil (L : StdImpl) : L.sort [] = [] := (L.sort_perm []).eq_nil

/-- The output of `Encode` on the empty input: the count byte 0 and a byte of
padding. -/
theorem Encode_nil (L : StdImpl) :
    Encode L new [] = some ([0, 1], ⟨[], [], [], [], [], ⟨bytesBits [0, 1], 0⟩⟩) := by
  have ht : encodeTables L [] = some ⟨[], [], [], [], [], ⟨[], 0⟩⟩ := by
    simp only [encodeTables, _BuildBitTable, _BuildBitTree, _PopulateForest, new, countLoop,
      addFiller, pushLeaves, sort_nil, List.length_nil, buildLoop, bitTableLoop]
    rfl
  rw [Encode_new L [] _ [] ht rfl]
  rfl

end THuffman


/-! ## The codes of the tree -/

namespace THuffman

theorem leafPath_node_of_child (symbol letter : Byte) (f : Nat) (left right : node_t)
    (h : ¬(left = .null ∧ right = .null)) :
    leafPath symbol (.node letter f left right) =
      match leafPath symbol left with
      | some path => some (false :: path)
      | none =>
        match leafPath symbol right with
        | some path => some (true :: path)
        | none => none := by
  cases left with
  | null =>
    cases right with
    | null => exact absurd ⟨rfl, rfl⟩ h
    | node c2 f2 l2 r2 => simp only [leafPath]
  | node c1 f1 l1 r1 => simp only [leafPath]

/-- Every letter of a leaf has a path. -/
theorem leafPath_of_mem (symbol : Byte) :
    ∀ t : node_t, symbol ∈ (leaves t).map Prod.fst → ∃ path, leafPath symbol t = some path := by
  intro t
  induction t with
  | null => intro h; simp [leaves] at h
  | node c f left right ihl ihr =>
    intro h
    by_cases hc : left = .null ∧ right = .null
    · obtain ⟨rfl, rfl⟩ := hc
      simp only [leaves, List.map_cons, List.map_nil, List.mem_singleton] at h
      subst h
      exact ⟨[], by simp only [leafPath, if_true]⟩
    · rw [leaves_node_of_child _ _ _ _ hc, List.map_append, List.mem_append] at h
      rw [leafPath_node_of_child _ _ _ _ _ hc]
      cases hl : leafPath symbol left with
      | some p => exact ⟨false :: p, rfl⟩
      | none =>
        rcases h with h | h
        · obtain ⟨p, hp⟩ := ihl h
          rw [hp] at hl
          cases hl
        · obtain ⟨p, hp⟩ := ihr h
          exact ⟨true :: p, by simp only [hp]⟩

/-- The path of one letter is a prefix of the path of no other letter. -/
theorem leafPath_prefix_free (c1 c2 : Byte) :
    ∀ (t : node_t) (p1 p2 : List Bool), leafPath c1 t = some p1 → leafPath c2 t = some p2 →
      p1 <+: p2 → c1 = c2 := by
  intro t
  induction t with
  | null => intro p1 p2 h1; cases h1
  | node c f left right ihl ihr =>
    intro p1 p2 h1 h2 hpre
    by_cases hc : left = .null ∧ right = .null
    · obtain ⟨rfl, rfl⟩ := hc
      simp only [leafPath] at h1 h2
      by_cases e1 : c = c1
      · by_cases e2 : c = c2
        · rw [← e1, ← e2]
        · rw [if_neg e2] at h2
          cases h2
      · rw [if_neg e1] at h1
        cases h1
    · rw [leafPath_node_of_child _ _ _ _ _ hc] at h1 h2
      cases hl1 : leafPath c1 left with
      | some q1 =>
        rw [hl1] at h1
        simp only [Option.some.injEq] at h1
        subst h1
        cases hl2 : leafPath c2 left with
        | some q2 =>
          rw [hl2] at h2
          simp only [Option.some.injEq] at h2
          subst h2
          exact ihl q1 q2 hl1 hl2 ((List.prefix_cons_inj false).1 hpre)
        | none =>
          rw [hl2] at h2
          cases hr2 : leafPath c2 right with
          | some q2 =>
            rw [hr2] at h2
            simp only [Option.some.injEq] at h2
            subst h2
            have := List.cons_prefix_cons.1 hpre
            exact absurd this.1 (by decide)
          | none => rw [hr2] at h2; cases h2
      | none =>
        rw [hl1] at h1
        cases hr1 : leafPath c1 right with
        | none => rw [hr1] at h1; cases h1
        | some q1 =>
          rw [hr1] at h1
          simp only [Option.some.injEq] at h1
          subst h1
          cases hl2 : leafPath c2 left with
          | some q2 =>
            rw [hl2] at h2
            simp only [Option.some.injEq] at h2
            subst h2
            have := List.cons_prefix_cons.1 hpre
            exact absurd this.1 (by decide)
          | none =>
            rw [hl2] at h2
            cases hr2 : leafPath c2 right with
            | some q2 =>
              rw [hr2] at h2
              simp only [Option.some.injEq] at h2
              subst h2
              exact ihr q1 q2 hr1 hr2 ((List.prefix_cons_inj true).1 hpre)
            | none => rw [hr2] at h2; cases h2

/-- In a tree of at least two leaves no path is empty. -/
theorem leafPath_ne_nil (symbol : Byte) (t : node_t) (h2 : 2 ≤ (leaves t).length)
    (path : List Bool) (h : leafPath symbol t = some path) : path ≠ [] := by
  cases t with
  | null => cases h
  | node c f left right =>
    by_cases hc : left = .null ∧ right = .null
    · obtain ⟨rfl, rfl⟩ := hc
      simp [leaves] at h2
    · rw [leafPath_node_of_child _ _ _ _ _ hc] at h
      cases hl : leafPath symbol left with
      | some q =>
        rw [hl] at h
        simp only [Option.some.injEq] at h
        rw [← h]
        simp
      | none =>
        rw [hl] at h
        cases hr : leafPath symbol right with
        | some q =>
          rw [hr] at h
          simp only [Option.some.injEq] at h
          rw [← h]
          simp
        | none => rw [hr] at h; cases h

end THuffman

namespace THuffman

theorem mapUpdate_mem {K V : Type} [DecidableEq K] (k : K) (f : V → V) (m : List (K × V))
    (e : K × V) (h : e ∈ mapUpdate k f m) : e.1 = k ∨ e ∈ m := by
  induction m with
  | nil => simp [mapUpdate] at h
  | cons x m ih =>
    obtain ⟨k1, v1⟩ := x
    simp only [mapUpdate] at h
    by_cases hk : k1 = k
    · rw [if_pos hk] at h
      rcases List.mem_cons.1 h with h | h
      · left
        rw [h]
        exact hk
      · exact Or.inr (List.mem_cons_of_mem _ h)
    · rw [if_neg hk] at h
      rcases List.mem_cons.1 h with h | h
      · right
        rw [h]
        exact List.mem_cons_self _ _
      · rcases ih h with h | h
        · exact Or.inl h
        · exact Or.inr (List.mem_cons_of_mem _ h)

theorem mapAssign_mem {K V : Type} [DecidableEq K] (lt : K → K → Bool) (k : K) (v : V)
    (m : List (K × V)) (e : K × V) (h : e ∈ mapAssign lt k v m) : e.1 = k ∨ e ∈ m := by
  unfold mapAssign at h
  cases hf : mapFind k m with
  | some x =>
    rw [hf] at h
    exact mapUpdate_mem _ _ _ _ h
  | none =>
    rw [hf] at h
    rcases List.mem_cons.1 ((mapPlace_perm lt k v m).subset h) with h | h
    · left
      rw [h]
    · exact Or.inr h

/-- The second character `_PopulateForest` may add is `'a'` or `'b'`. -/
theorem addFiller_keys (L : StdImpl) (freqTable : List (Byte × Nat)) (e : Byte × Nat)
    (h : e ∈ addFiller L freqTable) : e ∈ freqTable ∨ e.1 = 97 ∨ e.1 = 98 := by
  unfold addFiller at h
  split at h
  · split at h
    · split at h
      · rcases mapAssign_mem _ _ _ _ _ h with h | h
        · exact Or.inr (Or.inl h)
        · exact Or.inl h
      · rcases mapAssign_mem _ _ _ _ _ h with h | h
        · exact Or.inr (Or.inr h)
        · exact Or.inl h
    · exact Or.inl h
  · exact Or.inl h

/-- The letters of the frequency table: bytes of the input, and possibly `'a'`
or `'b'`. -/
theorem populated_keys (L : StdImpl) (input : List Byte) :
    ∀ e ∈ (populated L input).freqTable, e.1 ∈ input ∨ e.1 = 97 ∨ e.1 = 98 := by
  rw [populated_eq]
  simp only
  intro e he
  rcases addFiller_keys L _ e he with h | h
  · left
    obtain ⟨hn, hc⟩ := countLoop_counts L input [] (by simp)
    have h1 := mapFind_of_mem _ hn e.1 e.2 h
    rw [hc] at h1
    by_cases hm : e.1 ∈ input
    · exact hm
    · rw [if_neg hm] at h1
      simp [mapFind] at h1
  · exact Or.inr h

theorem nodup_nonzero_length_le (l : List Byte) (h : l.Nodup) (h0 : (0 : Byte) ∉ l) :
    l.length ≤ 255 := by
  have := nodup_bytes_length_le (0 :: l) (List.nodup_cons.2 ⟨h0, h⟩)
  simp only [List.length_cons] at this
  omega

/-- The body `_EncodeText` makes when every character has an unread code: the
codes one after the other. -/
theorem encodeLoop_concat (bitTable : List (Byte × TBitBuffer)) (code : Byte → List Bool) :
    ∀ (text : List Byte) (r : List Bool),
      (∀ c ∈ text, mapFind c bitTable = some ⟨code c, 0⟩) →
      encodeLoop bitTable text r
        = some (r ++ concatCodes (text.map (fun c => (code c, c)))) := by
  intro text
  induction text with
  | nil => intro r _; simp [encodeLoop, concatCodes]
  | cons c rest ih =>
    intro r h
    simp only [encodeLoop, h c (List.mem_cons_self _ _)]
    rw [ih _ (fun x hx => h x (List.mem_cons_of_mem _ hx))]
    simp only [TBitBuffer.ReadAllBits, List.map_cons, concatCodes, List.append_assoc]

end THuffman

/-! ## The round trip -/

namespace THuffman

/-- The table of codes inside `Encode` on a non-empty input without a zero
byte: at most 255 distinct letters, every buffer unread and holding the path
to the leaf of its letter in the one tree of the forest, which has at least
two leaves. -/
theorem encodeTables_codes (L : StdImpl) (input : List Byte) (hne : input ≠ [])
    (h0 : (0 : Byte) ∉ input) (h4 : THuffman) (ht : encodeTables L input = some h4) :
    ∃ tree : THuffmanBTree,
      2 ≤ (leaves tree.root).length ∧
      (h4.bitTable.map Prod.fst).Nodup ∧
      h4.bitTable.length ≤ 255 ∧
      ∀ e ∈ h4.bitTable, e.2.bufferPos = 0 ∧ leafPath e.1 tree.root = some e.2.bitsBuffer := by
  obtain ⟨hm, hperm, hlen⟩ := populated_forest L input
  obtain ⟨hnd, h2, _, _⟩ := populated_freqTable L input
  have hnil : (populated L input).forest ≠ [] := by
    intro e
    have := h2 hne
    rw [← hlen, e] at this
    simp at this
  obtain ⟨tree, ht1, _, htm, htl⟩ := buildLoop_single L _ hnil hm
  obtain ⟨hbt, _⟩ := encodeTables_bitTable L input h4 ht
  have e2 : (_BuildBitTree L (populated L input)).forest = [tree] := ht1
  rw [e2] at hbt
  obtain ⟨hent, hcnt⟩ := bitTableLoop_entries L tree [] _ _ _ hbt
  obtain ⟨hkeys, hnd2⟩ := bitTableLoop_keys L [tree] _ _ _ hbt
  have hnz : ∀ x ∈ (populated L input).freqTable, x.1 ≠ 0 := by
    intro x hx e
    rcases populated_keys L input x hx with h | h | h
    · rw [e] at h
      exact h0 h
    · rw [e] at h
      exact absurd h (by decide)
    · rw [e] at h
      exact absurd h (by decide)
  have hft : (populated L input).freqTable.length ≤ 255 := by
    have := nodup_nonzero_length_le _ hnd (by
      intro hmem
      obtain ⟨x, hx, hxe⟩ := List.mem_map.1 hmem
      exact hnz x hx hxe)
    simpa using this
  refine ⟨tree, ?_, hnd2 (by simp), ?_, ?_⟩
  · rw [(htl.trans hperm).length_eq]
    exact h2 hne
  · simp only [List.length_nil, Nat.zero_add] at hcnt
    omega
  · intro e he
    have hcode : e.2 = ⟨tree.BitCode e.1, 0⟩ := by
      rcases hent e he with h | h
      · cases h
      · exact h
    have hkey : e.1 ∈ (populated L input).freqTable.map Prod.fst := by
      rcases hkeys e he with h | h
      · cases h
      · exact h.2
    obtain ⟨x, hx, hxe⟩ := List.mem_map.1 hkey
    have hne0 : e.1 ≠ 0 := by
      rw [← hxe]
      exact hnz x hx
    have hleaf : e.1 ∈ (leaves tree.root).map Prod.fst :=
      ((htl.trans hperm).map Prod.fst).symm.subset hkey
    obtain ⟨p, hp⟩ := leafPath_of_mem e.1 tree.root hleaf
    have hb := THuffmanBTree._BitCode_eq_leafPath e.1 hne0 tree.root [] p htm hp
    rw [hcode]
    refine ⟨rfl, ?_⟩
    rw [hp]
    simp only [THuffmanBTree.BitCode, hb, List.nil_append]

/-- The function `Decode` from what its two steps do. -/
theorem Decode_of_steps (hd : THuffman) (output : List Byte) (h2 : THuffman)
    (enc : TBitBuffer) (text : List Byte)
    (hr : _ReadHeader
      { hd with plainText := [], encodedText := hd.encodedText.AssignBytes output } = some h2)
    (hl : decodeLoop h2.codeTable h2.encodedText.Size h2.encodedText [] h2.plainText
      = some (enc, text)) :
    Decode hd output
      = some (text, __CleanUp { h2 with encodedText := enc, plainText := text }) := by
  simp only [Decode, hr, _DecodeText, hl]
  rfl

/-- On an input without a zero byte, `Decode` of the output of `Encode` is the
input. -/
theorem Decode_Encode (L : StdImpl) (input : List Byte) (h0 : (0 : Byte) ∉ input) :
    ∃ (output : List Byte) (h7 h9 : THuffman),
      Encode L new input = some (output, h7) ∧ h7.codeTable = [] ∧
        Decode new output = some (input, h9) := by
  by_cases hne : input = []
  · subst hne
    exact ⟨_, _, ⟨[], [], [], [], [], ⟨bytesBits [0, 1], 16⟩⟩, Encode_nil L, rfl, by decide⟩
  · obtain ⟨h4, body, output, h7, z, ht, hfind, hb, henc, hclean, hz, _, hout⟩ :=
      Encode_stream L input
    obtain ⟨tree, hl2, hnd, h255, hent⟩ := encodeTables_codes L input hne h0 h4 ht
    have hlen : (codesOf h4.bitTable).length ≤ 255 := by
      simpa [codesOf] using h255
    -- the codes
    have hmemc : ∀ e ∈ codesOf h4.bitTable, leafPath e.1 tree.root = some e.2 := by
      intro e he
      obtain ⟨x, hx, hxe⟩ := List.mem_map.1 he
      rw [← hxe]
      exact (hent x hx).2
    have hinj : ∀ e1 ∈ codesOf h4.bitTable, ∀ e2 ∈ codesOf h4.bitTable,
        e1.2 <+: e2.2 → e1 = e2 := by
      intro e1 he1 e2 he2 hpre
      have hk := leafPath_prefix_free e1.1 e2.1 tree.root e1.2 e2.2 (hmemc e1 he1)
        (hmemc e2 he2) hpre
      have h1 := hmemc e1 he1
      rw [hk, hmemc e2 he2] at h1
      simp only [Option.some.injEq] at h1
      exact Prod.ext hk h1.symm
    have hcnd : ((codesOf h4.bitTable).map Prod.snd).Nodup := by
      have hn1 : (codesOf h4.bitTable).Nodup := by
        apply List.Nodup.of_map Prod.fst
        simpa [codesOf, List.map_map] using hnd
      refine List.Nodup.map_on ?_ hn1
      intro x hx y hy hxy
      exact hinj x hx y hy (by rw [hxy])
    have hperm := insertCodes_perm (codesOf h4.bitTable) [] hcnd (fun _ _ => rfl)
    simp only [List.nil_append] at hperm
    have hct : ∀ e ∈ (codesOf h4.bitTable).foldl (fun acc e => mapInsert strLt e.2 e.1 acc) [],
        (e.2, e.1) ∈ codesOf h4.bitTable := by
      intro e he
      have := hperm.subset he
      simp only [inverseOf, List.mem_map] at this
      obtain ⟨x, hx, hxe⟩ := this
      rw [← hxe]
      exact hx
    -- the body
    have hcode : ∀ c ∈ input,
        mapFind c h4.bitTable = some ⟨(leafPath c tree.root).getD [], 0⟩ := by
      intro c hc
      cases hf : mapFind c h4.bitTable with
      | none =>
        have := hfind c hc
        rw [hf] at this
        cases this
      | some b =>
        have hmem := mem_of_mapFind _ _ _ hf
        obtain ⟨hp, hpath⟩ := hent _ hmem
        simp only at hp hpath
        rw [hpath]
        obtain ⟨bits, pos⟩ := b
        simp only at hp
        subst hp
        rfl
    have hbody := encodeLoop_concat h4.bitTable (fun c => (leafPath c tree.root).getD [])
      input [] hcode
    rw [hb, List.nil_append, Option.some.injEq] at hbody
    have hsyms : ∀ e ∈ input.map (fun c => ((leafPath c tree.root).getD [], c)),
        e ∈ (codesOf h4.bitTable).foldl (fun acc e => mapInsert strLt e.2 e.1 acc) [] := by
      intro e he
      obtain ⟨c, hc, hce⟩ := List.mem_map.1 he
      rw [← hce]
      apply hperm.symm.subset
      simp only [inverseOf, List.mem_map]
      refine ⟨(c, (leafPath c tree.root).getD []), ?_, rfl⟩
      have := mem_of_mapFind _ _ _ (hcode c hc)
      simp only [codesOf, List.mem_map]
      exact ⟨_, this, rfl⟩
    -- the header
    obtain ⟨hread, hunread⟩ := _ReadHeader_of_stream new (codesOf h4.bitTable) z body hz hlen
    have hsize := TBitBuffer.unread_length
      (⟨byteBits (Fin.ofNat (codesOf h4.bitTable).length) ++
        (lettersBits (tableOf (codesOf h4.bitTable)) ++
          (List.replicate z false ++ true :: body)),
        0 + 8 + (lettersBits (tableOf (codesOf h4.bitTable))).length + (z + 1)⟩ : TBitBuffer)
      (by
        simp only [List.length_append, List.length_replicate, List.length_cons,
          TBitBuffer.byteBits_length]
        omega)
    rw [hunread] at hsize
    -- the loop
    obtain ⟨hloop, _⟩ := decodeLoop_syms
      ((codesOf h4.bitTable).foldl (fun acc e => mapInsert strLt e.2 e.1 acc) [])
      (by
        intro e he
        exact leafPath_ne_nil e.2 tree.root hl2 e.1 (hmemc _ (hct e he)))
      (by
        intro e1 he1 e2 he2 hpre
        have := hinj _ (hct e1 he1) _ (hct e2 he2) hpre
        simp only [Prod.mk.injEq] at this
        exact Prod.ext this.2 this.1)
      (input.map (fun c => ((leafPath c tree.root).getD [], c))) hsyms _ [] 0 []
      (by rw [hunread, hbody, List.append_nil])
    rw [← hbody, Nat.add_zero, hsize] at hloop
    simp only [decodeLoop, List.nil_append, List.map_map] at hloop
    have hid : List.map (Prod.snd ∘ fun c => ((leafPath c tree.root).getD [], c)) input
        = input := by
      simp [Function.comp_def]
    rw [hid] at hloop
    have hdec := Decode_of_steps new output _ _ input (by
      rw [TBitBuffer.AssignBytes_eq, hout]
      exact hread) hloop
    exact ⟨output, h7, _, henc, hclean, hdec⟩

end THuffman

/-! ## The claims -/

/-- C1 fails on the code. On every implementation, `Encode` of the two bytes
0x00 0x00 returns the four bytes 0x02 0x00 0x18 0x51, whose body is empty
because `BitCode` gave the byte 0 the empty code, and `Decode` of them on the
same instance returns the empty sequence, not the input. -/
theorem C1_zero_bytes_are_lost (L : StdImpl) :
    (∃ h7 h8 : THuffman,
      THuffman.Encode L THuffman.new [0, 0] = some ([0x02, 0x00, 0x18, 0x51], h7) ∧
      THuffman.Decode h7 [0x02, 0x00, 0x18, 0x51] = some ([], h8)) ∧
    roundTrip L [0, 0] = some [] ∧ roundTrip L [0, 0] ≠ some [0, 0] := by
  have henc := THuffman.Encode_new L [0, 0] _ [] (THuffman.encodeTables_zero_zero L) rfl
  have hout : THuffman.Encode L THuffman.new [0, 0] =
      some ([0x02, 0x00, 0x18, 0x51],
        ⟨[], [], [], [], [0, 0], ⟨bytesBits [0x02, 0x00, 0x18, 0x51], 0⟩⟩) := by
    rw [henc]
    rfl
  have hrt : roundTrip L [0, 0] = some [] := by
    unfold roundTrip
    rw [hout]
    rfl
  refine ⟨⟨_, ⟨[], [], [], [], [], ⟨bytesBits [0x02, 0x00, 0x18, 0x51], 32⟩⟩, hout, by decide⟩,
    hrt, ?_⟩
  rw [hrt]
  decide

/-- C2 fails on the code. On every implementation, the code table built from
the three bytes 0x00 0x01 0x01, which has two distinct byte values, gives the
byte 0 the empty code and the byte 1 the code "1": the code of 0 is a prefix
of the code of 1. -/
theorem C2_zero_byte_code_is_a_prefix (L : StdImpl) :
    ∃ h4 : THuffman,
      THuffman.encodeTables L [0, 1, 1] = some h4 ∧
      h4.bitTable = [(0, ⟨[], 0⟩), (1, ⟨[true], 0⟩)] ∧
      (0 : Byte) ≠ 1 ∧ ([] : List Bool) <+: [true] :=
  ⟨_, THuffman.encodeTables_zero_one_one L, rfl, by decide, List.nil_prefix⟩

/-- C3 fails on the code. On every implementation, the merge step of
`_BuildBitTree` turns the leaves of `'a'` (frequency 1) and of the byte 0
(frequency 2) into one tree; the leaf holding the byte 0 is its right child,
at the path "1", and `BitCode(0)` returns the empty path. -/
theorem C3_BitCode_of_zero_is_empty (L : StdImpl) :
    THuffman.buildLoop L 2 [THuffmanBTree.new.Insert 97 1, THuffmanBTree.new.Insert 0 2] =
        [⟨.node 0 3 (.node 97 1 .null .null) (.node 0 2 .null .null)⟩] ∧
      leafPath 0 (.node 0 3 (.node 97 1 .null .null) (.node 0 2 .null .null)) = some [true] ∧
      THuffmanBTree.BitCode ⟨.node 0 3 (.node 97 1 .null .null) (.node 0 2 .null .null)⟩ 0
        = [] := by
  refine ⟨?_, by decide, by decide⟩
  simp only [THuffman.buildLoop, THuffman.sort_single]
  rfl

/-- C4: for every byte `c` and every `n ≥ 1`, `Encode` of `n` copies of `c`
builds a `bitTable` of exactly two entries, `c` and the filler (`'a'` = 97
when `c` is not `'a'`, `'b'` = 98 when it is), in one order or the other; the
stream is the count byte 2, the two entries (letter, length of the code,
code), the padding and the body; and the first output byte is 2. -/
theorem C4_single_byte_header (L : StdImpl) (c : Byte) (n : Nat) (hn : 0 < n) :
    ∃ (k1 k2 : Byte) (code1 code2 : List Bool) (h4 : THuffman) (body : List Bool)
      (padding : Nat) (output : List Byte) (h7 : THuffman),
      ((k1 = c ∧ k2 = (if c ≠ 97 then 97 else 98)) ∨
        (k1 = (if c ≠ 97 then 97 else 98) ∧ k2 = c)) ∧
      THuffman.encodeTables L (List.replicate n c) = some h4 ∧
      h4.bitTable = [(k1, ⟨code1, 0⟩), (k2, ⟨code2, 0⟩)] ∧
      THuffman._EncodeText h4 = some body ∧
      THuffman.Encode L THuffman.new (List.replicate n c) = some (output, h7) ∧
      h7.encodedText.bitsBuffer =
        byteBits 2 ++ (letterBits k1 code1 ++ (letterBits k2 code2 ++
          (List.replicate padding false ++ true :: body))) ∧
      output.head? = some 2 := by
  obtain ⟨k1, k2, m1, m2, x, y, hcase, _, _, ht⟩ :=
    THuffman.encodeTables_replicate L c n hn _ rfl
  obtain ⟨h4, ht4, hp, _, hfind⟩ := THuffman.encodeTables_some L (List.replicate n c)
  obtain ⟨body, hb⟩ := THuffman.encodeLoop_some h4.bitTable h4.plainText
    (by rw [hp]; exact hfind) []
  have hh : h4 = _ := Option.some.inj (ht4.symm.trans ht)
  have hbt : h4.bitTable =
      [(k1, ⟨(THuffmanBTree.new.DefineRoot 0 x.GetRoot y.GetRoot).BitCode k1, 0⟩),
       (k2, ⟨(THuffmanBTree.new.DefineRoot 0 x.GetRoot y.GetRoot).BitCode k2, 0⟩)] := by
    rw [hh]
  have henc := THuffman.Encode_new L (List.replicate n c) h4 body ht4 hb
  have hstream : (THuffman._WriteHeader h4 body.length).encodedText.bitsBuffer ++ body =
      byteBits 2 ++ (letterBits k1 ((THuffmanBTree.new.DefineRoot 0 x.GetRoot y.GetRoot).BitCode k1)
        ++ (letterBits k2 ((THuffmanBTree.new.DefineRoot 0 x.GetRoot y.GetRoot).BitCode k2) ++
          (List.replicate (7 - ((byteBits (Fin.ofNat h4.bitTable.length) ++
            lettersBits h4.bitTable).length + body.length) % 8) false ++ true :: body))) := by
    rw [THuffman._WriteHeader_encodedText]
    simp only [hbt, lettersBits, letterBits, TBitBuffer.Size, TBitBuffer.ReadAllBits,
      List.length_cons, List.length_nil, Nat.sub_zero, List.append_assoc, List.append_nil,
      List.cons_append, List.nil_append, Nat.zero_le, if_true]
    rfl
  have hlen : ((THuffman._WriteHeader h4 body.length).encodedText.bitsBuffer ++ body).length % 8
      = 0 := by
    rw [THuffman._WriteHeader_encodedText]
    simp only [List.length_append, List.length_replicate, List.length_cons, List.length_nil]
    omega
  have hx := TBitBuffer.ReadAllBytes_exact
    ⟨(THuffman._WriteHeader h4 body.length).encodedText.bitsBuffer ++ body, 0⟩ hlen
  refine ⟨k1, k2, _, _, h4, body, _, _, _, ?_, ht4, hbt, hb, henc, hstream, ?_⟩
  · rcases hcase with ⟨_, h1, _, h2, _⟩ | ⟨_, h1, _, h2, _⟩
    · exact Or.inl ⟨h1, h2⟩
    · exact Or.inr ⟨h1, h2⟩
  · exact THuffman.bytesBits_head _ 2 _ (hx.2.trans hstream)

/-- C4 at four copies of the byte 0 on the x86 implementation. -/
theorem C4_single_byte_header_witness :
    0 < 4 ∧
    ∃ (k1 k2 : Byte) (code1 code2 : List Bool) (h4 : THuffman) (body : List Bool)
      (padding : Nat) (output : List Byte) (h7 : THuffman),
      ((k1 = 0 ∧ k2 = (if (0 : Byte) ≠ 97 then 97 else 98)) ∨
        (k1 = (if (0 : Byte) ≠ 97 then 97 else 98) ∧ k2 = 0)) ∧
      THuffman.encodeTables x86 (List.replicate 4 0) = some h4 ∧
      h4.bitTable = [(k1, ⟨code1, 0⟩), (k2, ⟨code2, 0⟩)] ∧
      THuffman._EncodeText h4 = some body ∧
      THuffman.Encode x86 THuffman.new (List.replicate 4 0) = some (output, h7) ∧
      h7.encodedText.bitsBuffer =
        byteBits 2 ++ (letterBits k1 code1 ++ (letterBits k2 code2 ++
          (List.replicate padding false ++ true :: body))) ∧
      output.head? = some 2 :=
  ⟨by decide, C4_single_byte_header x86 0 4 (by decide)⟩

/-- C5: for every `n ≥ 1`, `Encode` of `n` copies of `'a'` gives the two
header symbols `'a'` and `'b'` codes of exactly 1 bit each and a body of
exactly `n` bits. For `n = 4` the output is the 5 bytes 0x02 0x61 0x56 0x24
0x1F: the count byte, the entries of `'a'` (code "1") and `'b'` (code "0"),
the 4 padding bits "0001" and the 4 body bits "1111"; `Decode` of it on the
same instance returns "aaaa". -/
theorem C5_worked_example (L : StdImpl) (n : Nat) (hn : 0 < n) :
    (∃ (codeA codeB : List Bool) (h4 : THuffman) (body : List Bool),
      THuffman.encodeTables L (List.replicate n 97) = some h4 ∧
      h4.bitTable = [(97, ⟨codeA, 0⟩), (98, ⟨codeB, 0⟩)] ∧
      codeA.length = 1 ∧ codeB.length = 1 ∧
      THuffman._EncodeText h4 = some body ∧ body.length = n) ∧
    (∃ h7 h8 : THuffman,
      THuffman.Encode L THuffman.new (List.replicate 4 97) =
        some ([0x02, 0x61, 0x56, 0x24, 0x1F], h7) ∧
      h7.encodedText.bitsBuffer =
        byteBits 2 ++ (letterBits 97 [true] ++ (letterBits 98 [false] ++
          ([false, false, false, true] ++ [true, true, true, true]))) ∧
      THuffman.Decode h7 [0x02, 0x61, 0x56, 0x24, 0x1F] = some (List.replicate 4 97, h8)) := by
  constructor
  · obtain ⟨codeA, codeB, x, y, _, hor, ht⟩ := THuffman.encodeTables_a L n hn
    obtain ⟨body, hb, hl⟩ := THuffman.encodeLoop_replicate
      [(97, ⟨codeA, 0⟩), (98, (⟨codeB, 0⟩ : TBitBuffer))] 97 ⟨codeA, 0⟩ (by simp [mapFind]) n []
    have hlen : codeA.length = 1 ∧ codeB.length = 1 := by
      rcases hor with ⟨_, _, rfl, rfl⟩ | ⟨_, _, rfl, rfl⟩ <;> exact ⟨rfl, rfl⟩
    refine ⟨codeA, codeB, _, body, ht, rfl, hlen.1, hlen.2, hb, ?_⟩
    rw [hl, hlen.1]
    simp
  · obtain ⟨codeA, codeB, x, y, hs, hor, ht⟩ := THuffman.encodeTables_a L 4 (by decide)
    have hsort := THuffman.sort_pair_of_lt L (THuffmanBTree.new.Insert 97 4)
      (THuffmanBTree.new.Insert 98 1) (by decide)
    rw [hsort] at hs
    have hx : THuffmanBTree.new.Insert 98 1 = x := by
      have := List.cons.inj hs
      exact this.1
    have hy : THuffmanBTree.new.Insert 97 4 = y := by
      have := List.cons.inj (List.cons.inj hs).2
      exact this.1
    subst hx hy
    have hcodes : codeA = [true] ∧ codeB = [false] := by
      rcases hor with ⟨h1, _, _, _⟩ | ⟨_, _, h3, h4⟩
      · exact absurd h1 (by decide)
      · exact ⟨h3, h4⟩
    obtain ⟨rfl, rfl⟩ := hcodes
    have henc := THuffman.Encode_new L (List.replicate 4 97) _ [true, true, true, true] ht rfl
    refine ⟨⟨[], [], [], [], List.replicate 4 97, ⟨byteBits 2 ++ (letterBits 97 [true] ++
        (letterBits 98 [false] ++ ([false, false, false, true] ++ [true, true, true, true]))),
        0⟩⟩, ⟨[], [], [], [], List.replicate 4 97, ⟨byteBits 2 ++ (letterBits 97 [true] ++
        (letterBits 98 [false] ++ ([false, false, false, true] ++ [true, true, true, true]))),
        40⟩⟩, ?_, ?_, ?_⟩
    · rw [henc]
      rfl
    · rfl
    · decide

/-- C5 at `n = 1` on the x86 implementation: the codes of `'a'` and `'b'` are
1 bit long and the body of "a" is 1 bit long. -/
theorem C5_worked_example_witness :
    0 < 1 ∧
    ∃ (codeA codeB : List Bool) (h4 : THuffman) (body : List Bool),
      THuffman.encodeTables x86 (List.replicate 1 97) = some h4 ∧
      h4.bitTable = [(97, ⟨codeA, 0⟩), (98, ⟨codeB, 0⟩)] ∧
      codeA.length = 1 ∧ codeB.length = 1 ∧
      THuffman._EncodeText h4 = some body ∧ body.length = 1 :=
  ⟨by decide, (C5_worked_example x86 1 (by decide)).1⟩

/-- C6 as the claim states it fails at `v = 21474836480 = 5 * 2 ^ 32`, a
value of the `unsigned long` parameter: `v / 5 = 2 ^ 32` does not fit the
`unsigned int a`, so `AppendNumber` appends only "00", and `ReadNumber`
returns 0. -/
theorem C6_fails_at_5_times_2_pow_32 :
    TBitBuffer.new.AppendNumber_lp64 21474836480 = ⟨[false, false], 0⟩ ∧
      (TBitBuffer.new.AppendNumber_lp64 21474836480).ReadNumber_lp64
        = some (0, ⟨[false, false], 2⟩) := by
  decide

/-- C6, amended: for every value `v` below `2 ^ 32` and every bit buffer whose
marker stands at its end, after `AppendNumber(v)` and any further bits `rest`,
`ReadNumber` returns `v` and moves the marker forward by exactly the number of
bits that `AppendNumber` appended. -/
theorem C6_AppendNumber_ReadNumber (b : TBitBuffer) (v : Nat) (rest : List Bool)
    (hpos : b.bufferPos = b.bitsBuffer.length) (hv : v < 2 ^ 32) :
    ((b.AppendNumber_lp64 v).AppendBits rest).ReadNumber_lp64 =
      some (v, ⟨((b.AppendNumber_lp64 v).AppendBits rest).bitsBuffer,
        b.bufferPos + ((b.AppendNumber_lp64 v).bitsBuffer.length - b.bitsBuffer.length)⟩) := by
  have hu : ((b.AppendNumber v).AppendBits rest).unread =
      List.replicate (v / 5) true ++ false ::
        (List.replicate (v % 5) true ++ false :: rest) := by
    simp [TBitBuffer.unread, TBitBuffer.AppendBits, TBitBuffer.AppendNumber_eq, hpos]
  have h := (TBitBuffer.ReadNumber_of_unread _ v rest hu).1
  rw [TBitBuffer.AppendNumber_lp64_eq b v hv, TBitBuffer.ReadNumber_lp64_eq, h]
  simp [TBitBuffer.AppendBits, TBitBuffer.AppendNumber_eq]
  omega

/-- C6, amended, at the buffer "10" read to its end, the value 26 and the
following bits "11". -/
theorem C6_AppendNumber_ReadNumber_witness :
    (⟨[true, false], 2⟩ : TBitBuffer).bufferPos
        = (⟨[true, false], 2⟩ : TBitBuffer).bitsBuffer.length ∧
      26 < 2 ^ 32 ∧
      (((⟨[true, false], 2⟩ : TBitBuffer).AppendNumber_lp64 26).AppendBits
          [true, true]).ReadNumber_lp64 =
        some (26, ⟨(((⟨[true, false], 2⟩ : TBitBuffer).AppendNumber_lp64 26).AppendBits
            [true, true]).bitsBuffer,
          (⟨[true, false], 2⟩ : TBitBuffer).bufferPos +
            (((⟨[true, false], 2⟩ : TBitBuffer).AppendNumber_lp64 26).bitsBuffer.length -
              (⟨[true, false], 2⟩ : TBitBuffer).bitsBuffer.length)⟩) :=
  ⟨rfl, by decide,
    C6_AppendNumber_ReadNumber ⟨[true, false], 2⟩ 26 [true, true] rfl (by decide)⟩

/-- C7 as the spec states it fails at `v = 5`: `AppendNumber(5)` appends the 3
bits "100", not `a·2 + b·1 + 2 = 4` bits. -/
theorem C7_formula_fails_at_5 :
    (TBitBuffer.new.AppendNumber 5).bitsBuffer = [true, false, false] ∧
      (TBitBuffer.new.AppendNumber 5).bitsBuffer.length ≠
        TBitBuffer.new.bitsBuffer.length + (5 / 5 * 2 + 5 % 5 * 1 + 2) := by
  decide

/-- C7, amended: for every `v` in {0, 1, 2, 5, 25, 26}, with `a = v div 5` and
`b = v mod 5`, `AppendNumber(v)` appends exactly `a + b + 2` bits. -/
theorem C7_AppendNumber_length (b : TBitBuffer) (v : Nat)
    (_hv : v ∈ [0, 1, 2, 5, 25, 26]) :
    (b.AppendNumber v).bitsBuffer.length = b.bitsBuffer.length + (v / 5 + v % 5 + 2) := by
  simp [TBitBuffer.AppendNumber_eq]
  omega

/-- C7, amended, at the buffer "1" and the value 26: 8 bits are appended. -/
theorem C7_AppendNumber_length_witness :
    26 ∈ [0, 1, 2, 5, 25, 26] ∧
      ((⟨[true], 0⟩ : TBitBuffer).AppendNumber 26).bitsBuffer.length =
        (⟨[true], 0⟩ : TBitBuffer).bitsBuffer.length + (26 / 5 + 26 % 5 + 2) :=
  ⟨by decide, C7_AppendNumber_length ⟨[true], 0⟩ 26 (by decide)⟩

/-- C8 as the spec states it fails at `v = 24`: `AppendNumber(24)` appends the
10 bits "1111011110". -/
theorem C8_bound_fails_at_24 :
    24 ≤ 25 ∧
      (TBitBuffer.new.AppendNumber 24).bitsBuffer =
        [true, true, true, true, false, true, true, true, true, false] ∧
      ¬ (TBitBuffer.new.AppendNumber 24).bitsBuffer.length ≤ 8 := by
  decide

/-- C8, amended: for every `v` with `0 ≤ v ≤ 25`, `AppendNumber(v)` appends at
most 10 bits, and at most 8 bits unless `v` is 19, 23 or 24; 0 is written
"00", 1 is written "010" and 5 is written "100". -/
theorem C8_AppendNumber_bound (b : TBitBuffer) (v : Nat) (hv : v ≤ 25) :
    (b.AppendNumber v).bitsBuffer.length ≤ b.bitsBuffer.length + 10 ∧
      (v ≠ 19 → v ≠ 23 → v ≠ 24 →
        (b.AppendNumber v).bitsBuffer.length ≤ b.bitsBuffer.length + 8) ∧
      (b.AppendNumber 0).bitsBuffer = b.bitsBuffer ++ [false, false] ∧
      (b.AppendNumber 1).bitsBuffer = b.bitsBuffer ++ [false, true, false] ∧
      (b.AppendNumber 5).bitsBuffer = b.bitsBuffer ++ [true, false, false] := by
  refine ⟨?_, ?_, ?_, ?_, ?_⟩
  · simp [TBitBuffer.AppendNumber_eq]
    omega
  · intro h1 h2 h3
    simp [TBitBuffer.AppendNumber_eq]
    omega
  · simp [TBitBuffer.AppendNumber_eq]
  · simp [TBitBuffer.AppendNumber_eq, List.replicate]
  · simp [TBitBuffer.AppendNumber_eq, List.replicate]

/-- C8, amended, at the buffer "1" and the value 18, which takes 8 bits. -/
theorem C8_AppendNumber_bound_witness :
    18 ≤ 25 ∧
      ((⟨[true], 0⟩ : TBitBuffer).AppendNumber 18).bitsBuffer.length ≤
        (⟨[true], 0⟩ : TBitBuffer).bitsBuffer.length + 8 :=
  ⟨by decide,
    (C8_AppendNumber_bound ⟨[true], 0⟩ 18 (by decide)).2.1 (by decide) (by decide) (by decide)⟩

/-- C9: for every prior bit length `L` (and every buffer), `AppendPadding(L)`
appends `k` bits with `1 ≤ k ≤ 8`, namely `k - 1` zeros followed by one `1`,
and `(L + k) mod 8 = 0`; when `L` is a multiple of 8 the appended bits are the
full byte 00000001. The marker does not move. -/
theorem C9_AppendPadding (b : TBitBuffer) (L : Nat) :
    ∃ k : Nat, 1 ≤ k ∧ k ≤ 8 ∧
      b.AppendPadding L =
        ⟨b.bitsBuffer ++ (List.replicate (k - 1) false ++ [true]), b.bufferPos⟩ ∧
      (L + k) % 8 = 0 ∧
      (L % 8 = 0 →
        (b.AppendPadding L).bitsBuffer =
          b.bitsBuffer ++ [false, false, false, false, false, false, false, true]) := by
  refine ⟨8 - L % 8, by omega, by omega, ?_, by omega, ?_⟩
  · rw [TBitBuffer.AppendPadding_eq]
    have : 8 - L % 8 - 1 = 7 - L % 8 := by omega
    rw [this]
  · intro h0
    rw [TBitBuffer.AppendPadding_eq, h0]
    rfl

/-- C10: for every input, `Encode` returns; the bit stream it assembles is the
header with its padding, as `_WriteHeader` leaves it, followed by the body; the
length of that stream is a multiple of 8; the byte output has exactly that
length divided by 8 bytes; and expanding the output bytes gives back exactly
the stream, so `ReadAllBytes` filled in no bit after the body. -/
theorem C10_stream_byte_aligned (L : StdImpl) (input : List Byte) :
    ∃ (h4 : THuffman) (body : List Bool) (output : List Byte) (h7 : THuffman),
      THuffman.encodeTables L input = some h4 ∧
      THuffman._EncodeText h4 = some body ∧
      THuffman.Encode L THuffman.new input = some (output, h7) ∧
      h7.encodedText.bitsBuffer =
        (THuffman._WriteHeader h4 body.length).encodedText.bitsBuffer ++ body ∧
      h7.encodedText.bitsBuffer.length % 8 = 0 ∧
      output.length = h7.encodedText.bitsBuffer.length / 8 ∧
      (TBitBuffer.new.AssignBytes output).bitsBuffer = h7.encodedText.bitsBuffer := by
  obtain ⟨h4, ht, hp, _, hfind⟩ := THuffman.encodeTables_some L input
  obtain ⟨body, hb⟩ := THuffman.encodeLoop_some h4.bitTable h4.plainText
    (by rw [hp]; exact hfind) []
  have hlen : ((THuffman._WriteHeader h4 body.length).encodedText.bitsBuffer ++ body).length % 8
      = 0 := by
    rw [THuffman._WriteHeader_encodedText]
    simp only [List.length_append, List.length_replicate, List.length_cons, List.length_nil]
    omega
  have hx := TBitBuffer.ReadAllBytes_exact
    ⟨(THuffman._WriteHeader h4 body.length).encodedText.bitsBuffer ++ body, 0⟩ hlen
  refine ⟨h4, body, _, _, ht, hb, THuffman.Encode_new L input h4 body ht hb, rfl, hlen, hx.1, ?_⟩
  rw [TBitBuffer.AssignBytes_eq]
  exact hx.2

/-- C10 on the x86 implementation at the input "aaab". -/
theorem C10_stream_byte_aligned_witness :
    ∃ (h4 : THuffman) (body : List Bool) (output : List Byte) (h7 : THuffman),
      THuffman.encodeTables x86 [97, 97, 97, 98] = some h4 ∧
      THuffman._EncodeText h4 = some body ∧
      THuffman.Encode x86 THuffman.new [97, 97, 97, 98] = some (output, h7) ∧
      h7.encodedText.bitsBuffer =
        (THuffman._WriteHeader h4 body.length).encodedText.bitsBuffer ++ body ∧
      h7.encodedText.bitsBuffer.length % 8 = 0 ∧
      output.length = h7.encodedText.bitsBuffer.length / 8 ∧
      (TBitBuffer.new.AssignBytes output).bitsBuffer = h7.encodedText.bitsBuffer :=
  C10_stream_byte_aligned x86 [97, 97, 97, 98]


/-- C11 as the spec states it fails on "aaaa" (x86 implementation): header
and padding together are 36 bits long, which is not a multiple of 8, and the
4 body bits follow in the same byte. -/
theorem C11_header_end_is_not_aligned :
    ∃ h4 : THuffman,
      THuffman.encodeTables x86 (List.replicate 4 97) = some h4 ∧
      THuffman._EncodeText h4 = some [true, true, true, true] ∧
      (THuffman._WriteHeader h4 4).encodedText.bitsBuffer.length = 36 ∧
      ¬ 36 % 8 = 0 :=
  ⟨⟨[⟨.node 0 5 (.node 98 1 .null .null) (.node 97 4 .null .null)⟩],
      [(97, ⟨[true], 0⟩), (98, ⟨[false], 0⟩)], [(97, 4), (98, 1)], [], List.replicate 4 97,
      ⟨[], 0⟩⟩, by decide, by decide, by decide, by decide⟩

/-- C11, amended: for every input, the padding (0 to 7 zero bits and a one,
written after the count byte and the entries) byte-aligns the end of the body,
not of the header: the number of bits of header plus padding plus body is a
multiple of 8, so header plus padding is a multiple of 8 exactly when the body
length is one, and the expansion of the output bytes is exactly header,
padding and body: no bit of the output is zero-padding. -/
theorem C11_padding_aligns_the_whole_stream (L : StdImpl) (input : List Byte) :
    ∃ (h4 : THuffman) (body : List Bool) (zeros : Nat) (output : List Byte) (h7 : THuffman),
      THuffman.encodeTables L input = some h4 ∧
      THuffman._EncodeText h4 = some body ∧
      THuffman.Encode L THuffman.new input = some (output, h7) ∧
      zeros ≤ 7 ∧
      (THuffman._WriteHeader h4 body.length).encodedText.bitsBuffer =
        (byteBits (Fin.ofNat h4.bitTable.length) ++ lettersBits h4.bitTable) ++
          (List.replicate zeros false ++ [true]) ∧
      ((THuffman._WriteHeader h4 body.length).encodedText.bitsBuffer.length + body.length) % 8
        = 0 ∧
      ((THuffman._WriteHeader h4 body.length).encodedText.bitsBuffer.length % 8 = 0 ↔
        body.length % 8 = 0) ∧
      bytesBits output =
        (THuffman._WriteHeader h4 body.length).encodedText.bitsBuffer ++ body := by
  obtain ⟨h4, ht, hp, _, hfind⟩ := THuffman.encodeTables_some L input
  obtain ⟨body, hb⟩ := THuffman.encodeLoop_some h4.bitTable h4.plainText
    (by rw [hp]; exact hfind) []
  have hlen : ((THuffman._WriteHeader h4 body.length).encodedText.bitsBuffer.length
      + body.length) % 8 = 0 := by
    rw [THuffman._WriteHeader_encodedText]
    simp only [List.length_append, List.length_replicate, List.length_cons, List.length_nil]
    omega
  have hx := TBitBuffer.ReadAllBytes_exact
    ⟨(THuffman._WriteHeader h4 body.length).encodedText.bitsBuffer ++ body, 0⟩
    (by simpa only [List.length_append] using hlen)
  refine ⟨h4, body, _, _, _, ht, hb, THuffman.Encode_new L input h4 body ht hb, ?_,
    congrArg TBitBuffer.bitsBuffer (THuffman._WriteHeader_encodedText h4 body.length), hlen,
    ?_, hx.2⟩
  · omega
  · omega

/-- C12: for every byte sequence `B` (and every buffer), `AssignBytes(B)`
leaves `8·|B|` bits, each byte expanded most-significant bit first, with the
marker at 0, and `ReadAllBytes` on that buffer returns exactly `B`. -/
theorem C12_AssignBytes_ReadAllBytes (b : TBitBuffer) (B : List Byte) :
    (b.AssignBytes B).bitsBuffer.length = 8 * B.length ∧
      (b.AssignBytes B).bitsBuffer = msbBits B ∧
      (b.AssignBytes B).bufferPos = 0 ∧
      (b.AssignBytes B).ReadAllBytes = B := by
  refine ⟨?_, ?_, ?_, TBitBuffer.ReadAllBytes_AssignBytes b B⟩
  · rw [TBitBuffer.AssignBytes_eq]
    exact TBitBuffer.bytesBits_length B
  · rw [TBitBuffer.AssignBytes_eq]
    exact TBitBuffer.bytesBits_eq_msbBits B
  · rw [TBitBuffer.AssignBytes_eq]

/-- C13 as the usage example states it fails on the code: from "0000",
after `AppendByte(200)`, `AppendByte('a')` appends "01100001", not "10011111",
and after `AppendBits("00")` the buffer differs from
"00001100100010011111100". -/
theorem C13_usage_example_is_wrong :
    ((((TBitBuffer.new.AssignBits [false, false, false, false]).AppendByte 200).AppendByte
        97).bitsBuffer ≠
      ((TBitBuffer.new.AssignBits [false, false, false, false]).AppendByte 200).bitsBuffer ++
        [true, false, false, true, true, true, true, true]) ∧
    ((((TBitBuffer.new.AssignBits [false, false, false, false]).AppendByte 200).AppendByte
        97).AppendBits [false, false]).ReadAllBits ≠
      [false, false, false, false, true, true, false, false, true, false, false, false,
       true, false, false, true, true, true, true, true, true, false, false] := by
  decide

/-- C13, amended: starting from the bits "0000", `AppendByte(200)` appends
"11001000", `AppendByte('a')` appends "01100001", and after `AppendBits("00")`
`ReadAllBits` returns "0000110010000110000100". -/
theorem C13_usage_example :
    ((TBitBuffer.new.AssignBits [false, false, false, false]).AppendByte 200).bitsBuffer =
        [false, false, false, false] ++ [true, true, false, false, true, false, false, false] ∧
    (((TBitBuffer.new.AssignBits [false, false, false, false]).AppendByte 200).AppendByte
        97).bitsBuffer =
      ((TBitBuffer.new.AssignBits [false, false, false, false]).AppendByte 200).bitsBuffer ++
        [false, true, true, false, false, false, false, true] ∧
    ((((TBitBuffer.new.AssignBits [false, false, false, false]).AppendByte 200).AppendByte
        97).AppendBits [false, false]).ReadAllBits =
      [false, false, false, false, true, true, false, false, true, false, false, false,
       false, true, true, false, false, false, false, true, false, false] := by
  decide

/-- C14 as the claim states it fails on the buffer a throwing read leaves
behind. On the buffer "1" with its one bit read, `_ReadBit` throws and leaves
the marker at 2, past the end. There `Size()` is `2 ^ 64 - 1`, so that 1 does
not exceed `Size()`, and yet `ReadBits(1)` throws. -/
theorem C14_fails_after_a_thrown_read :
    (⟨[true], 1⟩ : TBitBuffer)._ReadBit = none ∧
      (⟨[true], 1⟩ : TBitBuffer)._ReadBit_thrown = ⟨[true], 2⟩ ∧
      (⟨[true], 2⟩ : TBitBuffer).Size = 2 ^ 64 - 1 ∧
      (⟨[true], 2⟩ : TBitBuffer).ReadBits 1 = none ∧
      ¬((⟨[true], 2⟩ : TBitBuffer).ReadBits 1 = none ↔
        (⟨[true], 2⟩ : TBitBuffer).Size < 1) := by
  decide

/-- C14, amended: for every bit buffer whose marker has not passed its end
(every buffer on which no read has thrown) and every `n`, `ReadBits(n)` throws
if and only if `n` exceeds `Size()`; otherwise it returns the next `n` unread
bits in order, moves the marker by `n` and so reduces `Size()` by exactly
`n`. -/
theorem C14_ReadBits (b : TBitBuffer) (n : Nat) (hpos : b.bufferPos ≤ b.bitsBuffer.length) :
    (b.ReadBits n = none ↔ b.Size < n) ∧
      (n ≤ b.Size →
        ∃ b1 : TBitBuffer,
          b.ReadBits n = some ((b.bitsBuffer.drop b.bufferPos).take n, b1) ∧
          b1.bitsBuffer = b.bitsBuffer ∧ b1.bufferPos = b.bufferPos + n ∧
          b1.Size = b.Size - n) := by
  rw [TBitBuffer.ReadBits_eq, TBitBuffer.unread_length b hpos]
  constructor
  · by_cases h : n ≤ b.Size
    · simp [h]
    · simp [h]
      omega
  · intro h
    refine ⟨⟨b.bitsBuffer, b.bufferPos + n⟩, ?_, rfl, rfl, ?_⟩
    · simp [h, TBitBuffer.unread]
    · simp only [TBitBuffer.Size, if_pos hpos] at h ⊢
      rw [if_pos (by omega)]
      omega

/-- C14, amended, at the buffer "10110" with two bits read, for `n = 2`
(returned) and `n = 4` (thrown). -/
theorem C14_ReadBits_witness :
    (⟨[true, false, true, true, false], 2⟩ : TBitBuffer).bufferPos
        ≤ (⟨[true, false, true, true, false], 2⟩ : TBitBuffer).bitsBuffer.length ∧
      (⟨[true, false, true, true, false], 2⟩ : TBitBuffer).ReadBits 2 =
        some ([true, true], ⟨[true, false, true, true, false], 4⟩) ∧
      ((⟨[true, false, true, true, false], 2⟩ : TBitBuffer).ReadBits 4 = none ↔
        (⟨[true, false, true, true, false], 2⟩ : TBitBuffer).Size < 4) :=
  ⟨by decide, by decide,
    (C14_ReadBits ⟨[true, false, true, true, false], 2⟩ 4 (by decide)).1⟩

/-- C15: for an input of 10,000 repetitions of one byte followed by at most
seven other bytes (for example three further distinct bytes occurring once
each), `Encode` returns an output (header, padding and body) with strictly
fewer bytes than the input, whatever the bytes are. -/
theorem C15_skewed_input_shrinks (L : StdImpl) (a : Byte) (rare : List Byte)
    (hr : rare.length ≤ 7) :
    ∃ (output : List Byte) (h7 : THuffman),
      THuffman.Encode L THuffman.new (List.replicate 10000 a ++ rare) = some (output, h7) ∧
      output.length < (List.replicate 10000 a ++ rare).length :=
  THuffman.Encode_skewed L 10000 (by omega) a rare hr

/-- C15 on the x86 implementation at 10,000 times `'a'` followed by "bcd". -/
theorem C15_skewed_input_shrinks_witness :
    ([98, 99, 100] : List Byte).length ≤ 7 ∧
    ∃ (output : List Byte) (h7 : THuffman),
      THuffman.Encode x86 THuffman.new (List.replicate 10000 (97 : Byte) ++ [98, 99, 100])
        = some (output, h7) ∧
      output.length < (List.replicate 10000 (97 : Byte) ++ [98, 99, 100]).length :=
  And.intro (by decide) (C15_skewed_input_shrinks x86 97 [98, 99, 100] (by decide))

/-- C16: the forest is in ascending order of root frequency after
`_PopulateForest` (`k = 0`) and after every turn of the merge loop of
`_BuildBitTree` (`buildLoop L k` is the forest after `k` turns, or the final
forest when the loop has stopped earlier); so when the loop takes the trees at
positions 0 and 1, their root frequencies are no greater than that of any other
tree of the forest. -/
theorem C16_forest_is_ascending (L : StdImpl) (h : THuffman) (k : Nat) :
    IsAscending (THuffman.buildLoop L k (THuffman._PopulateForest L h).forest) ∧
      ∀ (lowestFreqNode1 lowestFreqNode2 : THuffmanBTree) (rest : List THuffmanBTree),
        THuffman.buildLoop L k (THuffman._PopulateForest L h).forest =
          lowestFreqNode1 :: lowestFreqNode2 :: rest →
        lowestFreqNode1.GetRootFreq ≤ lowestFreqNode2.GetRootFreq ∧
          ∀ t ∈ rest, lowestFreqNode1.GetRootFreq ≤ t.GetRootFreq ∧
            lowestFreqNode2.GetRootFreq ≤ t.GetRootFreq := by
  have hasc : IsAscending (THuffman.buildLoop L k (THuffman._PopulateForest L h).forest) :=
    THuffman.buildLoop_ascending L k _ (THuffman.sort_ascending L _)
  refine ⟨hasc, ?_⟩
  intro n1 n2 rest heq
  rw [heq] at hasc
  unfold IsAscending at hasc
  rw [List.pairwise_cons, List.pairwise_cons] at hasc
  refine ⟨hasc.1 n2 (List.mem_cons_self _ _), ?_⟩
  intro t ht
  exact ⟨hasc.1 t (List.mem_cons_of_mem _ ht), hasc.2.1 t ht⟩

/-- C17: for every non-empty input (on a fresh instance), the forest of
`_PopulateForest` has one tree per entry of the frequency table, at least two;
after `k` turns of the merge loop it has `k` trees fewer, so the loop of
`_BuildBitTree` stops after exactly `forest.size() - 1` merges, with exactly
one tree. The leaves of that tree are the pairs of the frequency table, each
once; the frequency table has distinct symbols, every byte of the input with
its number of occurrences and otherwise only the filler with 1; the tree is a
tree of the merge step, every internal node having the sum of the frequencies
of its two children; and the root frequency is the sum of all counts. -/
theorem C17_one_tree_over_all_symbols (L : StdImpl) (input : List Byte)
    (hne : input ≠ []) :
    2 ≤ (THuffman.populated L input).forest.length ∧
    (THuffman.populated L input).forest.length
      = (THuffman.populated L input).freqTable.length ∧
    (∀ k, k + 1 ≤ (THuffman.populated L input).forest.length →
      (THuffman.buildLoop L k (THuffman.populated L input).forest).length =
        (THuffman.populated L input).forest.length - k) ∧
    ∃ tree : THuffmanBTree,
      (THuffman._BuildBitTree L (THuffman.populated L input)).forest = [tree] ∧
      THuffman.buildLoop L ((THuffman.populated L input).forest.length - 1)
        (THuffman.populated L input).forest = [tree] ∧
      (leaves tree.root).Perm (THuffman.populated L input).freqTable ∧
      ((THuffman.populated L input).freqTable.map Prod.fst).Nodup ∧
      (∀ c ∈ input,
        mapFind c (THuffman.populated L input).freqTable = some (input.count c)) ∧
      (∀ e ∈ (THuffman.populated L input).freqTable,
        (e.1 ∈ input ∧ e.2 = input.count e.1) ∨ (e.1 ∉ input ∧ e.2 = 1)) ∧
      isMerged tree.root = true ∧
      tree.GetRootFreq = ((THuffman.populated L input).freqTable.map Prod.snd).sum := by
  obtain ⟨hm, hperm, hlen⟩ := THuffman.populated_forest L input
  obtain ⟨hnd, h2, hcount, hother⟩ := THuffman.populated_freqTable L input
  have hlen2 : 2 ≤ (THuffman.populated L input).forest.length := by
    rw [hlen]
    exact h2 hne
  have hnil : (THuffman.populated L input).forest ≠ [] := by
    intro e
    rw [e] at hlen2
    simp at hlen2
  obtain ⟨tree, ht1, ht2, htm, htl⟩ :=
    THuffman.buildLoop_single L (THuffman.populated L input).forest hnil hm
  refine ⟨hlen2, hlen, fun k hk => THuffman.buildLoop_length_exact L k _ hk, tree, ht1, ht2,
    htl.trans hperm, hnd, hcount, hother, htm, ?_⟩
  show tree.root.freq = _
  rw [THuffman.freq_eq_sum_leaves _ htm]
  exact ((htl.trans hperm).map Prod.snd).sum_eq

/-- C17 on the x86 implementation at the input "abb". -/
theorem C17_one_tree_over_all_symbols_witness :
    ([97, 98, 98] : List Byte) ≠ [] ∧
    ∃ tree : THuffmanBTree,
      (THuffman._BuildBitTree x86 (THuffman.populated x86 [97, 98, 98])).forest = [tree] ∧
      (leaves tree.root).Perm (THuffman.populated x86 [97, 98, 98]).freqTable ∧
      tree.GetRootFreq = ((THuffman.populated x86 [97, 98, 98]).freqTable.map Prod.snd).sum :=
  ⟨by decide,
    (C17_one_tree_over_all_symbols x86 [97, 98, 98] (by decide)).2.2.2.imp
      (fun _ h => ⟨h.1, h.2.2.1, h.2.2.2.2.2.2.2⟩)⟩

/-- C18: for every non-empty input and whatever order the sort leaves equal
frequencies in, `_PopulateForest` and `_BuildBitTree` (on a fresh instance)
build one tree whose sum over the leaves of frequency × leaf depth is no
larger than that of any binary tree, full or not, whose leaves are the same
symbols with the same frequencies, those of the frequency table. -/
theorem C18_built_tree_is_optimal (L : StdImpl) (input : List Byte) (hne : input ≠ []) :
    ∃ tree : THuffmanBTree,
      (THuffman._BuildBitTree L (THuffman.populated L input)).forest = [tree] ∧
      (leaves tree.root).Perm (THuffman.populated L input).freqTable ∧
      ∀ other : node_t, (leaves other).Perm (THuffman.populated L input).freqTable →
        cost tree.root ≤ cost other := by
  obtain ⟨tree, ht, hl, hc⟩ := THuffman.built_cost L input hne
  refine ⟨tree, ht, hl, ?_⟩
  intro other ho
  have hnn : other ≠ .null := by
    intro e
    subst e
    have h2 := (THuffman.populated_freqTable L input).2.1 hne
    have := ho.length_eq
    simp only [leaves, List.length_nil] at this
    omega
  rw [hc, ← huffCost_perm _ _ (ho.map Prod.snd)]
  exact THuffman.huffCost_le_cost other hnn

/-- C18 on the x86 implementation at the input "abb". -/
theorem C18_built_tree_is_optimal_witness :
    ([97, 98, 98] : List Byte) ≠ [] ∧
    ∃ tree : THuffmanBTree,
      (THuffman._BuildBitTree x86 (THuffman.populated x86 [97, 98, 98])).forest = [tree] ∧
      (leaves tree.root).Perm (THuffman.populated x86 [97, 98, 98]).freqTable ∧
      ∀ other : node_t, (leaves other).Perm (THuffman.populated x86 [97, 98, 98]).freqTable →
        cost tree.root ≤ cost other :=
  And.intro (by decide) (C18_built_tree_is_optimal x86 [97, 98, 98] (by decide))

/-- C19: for every code table `codes` of at most 255 entries (symbol, code)
with pairwise distinct codes, every body and all instances, `_ReadHeader` on
the stream that `_WriteHeader` (given the length of the body) writes for the
table, followed by the body, returns; the `codeTable` it builds from an empty
one is the inverse table, a pair (code, symbol) for every entry and nothing
else, so that `find` of a code gives a symbol exactly for the entries of the
table; and, the padding read, the marker stands on the first bit of the
body. -/
theorem C19_header_round_trip (codes : List (Byte × List Bool)) (body : List Bool)
    (hW hR : THuffman) (hlen : codes.length ≤ 255) (hcodes : (codes.map Prod.snd).Nodup) :
    ∃ h1 : THuffman,
      THuffman._ReadHeader
        { hR with
          encodedText :=
            ⟨(THuffman._WriteHeader { hW with bitTable := tableOf codes }
              body.length).encodedText.bitsBuffer ++ body, 0⟩,
          codeTable := [] } = some h1 ∧
      h1.codeTable.Perm (inverseOf codes) ∧
      (∀ (code : List Bool) (c : Byte),
        mapFind code h1.codeTable = some c ↔ (c, code) ∈ codes) ∧
      h1.encodedText.bitsBuffer =
        (THuffman._WriteHeader { hW with bitTable := tableOf codes }
          body.length).encodedText.bitsBuffer ++ body ∧
      h1.encodedText.bufferPos =
        (THuffman._WriteHeader { hW with bitTable := tableOf codes }
          body.length).encodedText.bitsBuffer.length ∧
      h1.encodedText.unread = body ∧
      h1.plainText = hR.plainText := by
  have hstream := THuffman._WriteHeader_encodedText { hW with bitTable := tableOf codes }
    body.length
  simp only at hstream
  have hcount : (tableOf codes).length = codes.length := by simp [tableOf]
  rw [hcount] at hstream
  have hbits : (THuffman._WriteHeader { hW with bitTable := tableOf codes }
      body.length).encodedText.bitsBuffer ++ body =
      byteBits (Fin.ofNat codes.length) ++ (lettersBits (tableOf codes) ++
        (List.replicate (7 - ((byteBits (Fin.ofNat codes.length) ++
          lettersBits (tableOf codes)).length + body.length) % 8) false ++ true :: body)) := by
    rw [hstream]
    simp only [List.append_assoc, List.cons_append, List.nil_append]
  have hpos : (THuffman._WriteHeader { hW with bitTable := tableOf codes }
      body.length).encodedText.bitsBuffer.length =
      0 + 8 + (lettersBits (tableOf codes)).length + ((7 - ((byteBits (Fin.ofNat codes.length) ++
          lettersBits (tableOf codes)).length + body.length) % 8) + 1) := by
    rw [hstream]
    simp only [List.length_append, List.length_replicate, List.length_cons, List.length_nil,
      TBitBuffer.byteBits_length]
  rw [hbits, hpos]
  obtain ⟨hread, hunread⟩ := THuffman._ReadHeader_of_stream hR codes
    (7 - ((byteBits (Fin.ofNat codes.length) ++
          lettersBits (tableOf codes)).length + body.length) % 8) body (by omega) hlen
  have hperm := THuffman.insertCodes_perm codes [] hcodes (fun _ _ => rfl)
  simp only [List.nil_append] at hperm
  have hnodup : ((codes.foldl (fun acc e => mapInsert strLt e.2 e.1 acc)
      ([] : List (List Bool × Byte))).map Prod.fst).Nodup := by
    refine (List.Perm.nodup_iff (hperm.map Prod.fst)).2 ?_
    simpa [inverseOf] using hcodes
  refine ⟨_, hread, hperm, ?_, rfl, rfl, hunread, rfl⟩
  intro code c
  constructor
  · intro h
    have := hperm.subset (mem_of_mapFind _ _ _ h)
    simp only [inverseOf, List.mem_map, Prod.mk.injEq] at this
    obtain ⟨e, he, h1, h2⟩ := this
    rw [← h1, ← h2]
    exact he
  · intro h
    apply mapFind_of_mem _ hnodup
    apply hperm.symm.subset
    simp only [inverseOf, List.mem_map, Prod.mk.injEq]
    exact ⟨(c, code), h, rfl, rfl⟩

/-- C19 at the table {'a' -> "1", 'b' -> "0"} and the body "1111". -/
theorem C19_header_round_trip_witness :
    ([(97, [true]), (98, [false])] : List (Byte × List Bool)).length ≤ 255 ∧
    (([(97, [true]), (98, [false])] : List (Byte × List Bool)).map Prod.snd).Nodup ∧
    ∃ h1 : THuffman,
      THuffman._ReadHeader
        { THuffman.new with
          encodedText :=
            ⟨(THuffman._WriteHeader
              { THuffman.new with bitTable := tableOf [(97, [true]), (98, [false])] }
              ([true, true, true, true] : List Bool).length).encodedText.bitsBuffer
                ++ [true, true, true, true], 0⟩,
          codeTable := [] } = some h1 ∧
      h1.codeTable.Perm (inverseOf [(97, [true]), (98, [false])]) ∧
      h1.encodedText.unread = [true, true, true, true] :=
  ⟨by decide, by decide,
    (C19_header_round_trip [(97, [true]), (98, [false])] [true, true, true, true]
      THuffman.new THuffman.new (by decide) (by decide)).imp
      (fun _ h => ⟨h.1, h.2.1, h.2.2.2.2.2.1⟩)⟩

/-- C20: for every inverse code table whose codes are non-empty and
prefix-free (the code of an entry is a prefix of the code of no other entry),
every sequence `syms` of entries of the table and every instance, `_DecodeText`
with the marker on the first bit of the concatenation of the codes of `syms`
returns, has appended exactly the symbols of `syms` to `plainText`, and has read
every bit: `Size()` is 0. -/
theorem C20_decode_loop (codeTable syms : List (List Bool × Byte)) (h : THuffman)
    (header : List Bool)
    (hne : ∀ e ∈ codeTable, e.1 ≠ [])
    (hpf : ∀ e1 ∈ codeTable, ∀ e2 ∈ codeTable, e1.1 <+: e2.1 → e1 = e2)
    (hsyms : ∀ e ∈ syms, e ∈ codeTable) :
    ∃ h1 : THuffman,
      THuffman._DecodeText
        { h with codeTable := codeTable,
                 encodedText := ⟨header ++ concatCodes syms, header.length⟩ } = some h1 ∧
      h1.plainText = h.plainText ++ syms.map Prod.snd ∧
      h1.encodedText.bitsBuffer = header ++ concatCodes syms ∧
      h1.encodedText.Size = 0 ∧
      h1.codeTable = codeTable := by
  have hu : (⟨header ++ concatCodes syms, header.length⟩ : TBitBuffer).unread
      = concatCodes syms ++ [] := by
    simp [TBitBuffer.unread]
  obtain ⟨h1, _⟩ := THuffman.decodeLoop_syms codeTable hne hpf syms hsyms _ [] 0 h.plainText hu
  have hsize : (⟨header ++ concatCodes syms, header.length⟩ : TBitBuffer).Size
      = (concatCodes syms).length + 0 := by
    simp [TBitBuffer.Size]
  refine ⟨{ h with codeTable := codeTable,
                   encodedText := ⟨header ++ concatCodes syms,
                     header.length + (concatCodes syms).length⟩,
                   plainText := h.plainText ++ syms.map Prod.snd }, ?_, rfl, rfl, ?_, rfl⟩
  · simp only [THuffman._DecodeText, hsize, h1, THuffman.decodeLoop]
  · simp [TBitBuffer.Size]

/-- C20 at the table {"1" -> 'a', "01" -> 'b', "00" -> 'c'} and the symbols
"abca". -/
theorem C20_decode_loop_witness :
    ∃ h1 : THuffman,
      THuffman._DecodeText
        { THuffman.new with
          codeTable := [([true], 97), ([false, true], 98), ([false, false], 99)],
          encodedText := ⟨[false, true] ++ concatCodes
            [([true], 97), ([false, true], 98), ([false, false], 99), ([true], 97)],
            ([false, true] : List Bool).length⟩ } = some h1 ∧
      h1.plainText = THuffman.new.plainText ++
        ([([true], 97), ([false, true], 98), ([false, false], 99), ([true], 97)] :
          List (List Bool × Byte)).map Prod.snd :=
  (C20_decode_loop [([true], 97), ([false, true], 98), ([false, false], 99)]
    [([true], 97), ([false, true], 98), ([false, false], 99), ([true], 97)] THuffman.new
    [false, true] (by decide) (by decide) (by decide)).imp (fun _ h => ⟨h.1, h.2.1⟩)

/-- C21: when an in-memory `Encode` or `Decode` call on any instance returns,
`forest`, `bitTable`, `freqTable` and `codeTable` of the instance are empty,
and every later `Encode` or `Decode` call on it gives what the same call gives
on a freshly constructed instance (output and instance, or the same failure
to return). -/
theorem C21_calls_leave_the_tables_empty (L : StdImpl) (h : THuffman) (input : List Byte)
    (r : List Byte × THuffman)
    (hr : THuffman.Encode L h input = some r ∨ THuffman.Decode h input = some r) :
    r.2.forest = [] ∧ r.2.bitTable = [] ∧ r.2.freqTable = [] ∧ r.2.codeTable = [] ∧
    ∀ later : List Byte,
      THuffman.Encode L r.2 later = THuffman.Encode L THuffman.new later ∧
      THuffman.Decode r.2 later = THuffman.Decode THuffman.new later := by
  have ht : r.2.forest = [] ∧ r.2.bitTable = [] ∧ r.2.freqTable = [] ∧ r.2.codeTable = [] := by
    rcases hr with hr | hr
    · exact THuffman.Encode_tables L h input r hr
    · exact THuffman.Decode_tables h input r hr
  obtain ⟨h1, h2, h3, h4⟩ := ht
  exact ⟨h1, h2, h3, h4, fun later =>
    ⟨THuffman.Encode_clean L r.2 later h1 h2 h3 h4, THuffman.Decode_clean r.2 later h4⟩⟩

/-- C21 at the call `Encode("abb")` on a fresh instance (x86 implementation),
which returns the five bytes 2, 97, 70, 37, 11. -/
theorem C21_calls_leave_the_tables_empty_witness :
    (THuffman.Encode x86 THuffman.new [97, 98, 98] =
        some ([2, 97, 70, 37, 11],
          ⟨[], [], [], [], [97, 98, 98], ⟨bytesBits [2, 97, 70, 37, 11], 0⟩⟩) ∨
      THuffman.Decode THuffman.new [97, 98, 98] =
        some ([2, 97, 70, 37, 11],
          ⟨[], [], [], [], [97, 98, 98], ⟨bytesBits [2, 97, 70, 37, 11], 0⟩⟩)) ∧
    ∀ later : List Byte,
      THuffman.Encode x86 ⟨[], [], [], [], [97, 98, 98], ⟨bytesBits [2, 97, 70, 37, 11], 0⟩⟩
          later = THuffman.Encode x86 THuffman.new later ∧
      THuffman.Decode ⟨[], [], [], [], [97, 98, 98], ⟨bytesBits [2, 97, 70, 37, 11], 0⟩⟩ later
        = THuffman.Decode THuffman.new later :=
  ⟨Or.inl (by decide),
    (C21_calls_leave_the_tables_empty x86 THuffman.new [97, 98, 98]
      ([2, 97, 70, 37, 11], ⟨[], [], [], [], [97, 98, 98], ⟨bytesBits [2, 97, 70, 37, 11], 0⟩⟩)
      (Or.inl (by decide))).2.2.2.2⟩

/-- C22: for every byte sequence `S` without a byte of value 0 (the empty
sequence included; such a sequence has at most 255 distinct byte values),
`Encode` on a fresh instance returns, and `Decode` of its output, on the same
instance afterwards as well as on a fresh one, returns exactly `S`. -/
theorem C22_Decode_undoes_Encode (L : StdImpl) (S : List Byte) (h0 : (0 : Byte) ∉ S) :
    S.dedup.length ≤ 255 ∧
    ∃ (output : List Byte) (h7 h9 : THuffman),
      THuffman.Encode L THuffman.new S = some (output, h7) ∧
      THuffman.Decode h7 output = some (S, h9) ∧
      THuffman.Decode THuffman.new output = some (S, h9) := by
  refine ⟨THuffman.nodup_nonzero_length_le _ (List.nodup_dedup S)
    (fun h => h0 (List.mem_dedup.1 h)), ?_⟩
  obtain ⟨output, h7, h9, henc, hclean, hdec⟩ := THuffman.Decode_Encode L S h0
  refine ⟨output, h7, h9, henc, ?_, hdec⟩
  rw [THuffman.Decode_clean h7 output hclean]
  exact hdec

/-- C22 on the x86 implementation at the input "abb". -/
theorem C22_Decode_undoes_Encode_witness :
    (0 : Byte) ∉ ([97, 98, 98] : List Byte) ∧
    ∃ (output : List Byte) (h7 h9 : THuffman),
      THuffman.Encode x86 THuffman.new [97, 98, 98] = some (output, h7) ∧
      THuffman.Decode h7 output = some ([97, 98, 98], h9) ∧
      THuffman.Decode THuffman.new output = some ([97, 98, 98], h9) :=
  And.intro (by decide) (C22_Decode_undoes_Encode x86 [97, 98, 98] (by decide)).2

/-- C23: for every input, `Encode` (on a fresh instance) returns, so that no
`forest.at`, no lookup in `bitTable` and no `plainText.at` failed; on the empty
input it returns the two bytes 0x00 0x01; and `Decode` of the output of
`Encode`, on any instance, returns as well, with the marker of `encodedText`
exactly at the end of the bits of the stream: every read was inside the
stream. -/
theorem C23_Encode_and_Decode_stay_in_range (L : StdImpl) (input : List Byte) :
    (∃ h7 : THuffman, THuffman.Encode L THuffman.new [] = some ([0, 1], h7)) ∧
    ∃ (output : List Byte) (h7 : THuffman),
      THuffman.Encode L THuffman.new input = some (output, h7) ∧
      ∀ hd : THuffman, ∃ (text : List Byte) (h9 : THuffman),
        THuffman.Decode hd output = some (text, h9) ∧
        h9.encodedText.bitsBuffer = bytesBits output ∧
        h9.encodedText.bufferPos = (bytesBits output).length := by
  refine ⟨⟨_, THuffman.Encode_nil L⟩, ?_⟩
  obtain ⟨h4, body, output, h7, z, _, _, _, henc, _, hz, hlen, hout⟩ :=
    THuffman.Encode_stream L input
  exact ⟨output, h7, henc, fun hd => THuffman.Decode_returns hd output _ z body hz hlen hout⟩

end THuff
